import Mathlib

/-!
# Neural_network.cpp: a shallow embedding of the network engine

The embedding follows `src/NeuralNetwork_cpp/Neural_network.cpp`.

* `double` is an arbitrary carrier `F` with the operations the code uses
  (`+ - * /`, the literals `0.0` and `1.0`, conversion from an integer) and the
  two library functions `tanh` and `sqrt` passed as parameters.  Structural
  results therefore hold for every interpretation of the arithmetic; numeric
  results instantiate `F` with the real numbers.
* `vector<T>` is `List T`.  `operator[]` out of range and `back()` on an empty
  vector are undefined behaviour in the source; the embedding makes them the
  error branch of `Except Fault`.
* `size() - 1` and `size() - 2` are computed in `size_t` (64 bit, wrapping) and,
  where the source stores them in an `unsigned`, truncated to 32 bit.  Loop
  counters are natural numbers: vectors are taken to be shorter than `2^32`.
  The predicate `Fits` states this of a topology and is a hypothesis of the
  results about constructed networks.
* The division `m_error /= outputLayer.size() - 1` faults on a zero divisor.
* `rand()` is a stream of generator outputs together with the number of calls
  made so far; members the constructors leave uninitialised take the value
  `indet` of the platform.
* Every loop body is a definition of its own, named after the function it
  belongs to; the static members `eta`, `alpha` and the smoothing factor are
  the fields of `Statics`.
* `mainPass` is one pass through the loop of `main` on the vectors read from
  the training file, with `assert` enabled.
* `TrainingData::getTopology` is modelled on the characters of the line it
  reads, with the `eofbit` and `failbit` of the `stringstream`; the content of
  the `unsigned n` that an extraction leaves unassigned is the parameter
  `indet` of the model.  `mainSetup` is the part of `main` before its loop.
-/

set_option linter.unusedSectionVars false

set_option linter.unusedVariables false

namespace NeuralNetwork

/-! ## Faults, checked vector access, wrapping size arithmetic -/

/-- Undefined behaviour the source can run into. -/
inductive Fault where
  | outOfRange
  | emptyBack
  | divByZero
  deriving DecidableEq, Repr

/-- The checked reading of `v[i]`. -/
def vget {α : Type} (v : List α) (i : Nat) : Except Fault α :=
  match v[i]? with
  | some x => .ok x
  | none => .error .outOfRange

/-- The checked reading of `v.back()`. -/
def vback {α : Type} (v : List α) : Except Fault α :=
  match v.getLast? with
  | some x => .ok x
  | none => .error .emptyBack

/-- Subtraction `a - b` in `size_t`, wrapping modulo `2^64`. -/
def sizeSub (a b : Nat) : Nat := (a + 2 ^ 64 - b) % 2 ^ 64

/-- Conversion of a `size_t` value to `unsigned`. -/
def toUnsigned (a : Nat) : Nat := a % 2 ^ 32

/-! ## Loops -/

/-- The loop `for (n = start; <count more iterations>; n++) body`, stopping at
the first fault. -/
def loopUp {σ : Type} (body : Nat → σ → Except Fault σ) : Nat → Nat → σ → Except Fault σ
  | 0, _, s => .ok s
  | k + 1, n, s =>
    match body n s with
    | .ok s' => loopUp body k (n + 1) s'
    | .error e => .error e

/-- The loop `for (n = lo; n < hi; n++) body`. -/
def forUp {σ : Type} (lo hi : Nat) (body : Nat → σ → Except Fault σ) (s : σ) :
    Except Fault σ :=
  loopUp body (hi - lo) lo s

/-- The loop `for (n = start; n > 0; --n) body`. -/
def forDown {σ : Type} (body : Nat → σ → Except Fault σ) : Nat → σ → Except Fault σ
  | 0, s => .ok s
  | n + 1, s =>
    match body (n + 1) s with
    | .ok s' => forDown body n s'
    | .error e => .error e

/-- A loop `for (n = start; <count more iterations>; n++) body` whose body cannot fault. -/
def forPure {σ : Type} (body : Nat → σ → σ) : Nat → Nat → σ → σ
  | 0, _, s => s
  | k + 1, n, s => forPure body k (n + 1) (body n s)

/-! ## Data model -/

/-- The struct `Connection`. -/
structure Connection (F : Type) where
  weight : F
  deltaWeight : F
  deriving DecidableEq, Repr

/-- The class `Neuron`. -/
structure Neuron (F : Type) where
  m_outputVal : F
  m_gradient : F
  m_myIndex : Nat
  m_outputWeights : List (Connection F)
  deriving DecidableEq, Repr

/-- The typedef `Layer`. -/
abbrev Layer (F : Type) := List (Neuron F)

/-- The class `Net`. -/
structure Net (F : Type) where
  m_layers : List (Layer F)
  m_error : F
  m_recentAverageError : F
  deriving DecidableEq, Repr

/-- What the C library and the machine supply: `RAND_MAX`, the successive
results of `rand()`, and the content of uninitialised `double` members. -/
structure Platform (F : Type) where
  RAND_MAX : Nat
  rand : Nat → Nat
  indet : F

/-- The static members `Neuron::eta`, `Neuron::alpha` and
`Net::m_recentAverageSmoothingFactor`. -/
structure Statics (F : Type) where
  eta : F
  alpha : F
  m_recentAverageSmoothingFactor : F

section Engine

variable {F : Type} [Zero F] [One F] [Add F] [Sub F] [Mul F] [Div F] [NatCast F]

/-- The initial values of the static members: `0.15`, `0.5` and `100.0`. -/
def Statics.initial : Statics F :=
  ⟨((15 : Nat) : F) / ((100 : Nat) : F), ((5 : Nat) : F) / ((10 : Nat) : F), ((100 : Nat) : F)⟩

/-! ## Neuron -/

/-- `Neuron::setOutputVal`. -/
def Neuron.setOutputVal (self : Neuron F) (val : F) : Neuron F :=
  { self with m_outputVal := val }

/-- `Neuron::getOutputVal`. -/
def Neuron.getOutputVal (self : Neuron F) : F := self.m_outputVal

/-- `Neuron::randomWeight`: `rand() / double(RAND_MAX)`, with the number of
calls of `rand()` made so far. -/
def Neuron.randomWeight (P : Platform F) (calls : Nat) : F × Nat :=
  (((P.rand calls : Nat) : F) / ((P.RAND_MAX : Nat) : F), calls + 1)

/-- `Neuron::transferFunction`. -/
def Neuron.transferFunction (tanh : F → F) (x : F) : F := tanh x

/-- `Neuron::transferFunctionDerivative`. -/
def Neuron.transferFunctionDerivative (x : F) : F := 1 - x * x

/-- Body of the loop of `Neuron::Neuron`: a value-initialised `Connection` is
appended and its weight set to `randomWeight()`. -/
def Neuron.new.pushConnection (P : Platform F) (_c : Nat) (st : List (Connection F) × Nat) :
    List (Connection F) × Nat :=
  let w := Neuron.randomWeight P st.2
  (st.1 ++ [{ weight := w.1, deltaWeight := 0 }], w.2)

/-- `Neuron::Neuron`; `m_outputVal` and `m_gradient` are left uninitialised. -/
def Neuron.new (P : Platform F) (numOutputs myIndex : Nat) (calls : Nat) : Neuron F × Nat :=
  let r := forPure (Neuron.new.pushConnection P) numOutputs 0 ([], calls)
  ({ m_outputVal := P.indet, m_gradient := P.indet, m_myIndex := myIndex,
     m_outputWeights := r.1 }, r.2)

/-- Body of the loop of `Neuron::feedForward`. -/
def Neuron.feedForward.addTerm (self : Neuron F) (prevLayer : Layer F) (n : Nat) (sum : F) :
    Except Fault F := do
  let p ← vget prevLayer n
  let c ← vget p.m_outputWeights self.m_myIndex
  pure (sum + p.getOutputVal * c.weight)

/-- `Neuron::feedForward`. -/
def Neuron.feedForward (tanh : F → F) (self : Neuron F) (prevLayer : Layer F) :
    Except Fault (Neuron F) := do
  let sum ← forUp 0 prevLayer.length (Neuron.feedForward.addTerm self prevLayer) 0
  pure { self with m_outputVal := Neuron.transferFunction tanh sum }

/-- Body of the loop of `Neuron::sumDOW`. -/
def Neuron.sumDOW.addTerm (self : Neuron F) (nextLayer : Layer F) (n : Nat) (sum : F) :
    Except Fault F := do
  let c ← vget self.m_outputWeights n
  let x ← vget nextLayer n
  pure (sum + c.weight * x.m_gradient)

/-- `Neuron::sumDOW`. -/
def Neuron.sumDOW (self : Neuron F) (nextLayer : Layer F) : Except Fault F :=
  forUp 0 (sizeSub nextLayer.length 1) (Neuron.sumDOW.addTerm self nextLayer) 0

/-- `Neuron::calcHiddenGradients`. -/
def Neuron.calcHiddenGradients (self : Neuron F) (nextLayer : Layer F) :
    Except Fault (Neuron F) := do
  let dow ← self.sumDOW nextLayer
  pure { self with m_gradient := dow * Neuron.transferFunctionDerivative self.m_outputVal }

/-- `Neuron::calcOutputGradients`. -/
def Neuron.calcOutputGradients (self : Neuron F) (targetVals : F) : Neuron F :=
  let delta := targetVals - self.m_outputVal
  { self with m_gradient := delta * Neuron.transferFunctionDerivative self.m_outputVal }

/-- The two assignments of `Neuron::updateInputWeights` to one connection. -/
def Connection.update (S : Statics F) (outputVal gradient : F) (c : Connection F) :
    Connection F :=
  let oldDeltaWeight := c.deltaWeight
  let newDeltaWeight := S.eta * outputVal * gradient + S.alpha * oldDeltaWeight
  { weight := c.weight + newDeltaWeight, deltaWeight := newDeltaWeight }

/-- Body of the loop of `Neuron::updateInputWeights`. -/
def Neuron.updateInputWeights.step (S : Statics F) (self : Neuron F) (n : Nat)
    (prevLayer : Layer F) : Except Fault (Layer F) := do
  let neuron ← vget prevLayer n
  let c ← vget neuron.m_outputWeights self.m_myIndex
  let c' := Connection.update S neuron.getOutputVal self.m_gradient c
  pure (prevLayer.set n { neuron with
    m_outputWeights := neuron.m_outputWeights.set self.m_myIndex c' })

/-- `Neuron::updateInputWeights`: returns the updated `prevLayer`. -/
def Neuron.updateInputWeights (S : Statics F) (self : Neuron F) (prevLayer : Layer F) :
    Except Fault (Layer F) :=
  forUp 0 prevLayer.length (Neuron.updateInputWeights.step S self) prevLayer

/-! ## Net -/

/-- Body of the inner loop of `Net::Net`:
`m_layers.back().push_back(Neuron(numOutputs, neuroNum))`. -/
def Net.new.pushNeuron (P : Platform F) (numOutputs neuroNum : Nat) (st : Layer F × Nat) :
    Layer F × Nat :=
  let nr := Neuron.new P numOutputs neuroNum st.2
  (st.1 ++ [nr.1], nr.2)

/-- Body of the outer loop of `Net::Net`: one layer of `topology[layerNum] + 1`
neurons, the last of which gets the output value `1.0`. -/
def Net.new.pushLayer (P : Platform F) (topology : List Nat) (layerNum : Nat)
    (st : List (Layer F) × Nat) : Except Fault (List (Layer F) × Nat) := do
  let numOutputs ←
    (if layerNum = sizeSub topology.length 1 then pure 0 else vget topology (layerNum + 1))
  let width ← vget topology layerNum
  let filled := forPure (Net.new.pushNeuron P numOutputs) (width + 1) 0 ([], st.2)
  let bias ← vback filled.1
  pure (st.1 ++ [filled.1.set (filled.1.length - 1) (bias.setOutputVal 1)], filled.2)

/-- `Net::Net`, with the number of `rand()` calls made before and after. -/
def Net.new (P : Platform F) (topology : List Nat) (calls : Nat) :
    Except Fault (Net F × Nat) := do
  let numLayers := toUnsigned topology.length
  let r ← forUp 0 numLayers (Net.new.pushLayer P topology) ([], calls)
  pure ({ m_layers := r.1, m_error := P.indet, m_recentAverageError := P.indet }, r.2)

/-- Body of the loop of `Net::getResults`. -/
def Net.getResults.push (last : Layer F) (n : Nat) (resultVals : List F) :
    Except Fault (List F) := do
  let x ← vget last n
  pure (resultVals ++ [x.getOutputVal])

/-- `Net::getResults`. -/
def Net.getResults (self : Net F) : Except Fault (List F) := do
  let last ← vback self.m_layers
  forUp 0 (sizeSub last.length 1) (Net.getResults.push last) []

/-- Body of the first loop of `Net::feedForward`:
`m_layers[0][i].setOutputVal(inputVals[i])`. -/
def Net.feedForward.assignInput (inputVals : List F) (i : Nat) (layers : List (Layer F)) :
    Except Fault (List (Layer F)) := do
  let l0 ← vget layers 0
  let x ← vget l0 i
  let v ← vget inputVals i
  pure (layers.set 0 (l0.set i (x.setOutputVal v)))

/-- Body of the inner loop of `Net::feedForward`:
`m_layers[layerNum][n].feedForward(prevLayer)`. -/
def Net.feedForward.fire (tanh : F → F) (prevLayer : Layer F) (n : Nat) (layer : Layer F) :
    Except Fault (Layer F) := do
  let x ← vget layer n
  let x ← x.feedForward tanh prevLayer
  pure (layer.set n x)

/-- Body of the second loop of `Net::feedForward`: forward propagation into
layer `layerNum` from the layer before it. -/
def Net.feedForward.propagateInto (tanh : F → F) (layerNum : Nat) (layers : List (Layer F)) :
    Except Fault (List (Layer F)) := do
  let prevLayer ← vget layers (layerNum - 1)
  let layer ← vget layers layerNum
  let layer ← forUp 0 (sizeSub layer.length 1) (Net.feedForward.fire tanh prevLayer) layer
  pure (layers.set layerNum layer)

/-- `Net::feedForward`. -/
def Net.feedForward (tanh : F → F) (self : Net F) (inputVals : List F) :
    Except Fault (Net F) := do
  let layers ← forUp 0 inputVals.length (Net.feedForward.assignInput inputVals) self.m_layers
  let layers ← forUp 1 layers.length (Net.feedForward.propagateInto tanh) layers
  pure { self with m_layers := layers }

/-- First loop of `Net::backProp`: the sum of squared differences. -/
def Net.backProp.addSquare (targetVals : List F) (outputLayer : Layer F) (n : Nat)
    (m_error : F) : Except Fault F := do
  let t ← vget targetVals n
  let x ← vget outputLayer n
  let delta := t - x.getOutputVal
  pure (m_error + delta * delta)

/-- Body of the second loop of `Net::backProp`:
`outputLayer[n].calcOutputGradients(targetVals[n])`. -/
def Net.backProp.outputGradient (targetVals : List F) (n : Nat) (outputLayer : Layer F) :
    Except Fault (Layer F) := do
  let x ← vget outputLayer n
  let t ← vget targetVals n
  pure (outputLayer.set n (x.calcOutputGradients t))

/-- Body of the inner loop over a hidden layer:
`hiddenLayer[n].calcHiddenGradients(nextLayer)`. -/
def Net.backProp.hiddenGradient (nextLayer : Layer F) (n : Nat) (hiddenLayer : Layer F) :
    Except Fault (Layer F) := do
  let x ← vget hiddenLayer n
  let x ← x.calcHiddenGradients nextLayer
  pure (hiddenLayer.set n x)

/-- Body of the third loop of `Net::backProp`: the gradients of layer `layerNum`. -/
def Net.backProp.hiddenLayerGradients (layerNum : Nat) (layers : List (Layer F)) :
    Except Fault (List (Layer F)) := do
  let hiddenLayer ← vget layers layerNum
  let nextLayer ← vget layers (layerNum + 1)
  let hiddenLayer ← forUp 0 hiddenLayer.length (Net.backProp.hiddenGradient nextLayer) hiddenLayer
  pure (layers.set layerNum hiddenLayer)

/-- Body of the inner loop of the weight update:
`layer[n].updateInputWeights(prevLayer)`. -/
def Net.backProp.updateFrom (S : Statics F) (layer : Layer F) (n : Nat) (prevLayer : Layer F) :
    Except Fault (Layer F) := do
  let x ← vget layer n
  x.updateInputWeights S prevLayer

/-- Body of the fourth loop of `Net::backProp`: the weights into layer `layerNum`,
held by the neurons of layer `layerNum - 1`. -/
def Net.backProp.updateLayer (S : Statics F) (layerNum : Nat) (layers : List (Layer F)) :
    Except Fault (List (Layer F)) := do
  let layer ← vget layers layerNum
  let prevLayer ← vget layers (layerNum - 1)
  let prevLayer ← forUp 0 (sizeSub layer.length 1) (Net.backProp.updateFrom S layer) prevLayer
  pure (layers.set (layerNum - 1) prevLayer)

/-- The division of a `double` by a vector size converted to `double`; a zero divisor is
a fault. -/
def divBySize (x : F) (size : Nat) : Except Fault F :=
  if size = 0 then .error .divByZero else .ok (x / ((size : Nat) : F))

/-- `Net::backProp`. -/
def Net.backProp (sqrt : F → F) (S : Statics F) (self : Net F) (targetVals : List F) :
    Except Fault (Net F) := do
  let outputLayer ← vback self.m_layers
  let width := sizeSub outputLayer.length 1
  let m_error ← forUp 0 width (Net.backProp.addSquare targetVals outputLayer) 0
  let m_error ← divBySize m_error width
  let m_error := sqrt m_error
  let m_recentAverageError :=
    (self.m_recentAverageError * S.m_recentAverageSmoothingFactor + m_error)
      / (S.m_recentAverageSmoothingFactor + 1)
  let outputLayer ← forUp 0 width (Net.backProp.outputGradient targetVals) outputLayer
  let layers := self.m_layers.set (self.m_layers.length - 1) outputLayer
  let layers ← forDown Net.backProp.hiddenLayerGradients
    (toUnsigned (sizeSub layers.length 2)) layers
  let layers ← forDown (Net.backProp.updateLayer S) (toUnsigned (sizeSub layers.length 1)) layers
  pure { m_layers := layers, m_error := m_error, m_recentAverageError := m_recentAverageError }

/-! ## Callers -/

/-- A call of one of the two passes of the network. -/
inductive Call (F : Type) where
  | feedForward (inputVals : List F)
  | backProp (targetVals : List F)

/-- A sequence of calls of `Net::feedForward` and `Net::backProp` on one network. -/
def Net.run (tanh sqrt : F → F) (S : Statics F) : Net F → List (Call F) → Except Fault (Net F)
  | net, [] => .ok net
  | net, Call.feedForward inputVals :: cs => do
    let net ← net.feedForward tanh inputVals
    Net.run tanh sqrt S net cs
  | net, Call.backProp targetVals :: cs => do
    let net ← net.backProp sqrt S targetVals
    Net.run tanh sqrt S net cs

/-- The network with every connection weight set to `w` (the deterministic
initialisation the end-to-end scenario of the specification asks for in place of the
random one). -/
def Net.withWeights (w : F) (net : Net F) : Net F :=
  { net with m_layers := net.m_layers.map (fun l => l.map (fun x =>
      { x with m_outputWeights := x.m_outputWeights.map (fun c => { c with weight := w }) })) }

/-- How one pass through the loop of `main` ends. -/
inductive Pass (F : Type) where
  | stopped (net1 : Net F)
  | aborted
  | trained (net1 : Net F) (resultVals : List F)

/-- One pass through the loop of `main`, for the vectors that `getNextInputs` and
`getTargetOutputs` read: `break` when the number of inputs differs from `topology[0]`, the
failed `assert` when the number of targets differs from `topology.back()`. -/
def mainPass (tanh sqrt : F → F) (S : Statics F) (topology : List Nat) (net1 : Net F)
    (inputVals targetVals : List F) : Except Fault (Pass F) := do
  let first ← vget topology 0
  if inputVals.length ≠ first then
    pure (Pass.stopped net1)
  else do
    let net1 ← net1.feedForward tanh inputVals
    let resultVals ← net1.getResults
    let last ← vback topology
    if targetVals.length ≠ last then
      pure Pass.aborted
    else do
      let net1 ← net1.backProp sqrt S targetVals
      pure (Pass.trained net1 resultVals)

end Engine

/-! ## TrainingData

`TrainingData::getTopology` is modelled on the text of the line that `getline` delivers and
on the state of `eofbit` of the file after that `getline`.  The extraction operators follow
the formatted input functions of the standard library (C++11 and later, "C" locale): a
sentry that fails on a stream that is not `good()`, skips white space and sets `eofbit` and
`failbit` when the characters run out; an extraction that leaves its target unassigned
when the sentry fails, stores `0` when no digit is found and the largest value when the
digits overflow, and sets `eofbit` when it reads up to the end.  A numeric field that
starts with a sign is not modelled. -/

/-- The state of a `std::stringstream` that is only read: the characters not yet
extracted, `eofbit` and `failbit`. -/
structure SStream where
  rest : List Char
  eofbit : Bool
  failbit : Bool
  deriving DecidableEq, Repr

/-- The function `isspace` in the "C" locale: the space and the characters 9 to 13. -/
def isSpaceChar (c : Char) : Bool :=
  c.toNat = 32 || (9 ≤ c.toNat && c.toNat ≤ 13)

/-- The sentry of a formatted input function, with its truth value. -/
def SStream.sentry (ss : SStream) : SStream × Bool :=
  if ss.eofbit || ss.failbit then
    ({ ss with failbit := true }, false)
  else
    match ss.rest.dropWhile isSpaceChar with
    | [] => (⟨[], true, true⟩, false)
    | c :: cs => (⟨c :: cs, false, false⟩, true)

/-- The extraction `ss >> label` of a `std::string`: the characters up to the next white
space; `label` is kept when the sentry fails. -/
def SStream.readWord (ss : SStream) (label : List Char) : SStream × List Char :=
  match ss.sentry with
  | (ss, false) => (ss, label)
  | (ss, true) =>
    let rest := ss.rest.dropWhile (fun c => !isSpaceChar c)
    (⟨rest, rest.isEmpty, false⟩, ss.rest.takeWhile (fun c => !isSpaceChar c))

/-- The number written by a sequence of decimal digits. -/
def digitsValue (digits : List Char) : Nat :=
  digits.foldl (fun v c => 10 * v + (c.toNat - 48)) 0

/-- What an extraction `ss >> n` does to the `unsigned n`. -/
inductive Assigned where
  | kept
  | set (n : Nat)
  | signed
  deriving DecidableEq, Repr

/-- The extraction `ss >> n` of an `unsigned`. -/
def SStream.readUnsigned (ss : SStream) : SStream × Assigned :=
  match ss.sentry with
  | (ss, false) => (ss, Assigned.kept)
  | (ss, true) =>
    match ss.rest with
    | [] => (ss, Assigned.kept)
    | c :: _ =>
      if c.isDigit then
        let rest := ss.rest.dropWhile Char.isDigit
        let n := digitsValue (ss.rest.takeWhile Char.isDigit)
        if n < 2 ^ 32 then (⟨rest, rest.isEmpty, false⟩, Assigned.set n)
        else (⟨rest, rest.isEmpty, true⟩, Assigned.set (2 ^ 32 - 1))
      else if c.toNat = 43 || c.toNat = 45 then (ss, Assigned.signed)
      else (⟨ss.rest, false, true⟩, Assigned.set 0)

/-- How a call of `TrainingData::getTopology` ends: with `abort()`, with a return, or not
at all (the stream has failed before its end, and the loop appends the unassigned `n` for
ever); `unmodelled` stands for a numeric field with a sign, `unfinished` for a loop cut
off by the bound on its passes. -/
inductive Reading where
  | aborted
  | returned (topology : List Nat)
  | endless (topology : List Nat)
  | unmodelled
  | unfinished
  deriving DecidableEq, Repr

/-- The loop `while (!ss.eof()) { unsigned n; ss >> n; topology.push_back(n); }`, for at
most `passes` passes; `indet k` is the content of the unassigned `n` when `k` elements
are in the vector. -/
def TrainingData.getTopology.loop (indet : Nat → Nat) :
    Nat → SStream → List Nat → Reading
  | 0, _, _ => Reading.unfinished
  | passes + 1, ss, topology =>
    if ss.eofbit then Reading.returned topology
    else if ss.failbit then Reading.endless topology
    else
      match ss.readUnsigned with
      | (ss, Assigned.kept) =>
        TrainingData.getTopology.loop indet passes ss
          (topology ++ [indet topology.length % 2 ^ 32])
      | (ss, Assigned.set n) =>
        TrainingData.getTopology.loop indet passes ss (topology ++ [n])
      | (_, Assigned.signed) => Reading.unmodelled

/-- `TrainingData::getTopology`, for the line read by `getline` and the state of `eofbit`
of the file after it. A pass of the loop on a good stream ends the stream, fails or
extracts a character, so that `line.length + 2` passes are enough. -/
def TrainingData.getTopology (indet : Nat → Nat) (topology : List Nat) (line : List Char)
    (fileEof : Bool) : Reading :=
  match (SStream.mk line false false).readWord [] with
  | (ss, label) =>
    if fileEof || label ≠ (("topology:").toList) then Reading.aborted
    else TrainingData.getTopology.loop indet (line.length + 2) ss topology

/-- The first statements of `main`: the topology is read and handed to `Net::Net`. The
result is `none` when `getTopology` does not return. -/
def mainSetup {F : Type} [Zero F] [One F] [Add F] [Sub F] [Mul F] [Div F] [NatCast F]
    (P : Platform F) (indet : Nat → Nat) (line : List Char) (fileEof : Bool) :
    Except Fault (Option (List Nat × Net F)) :=
  match TrainingData.getTopology indet [] line fileEof with
  | Reading.returned topology =>
    match Net.new P topology 0 with
    | .ok r => .ok (some (topology, r.1))
    | .error e => .error e
  | _ => .ok none

/-! # Definitions used by the statements

Functions that read the loops of the embedding as list functions, the shape of a network,
the forward pass in the words of the specification, and sample data. -/

/-! ## Functional readings of the loops -/

section LoopDefs

variable {α σ : Type}

/-- The pointwise loop `for (n = 0; n < k; n++) v[n] = g(n, v[n])` read as a function. -/
def updateFirst (g : Nat → α → α) (k : Nat) (v : List α) : List α :=
  v.mapIdx (fun i x => if i < k then g i x else x)

end LoopDefs

/-! ## Shapes -/

section ShapesDefs

variable {F : Type}

/-- What the loops index by: a neuron's own index and its number of connections. -/
def Neuron.shape (x : Neuron F) : Nat × Nat := (x.m_myIndex, x.m_outputWeights.length)

/-- The shape of a layer of `width + 1` neurons with `numOutputs` connections each. -/
def layerShape (width numOutputs : Nat) : List (Nat × Nat) :=
  (List.range (width + 1)).map (fun i => (i, numOutputs))

/-- The shape of a network of the given topology. -/
def topologyShape : List Nat → List (List (Nat × Nat))
  | [] => []
  | w :: ws => layerShape w (ws.headD 0) :: topologyShape ws

/-- The shape of a list of layers. -/
def shapeOf (layers : List (Layer F)) : List (List (Nat × Nat)) :=
  layers.map (fun l => l.map Neuron.shape)

/-- The topology fits the `unsigned` counters of the source. -/
def Fits (topology : List Nat) : Prop :=
  topology.length < 2 ^ 32 ∧ ∀ t ∈ topology, t + 1 < 2 ^ 32

instance (topology : List Nat) : Decidable (Fits topology) := by
  unfold Fits; exact inferInstance

/-- The last neuron of every layer has output value `1.0`. -/
def BiasPinned [One F] (layers : List (Layer F)) : Prop :=
  ∀ l ∈ layers, ∃ x, l.getLast? = some x ∧ x.m_outputVal = 1

end ShapesDefs

/-! ## The forward pass as a function -/

section ForwardDefs

variable {F : Type} [Zero F] [One F] [Add F] [Sub F] [Mul F] [Div F] [NatCast F]

/-- The weight of connection `j` of a connection vector (`0.0` where there is none). -/
def weightAt (cs : List (Connection F)) (j : Nat) : F :=
  match cs[j]? with
  | some c => c.weight
  | none => 0

/-- The weight of the connection from `p` to neuron `j` of the next layer. -/
def Neuron.weightTo (p : Neuron F) (j : Nat) : F := weightAt p.m_outputWeights j

/-- The sum formed by `Neuron::feedForward` for neuron `j`, in the order of the loop. -/
def weightedSum (prevLayer : Layer F) (j : Nat) : F :=
  prevLayer.foldl (fun sum p => sum + p.getOutputVal * p.weightTo j) 0

/-- The neuron after `Neuron::feedForward`. -/
def Neuron.fired (tanh : F → F) (prevLayer : Layer F) (x : Neuron F) : Neuron F :=
  { x with m_outputVal := Neuron.transferFunction tanh (weightedSum prevLayer x.m_myIndex) }

/-- A layer after its non-bias neurons were fed from `prevLayer`. -/
def forwardLayer (tanh : F → F) (prevLayer layer : Layer F) : Layer F :=
  updateFirst (fun _ x => x.fired tanh prevLayer) (layer.length - 1) layer

/-- The layers after `prevLayer`, each fed from the one before it. -/
def propagate (tanh : F → F) : Layer F → List (Layer F) → List (Layer F)
  | _, [] => []
  | prevLayer, l :: ls =>
    forwardLayer tanh prevLayer l :: propagate tanh (forwardLayer tanh prevLayer l) ls

/-- The input layer after the assignment of the input values. -/
def setInputs (inputVals : List F) (l0 : Layer F) : Layer F :=
  updateFirst (fun i x => x.setOutputVal (inputVals.getD i 0)) inputVals.length l0

/-- All layers after `Net::feedForward`. -/
def forwardLayers (tanh : F → F) (inputVals : List F) : List (Layer F) → List (Layer F)
  | [] => []
  | l0 :: ls => setInputs inputVals l0 :: propagate tanh (setInputs inputVals l0) ls

end ForwardDefs

/-! ## The forward pass in the words of the specification -/

section ForwardSpecDefs

variable {F : Type} [Zero F] [One F] [Add F] [Sub F] [Mul F] [Div F] [NatCast F]

/-- The sum over all neurons `p` of the previous layer, bias included, of
`p.output * p.outgoing[j].weight`, where `outs` lists the outputs of that layer; the terms
are added in layer order, starting from `0.0`. -/
def specSum (outs : List F) (prevLayer : Layer F) (j : Nat) : F :=
  (List.zipWith (fun o (p : Neuron F) => o * p.weightTo j) outs prevLayer).foldl (· + ·) 0

/-- The outputs of a later layer of `width` non-bias neurons: neuron `j` gets
`tanh` of its sum, the bias neuron keeps `1.0`. -/
def specLayerOutputs (tanh : F → F) (outs : List F) (prevLayer : Layer F) (width : Nat) :
    List F :=
  (List.range width).map (fun j => tanh (specSum outs prevLayer j)) ++ [1]

/-- The outputs of the last layer, computed layer after layer from the outputs `outs` of
the first of the given layers. -/
def specOutputs (tanh : F → F) : List F → List (Layer F) → List F
  | outs, prev :: next :: rest =>
    specOutputs tanh (specLayerOutputs tanh outs prev (next.length - 1)) (next :: rest)
  | outs, _ => outs

/-- The value the specification gives for `feedForward` followed by `getResults`: the
non-bias input outputs are the inputs, the bias output is `1.0`, and the result is the
last layer's outputs without the bias. -/
def specResults (tanh : F → F) (net : Net F) (inputVals : List F) : List F :=
  (specOutputs tanh (inputVals ++ [1]) net.m_layers).dropLast

end ForwardSpecDefs

/-! ## The backward pass -/

section BackwardDefs

variable {F : Type} [Zero F] [One F] [Add F] [Sub F] [Mul F] [Div F] [NatCast F]

/-- What `Net::backProp` leaves alone in a neuron: its shape and its output value. -/
def Neuron.frame (x : Neuron F) : (Nat × Nat) × F := (x.shape, x.m_outputVal)

/-- The frames of all neurons of a list of layers. -/
def frameOf (layers : List (Layer F)) : List (List ((Nat × Nat) × F)) :=
  layers.map (fun l => l.map Neuron.frame)

/-- The sum formed by `Neuron::sumDOW`, in the order of the loop. -/
def Neuron.dow (x : Neuron F) (nextLayer : Layer F) : F :=
  ((List.zip x.m_outputWeights nextLayer).take (nextLayer.length - 1)).foldl
    (fun sum (cy : Connection F × Neuron F) => sum + cy.1.weight * cy.2.m_gradient) 0

/-- The neuron after `Neuron::calcHiddenGradients`. -/
def Neuron.hiddenGraded (nextLayer : Layer F) (x : Neuron F) : Neuron F :=
  { x with m_gradient := x.dow nextLayer * Neuron.transferFunctionDerivative x.m_outputVal }

/-- The neuron `p` of the previous layer after the step of `Neuron::updateInputWeights`
run for the neuron `x`. -/
def Neuron.updatedFor (S : Statics F) (x p : Neuron F) : Neuron F :=
  match p.m_outputWeights[x.m_myIndex]? with
  | some c => { p with m_outputWeights :=
      p.m_outputWeights.set x.m_myIndex (Connection.update S p.getOutputVal x.m_gradient c) }
  | none => p

/-- The sum of squares formed by the first loop of `Net::backProp`. -/
def squaredError (targetVals : List F) (outputLayer : Layer F) : F :=
  ((List.zip targetVals outputLayer).take (outputLayer.length - 1)).foldl
    (fun e (ty : F × Neuron F) =>
      e + (ty.1 - ty.2.getOutputVal) * (ty.1 - ty.2.getOutputVal)) 0

/-- The output layer after the second loop of `Net::backProp`. -/
def outputGraded (targetVals : List F) (outputLayer : Layer F) : Layer F :=
  updateFirst (fun i x => x.calcOutputGradients (targetVals.getD i 0))
    (outputLayer.length - 1) outputLayer

/-- The previous layer after the inner loop of the weight update. -/
def updatedFrom (S : Statics F) (layer prevLayer : Layer F) : Layer F :=
  (layer.take (layer.length - 1)).foldl (fun prev x => prev.map (Neuron.updatedFor S x))
    prevLayer

end BackwardDefs

/-! ## Sequences of calls -/

section SequencesDefs

variable {F : Type} [Zero F] [One F] [Add F] [Sub F] [Mul F] [Div F] [NatCast F]

/-- The call carries as many values as the topology asks for: `topology[0]` inputs,
`topology.back()` targets. -/
def Call.ShapeCorrect (topology : List Nat) : Call F → Prop
  | Call.feedForward inputVals => topology[0]? = some inputVals.length
  | Call.backProp targetVals => topology.getLast? = some targetVals.length

instance (topology : List Nat) (c : Call F) : Decidable (Call.ShapeCorrect topology c) := by
  cases c <;> unfold Call.ShapeCorrect <;> exact inferInstance

/-- The call is a call of `Net::feedForward`. -/
def Call.isFeedForward : Call F → Bool
  | Call.feedForward _ => true
  | Call.backProp _ => false

end SequencesDefs

/-- A platform with `RAND_MAX = 32767` and a linear congruential `rand()`. -/
def lcgPlatform {F : Type} [Zero F] : Platform F :=
  ⟨32767, fun n => (n * 7919 + 13) % 32768, 0⟩

/-- A platform with `RAND_MAX = 32767` on which every `rand()` returns `RAND_MAX`. -/
def maxPlatform {F : Type} [Zero F] : Platform F :=
  ⟨32767, fun _ => 32767, 0⟩

/-- What `Net::feedForward` leaves alone in a neuron: its gradient, its index and its
connections with their weights and delta weights. -/
def Neuron.kept {F : Type} (x : Neuron F) : F × Nat × List (Connection F) :=
  (x.m_gradient, x.m_myIndex, x.m_outputWeights)

/-- The kept parts of all neurons of a list of layers. -/
def keptOf {F : Type} (layers : List (Layer F)) : List (List (F × Nat × List (Connection F))) :=
  layers.map (fun l => l.map Neuron.kept)

/-! ## The loops of the backward pass over the layers -/

section SweepDefs

variable {F : Type} [Zero F] [One F] [Add F] [Sub F] [Mul F] [Div F] [NatCast F]

/-- A sweep from right to left over the list `before ++ done`: each element of `before`
is replaced by `f` of its right neighbour, as it is after the sweep, and of itself. -/
def sweep {α : Type} (d : α) (f : α → α → α) (before done : List α) : List α :=
  before.foldr (fun l acc => f (acc.headD d) l :: acc) done

/-- A hidden layer after the inner loop of the third loop of `Net::backProp`. -/
def hiddenGradedLayer (nextLayer hiddenLayer : Layer F) : Layer F :=
  hiddenLayer.map (Neuron.hiddenGraded nextLayer)

/-- The layers after the second and third loop of `Net::backProp`: the gradients of the
output layer, then those of the hidden layers from the last to the first. -/
def gradedLayers (targetVals : List F) : List (Layer F) → List (Layer F)
  | [] => []
  | l0 :: rest =>
    l0 :: sweep [] hiddenGradedLayer rest.dropLast [outputGraded targetVals (rest.getLastD [])]

/-- The layers after the fourth loop of `Net::backProp`: the weights held by each layer
but the last are updated from the layer after it. -/
def updatedLayers (S : Statics F) (layers : List (Layer F)) : List (Layer F) :=
  sweep [] (updatedFrom S) layers.dropLast [layers.getLastD []]

end SweepDefs

/-! ## The backward pass, neuron by neuron -/

section PointwiseDefs

variable {F : Type} [Zero F] [One F] [Add F] [Sub F] [Mul F] [Div F] [NatCast F]

/-- The gradient of neuron `j` of a layer (`0.0` where there is none). -/
def gradientAt (layer : Layer F) (j : Nat) : F :=
  match layer[j]? with
  | some x => x.m_gradient
  | none => 0

/-- The neuron `p` of the previous layer after the steps of `Neuron::updateInputWeights`
run for the first `k` neurons of `layer`. -/
def Neuron.updatedBy (S : Statics F) (layer : Layer F) (k : Nat) (p : Neuron F) : Neuron F :=
  { p with m_outputWeights :=
      (updateFirst (fun j c => Connection.update S p.getOutputVal (gradientAt layer j) c) k
        p.m_outputWeights) }

/-- The sum over the non-bias neurons `n` of the next layer of
`outgoing[n].weight * gradient_n`; the terms are added in layer order, starting from
`0.0`. -/
def specDOW (outgoing : List (Connection F)) (nextLayer : Layer F) : F :=
  (List.zipWith (fun c (y : Neuron F) => c.weight * y.m_gradient) outgoing
    nextLayer.dropLast).foldl (· + ·) 0

/-- What the weight update of `Net::backProp` leaves alone in a neuron: its output value,
its gradient and its index. -/
def Neuron.graded (x : Neuron F) : F × F × Nat := (x.m_outputVal, x.m_gradient, x.m_myIndex)

end PointwiseDefs

/-! ## States and settings for the weight update -/

section MomentumDefs

variable {F : Type} [Zero F] [One F] [Add F] [Sub F] [Mul F] [Div F] [NatCast F]

/-- The static members after the assignment `Neuron::eta = eta` (the member is not
`const`). -/
def Statics.withEta (S : Statics F) (eta : F) : Statics F :=
  { S with eta := eta }

/-- The network with the stored delta weight of every connection set to `d`. -/
def Net.withDeltaWeights (d : F) (net : Net F) : Net F :=
  { net with m_layers := net.m_layers.map (fun l => l.map (fun x =>
      { x with m_outputWeights := x.m_outputWeights.map (fun c => { c with deltaWeight := d }) })) }

end MomentumDefs

/-! ## Sample data -/

/-- A platform over the integers: `RAND_MAX = 32767` and a linear congruential `rand()`. -/
def samplePlatform : Platform Int :=
  ⟨32767, fun n => (n * 7919 + 13) % 32768, 0⟩

/-- A platform on which every `rand()` returns `RAND_MAX = 1`. -/
def unitPlatform {F : Type} [Zero F] : Platform F :=
  ⟨1, fun _ => 1, 0⟩

/-- The network `Net::Net` builds for the topology `[2, 2, 1]` on `samplePlatform`. -/
def sampleNet : Net Int :=
  match Net.new samplePlatform [2, 2, 1] 0 with
  | .ok r => r.1
  | .error _ => ⟨[], 0, 0⟩

/-- Static members over the integers: `eta = 1`, `alpha = 1`, smoothing factor `100`. -/
def sampleStatics : Statics Int :=
  ⟨1, 1, 100⟩

/-- The network `Net::Net` builds for the topology `[2, 2, 1]` when every `rand()` returns
`RAND_MAX`. -/
def unitNet {F : Type} [Zero F] [One F] [Add F] [Sub F] [Mul F] [Div F] [NatCast F] : Net F :=
  match Net.new unitPlatform [2, 2, 1] 0 with
  | .ok r => r.1
  | .error _ => ⟨[], 0, 0⟩

/-- A platform over the integers on which uninitialised `double` members hold `7`. -/
def strayPlatform : Platform Int :=
  ⟨32767, fun n => (n * 7919 + 13) % 32768, 7⟩

/-- The well-formed first line of the training data. -/
def topologyLine : List Char := (("topology: 2 2 1").toList)

/-- The first line with the label, a space and no numbers. -/
def emptyTopologyLine : List Char := (("topology: ").toList)

/-! # Lemmas and claims -/

/-! ## Functional readings of the loops -/

section LoopLemmas

variable {α σ : Type}

theorem vget_of_getElem? {v : List α} {i : Nat} {x : α} (h : v[i]? = some x) :
    vget v i = .ok x := by
  simp [vget, h]

theorem vget_of_le {v : List α} {i : Nat} (h : v.length ≤ i) :
    vget v i = .error .outOfRange := by
  simp [vget, List.getElem?_eq_none h]

theorem vget_eq_ok_iff {v : List α} {i : Nat} {x : α} :
    vget v i = .ok x ↔ v[i]? = some x := by
  unfold vget
  cases h : v[i]? <;> simp

theorem vback_eq_ok_iff {v : List α} {x : α} :
    vback v = .ok x ↔ v.getLast? = some x := by
  unfold vback
  cases h : v.getLast? <;> simp

theorem sizeSub_succ_one {n : Nat} (h : n < 2 ^ 64) : sizeSub (n + 1) 1 = n := by
  unfold sizeSub
  have : n + 1 + 2 ^ 64 - 1 = n + 2 ^ 64 := by omega
  rw [this, Nat.add_mod_right, Nat.mod_eq_of_lt h]

theorem sizeSub_of_le {a b : Nat} (hb : b ≤ a) (h : a < 2 ^ 64) : sizeSub a b = a - b := by
  unfold sizeSub
  have : a + 2 ^ 64 - b = (a - b) + 2 ^ 64 := by omega
  rw [this, Nat.add_mod_right, Nat.mod_eq_of_lt (by omega)]

theorem toUnsigned_of_lt {a : Nat} (h : a < 2 ^ 32) : toUnsigned a = a :=
  Nat.mod_eq_of_lt h

theorem ok_bind {β γ : Type} (a : β) (f : β → Except Fault γ) :
    (Except.ok a >>= f) = f a := rfl

theorem error_bind {β γ : Type} (e : Fault) (f : β → Except Fault γ) :
    ((Except.error e : Except Fault β) >>= f) = .error e := rfl

theorem loopUp_zero (body : Nat → σ → Except Fault σ) (n : Nat) (s : σ) :
    loopUp body 0 n s = .ok s := rfl

theorem loopUp_succ (body : Nat → σ → Except Fault σ) (k n : Nat) (s : σ) :
    loopUp body (k + 1) n s = (body n s >>= loopUp body k (n + 1)) := by
  rw [loopUp]
  cases body n s <;> rfl

/-- The last iteration of a loop, split off. -/
theorem loopUp_succ_last (body : Nat → σ → Except Fault σ) (k n : Nat) (s : σ) :
    loopUp body (k + 1) n s = (loopUp body k n s >>= body (n + k)) := by
  induction k generalizing n s with
  | zero =>
    rw [loopUp_succ]
    cases h : body n s <;> simp [loopUp, h, ok_bind, error_bind]
  | succ k ih =>
    rw [loopUp_succ, loopUp_succ]
    cases h : body n s with
    | error e => rfl
    | ok s' =>
      rw [ok_bind, ok_bind, ih]
      have : n + 1 + k = n + (k + 1) := by omega
      rw [this]

/-- Total-correctness rule for the counting loop. -/
theorem loopUp_inv (I : Nat → σ → Prop) (body : Nat → σ → Except Fault σ) (k start : Nat)
    (s : σ) (h0 : I start s)
    (hstep : ∀ i t, start ≤ i → i < start + k → I i t → ∃ t', body i t = .ok t' ∧ I (i + 1) t') :
    ∃ s', loopUp body k start s = .ok s' ∧ I (start + k) s' := by
  induction k generalizing start s with
  | zero => exact ⟨s, rfl, h0⟩
  | succ k ih =>
    obtain ⟨t, ht, hI⟩ := hstep start s (Nat.le_refl _) (by omega) h0
    obtain ⟨s', hs', hI'⟩ := ih (start + 1) t hI
      (fun i u h1 h2 hu => hstep i u (by omega) (by omega) hu)
    refine ⟨s', ?_, ?_⟩
    · rw [loopUp_succ, ht, ok_bind, hs']
    · have : start + (k + 1) = start + 1 + k := by omega
      rw [this]; exact hI'

/-- Total-correctness rule for the downward loop. -/
theorem forDown_inv (I : Nat → σ → Prop) (body : Nat → σ → Except Fault σ) (start : Nat)
    (s : σ) (h0 : I start s)
    (hstep : ∀ i t, i < start → I (i + 1) t → ∃ t', body (i + 1) t = .ok t' ∧ I i t') :
    ∃ s', forDown body start s = .ok s' ∧ I 0 s' := by
  induction start generalizing s with
  | zero => exact ⟨s, rfl, h0⟩
  | succ n ih =>
    obtain ⟨t, ht, hI⟩ := hstep n s (by omega) h0
    obtain ⟨s', hs', hI'⟩ := ih t hI (fun i u h1 hu => hstep i u (by omega) hu)
    exact ⟨s', by rw [forDown, ht]; exact hs', hI'⟩

theorem getElem?_updateFirst (g : Nat → α → α) (k : Nat) (v : List α) (i : Nat) :
    (updateFirst g k v)[i]? = (v[i]?).map (fun x => if i < k then g i x else x) := by
  simp [updateFirst]

theorem length_updateFirst (g : Nat → α → α) (k : Nat) (v : List α) :
    (updateFirst g k v).length = v.length := by
  simp [updateFirst]

theorem updateFirst_zero (g : Nat → α → α) (v : List α) : updateFirst g 0 v = v := by
  apply List.ext_getElem?
  intro i
  rw [getElem?_updateFirst]
  cases v[i]? <;> simp

theorem updateFirst_succ (g : Nat → α → α) (k : Nat) (v : List α) (x : α)
    (hx : v[k]? = some x) :
    (updateFirst g k v).set k (g k x) = updateFirst g (k + 1) v := by
  apply List.ext_getElem?
  intro i
  rw [List.getElem?_set, getElem?_updateFirst, getElem?_updateFirst, length_updateFirst]
  have hk : k < v.length := by
    rcases Nat.lt_or_ge k v.length with h | h
    · exact h
    · rw [List.getElem?_eq_none h] at hx; cases hx
  by_cases hik : k = i
  · subst hik
    simp [hk, hx]
  · simp only [hik, if_false]
    cases v[i]? with
    | none => rfl
    | some y =>
      simp only [Option.map_some']
      by_cases h1 : i < k
      · simp [h1, Nat.lt_succ_of_lt h1]
      · have : ¬ i < k + 1 := by omega
        simp [h1, this]

/-- The pointwise loop computes `updateFirst`, when each step succeeds. -/
theorem forUp_update (g : Nat → α → α) (body : Nat → List α → Except Fault (List α))
    (k : Nat) (v : List α) (hk : k ≤ v.length)
    (hbody : ∀ i x w, i < k → v[i]? = some x → w[i]? = some x →
      body i w = .ok (w.set i (g i x))) :
    forUp 0 k body v = .ok (updateFirst g k v) := by
  unfold forUp
  rw [Nat.sub_zero]
  induction k with
  | zero => rw [loopUp_zero, updateFirst_zero]
  | succ k ih =>
    have hlt : k < v.length := by omega
    have hx : v[k]? = some v[k] := List.getElem?_eq_getElem hlt
    rw [loopUp_succ_last, ih (by omega) (fun i x w hi => hbody i x w (by omega)), ok_bind,
      Nat.zero_add]
    rw [hbody k v[k] _ (by omega) hx (by rw [getElem?_updateFirst, hx]; simp)]
    rw [updateFirst_succ g k v v[k] hx]

/-- The accumulating loop computes a left fold over the first `k` elements. -/
theorem forUp_fold (g : σ → α → σ) (body : Nat → σ → Except Fault σ)
    (k : Nat) (v : List α) (hk : k ≤ v.length) (s : σ)
    (hbody : ∀ i x t, i < k → v[i]? = some x → body i t = .ok (g t x)) :
    forUp 0 k body s = .ok ((v.take k).foldl g s) := by
  unfold forUp
  rw [Nat.sub_zero]
  induction k with
  | zero => simp [loopUp]
  | succ k ih =>
    have hlt : k < v.length := by omega
    have hx : v[k]? = some v[k] := List.getElem?_eq_getElem hlt
    rw [loopUp_succ_last, ih (by omega) (fun i x t hi => hbody i x t (by omega)), ok_bind,
      Nat.zero_add, hbody k v[k] _ (by omega) hx, List.take_succ, hx]
    simp only [Option.toList, List.foldl_append, List.foldl]

/-- A loop that works on one component of the state. -/
theorem loopUp_lift {τ : Type} (lift : τ → σ) (b₁ : Nat → σ → Except Fault σ)
    (b₂ : Nat → τ → Except Fault τ)
    (h : ∀ i t, b₁ i (lift t) = (b₂ i t >>= fun t' => pure (lift t'))) (k n : Nat) (s : τ) :
    loopUp b₁ k n (lift s) = (loopUp b₂ k n s >>= fun t => pure (lift t)) := by
  induction k generalizing n s with
  | zero => rfl
  | succ k ih =>
    rw [loopUp_succ, loopUp_succ, h]
    cases b₂ n s with
    | error e => rfl
    | ok t => exact ih (n + 1) t

/-- Invariant rule for the loop without faults. -/
theorem forPure_inv (I : Nat → σ → Prop) (body : Nat → σ → σ) (k start : Nat) (s : σ)
    (h0 : I start s)
    (hstep : ∀ i t, start ≤ i → i < start + k → I i t → I (i + 1) (body i t)) :
    I (start + k) (forPure body k start s) := by
  induction k generalizing start s with
  | zero => exact h0
  | succ k ih =>
    have h1 := ih (start + 1) (body start s) (hstep start s (Nat.le_refl _) (by omega) h0)
      (fun i t h1 h2 ht => hstep i t (by omega) (by omega) ht)
    have : start + (k + 1) = start + 1 + k := by omega
    rw [this]; exact h1

theorem getElem?_append_cons (a : List α) (x : α) (b : List α) :
    (a ++ x :: b)[a.length]? = some x := by
  rw [List.getElem?_append_right (Nat.le_refl _), Nat.sub_self]; simp

theorem set_append_cons (a : List α) (x y : α) (b : List α) :
    (a ++ x :: b).set a.length y = a ++ y :: b := by
  rw [List.set_append_right _ _ (Nat.le_refl _), Nat.sub_self]; rfl

theorem map_updateFirst {β : Type} (f : α → β) (g : Nat → α → α) (k : Nat) (v : List α)
    (h : ∀ i x, f (g i x) = f x) : (updateFirst g k v).map f = v.map f := by
  apply List.ext_getElem?
  intro i
  rw [List.getElem?_map, List.getElem?_map, getElem?_updateFirst]
  cases v[i]? with
  | none => rfl
  | some y =>
    simp only [Option.map_some']
    by_cases hi : i < k
    · rw [if_pos hi, h]
    · rw [if_neg hi]

theorem updateFirst_eq_map (g : α → α) (v : List α) :
    updateFirst (fun _ x => g x) v.length v = v.map g := by
  apply List.ext_getElem?
  intro i
  rw [List.getElem?_map, getElem?_updateFirst]
  by_cases hi : i < v.length
  · simp [hi]
  · rw [List.getElem?_eq_none (by omega)]; rfl

/-- The accumulating loop computes a left fold, for a body that succeeds on the states
satisfying an invariant. -/
theorem forUp_fold_inv (Inv : σ → Prop) (g : σ → α → σ) (body : Nat → σ → Except Fault σ)
    (k : Nat) (v : List α) (hk : k ≤ v.length) (s : σ) (h0 : Inv s)
    (hbody : ∀ i x t, i < k → v[i]? = some x → Inv t →
      body i t = .ok (g t x) ∧ Inv (g t x)) :
    forUp 0 k body s = .ok ((v.take k).foldl g s) ∧ Inv ((v.take k).foldl g s) := by
  unfold forUp
  rw [Nat.sub_zero]
  induction k with
  | zero => exact ⟨by simp [loopUp], by simpa using h0⟩
  | succ k ih =>
    have hlt : k < v.length := by omega
    obtain ⟨x, hx⟩ : ∃ x, v[k]? = some x := ⟨_, List.getElem?_eq_getElem hlt⟩
    obtain ⟨h1, h2⟩ := ih (by omega) (fun i x t hi => hbody i x t (by omega))
    obtain ⟨h3, h4⟩ := hbody k x _ (by omega) hx h2
    have hfold : (v.take (k + 1)).foldl g s = g ((v.take k).foldl g s) x := by
      rw [List.take_succ, hx]
      simp only [Option.toList, List.foldl_append, List.foldl]
    rw [hfold]
    refine ⟨?_, h4⟩
    rw [loopUp_succ_last, h1, ok_bind, Nat.zero_add, h3]

/-- Loops whose bodies agree on the indices they run through are equal. -/
theorem loopUp_congr (b₁ b₂ : Nat → σ → Except Fault σ) (k start : Nat) (s : σ)
    (h : ∀ i t, start ≤ i → i < start + k → b₁ i t = b₂ i t) :
    loopUp b₁ k start s = loopUp b₂ k start s := by
  induction k generalizing start s with
  | zero => rfl
  | succ k ih =>
    rw [loopUp_succ, loopUp_succ, h start s (Nat.le_refl _) (by omega)]
    cases b₂ start s with
    | error e => rfl
    | ok t =>
      rw [ok_bind, ok_bind]
      exact ih (start + 1) t (fun i u h1 h2 => h i u (by omega) (by omega))

theorem updateFirst_idem (g : Nat → α → α) (k : Nat) (v : List α)
    (h : ∀ i x, g i (g i x) = g i x) :
    updateFirst g k (updateFirst g k v) = updateFirst g k v := by
  apply List.ext_getElem?
  intro i
  rw [getElem?_updateFirst, getElem?_updateFirst]
  cases v[i]? with
  | none => rfl
  | some y =>
    simp only [Option.map_some']
    by_cases hi : i < k
    · simp only [if_pos hi, h]
    · simp only [if_neg hi]

theorem getLast?_updateFirst (g : Nat → α → α) (k : Nat) (v : List α) (h : k + 1 ≤ v.length) :
    (updateFirst g k v).getLast? = v.getLast? := by
  rw [List.getLast?_eq_getElem?, List.getLast?_eq_getElem?, length_updateFirst,
    getElem?_updateFirst]
  cases v[v.length - 1]? with
  | none => rfl
  | some y =>
    have : ¬ v.length - 1 < k := by omega
    simp only [Option.map_some', if_neg this]

end LoopLemmas

/-! ## Shapes -/

section Shapes

variable {F : Type}

theorem length_of_layerShape {l : Layer F} {w o : Nat} (h : l.map Neuron.shape = layerShape w o) :
    l.length = w + 1 := by
  have := congrArg List.length h
  simpa [layerShape] using this

theorem getElem?_layerShape (w o i : Nat) :
    (layerShape w o)[i]? = if i < w + 1 then some (i, o) else none := by
  unfold layerShape
  rw [List.getElem?_map]
  by_cases h : i < w + 1
  · rw [List.getElem?_range h, if_pos h]; rfl
  · rw [List.getElem?_eq_none (by simpa using h), if_neg h]; rfl

theorem shape_of_getElem? {l : Layer F} {w o i : Nat} {x : Neuron F}
    (h : l.map Neuron.shape = layerShape w o) (hx : l[i]? = some x) :
    i < w + 1 ∧ x.m_myIndex = i ∧ x.m_outputWeights.length = o := by
  have h1 : (l.map Neuron.shape)[i]? = some x.shape := by
    rw [List.getElem?_map, hx]; rfl
  rw [h, getElem?_layerShape] at h1
  by_cases hi : i < w + 1
  · rw [if_pos hi] at h1
    have h2 : (i, o) = x.shape := Option.some.inj h1
    have h3 := congrArg Prod.fst h2
    have h4 := congrArg Prod.snd h2
    exact ⟨hi, h3.symm, h4.symm⟩
  · rw [if_neg hi] at h1; cases h1

theorem outputs_of_mem {l : Layer F} {w o : Nat} {p : Neuron F}
    (h : l.map Neuron.shape = layerShape w o) (hp : p ∈ l) :
    p.m_outputWeights.length = o := by
  obtain ⟨i, hi⟩ := List.getElem?_of_mem hp
  exact (shape_of_getElem? h hi).2.2

theorem length_topologyShape (ws : List Nat) : (topologyShape ws).length = ws.length := by
  induction ws with
  | nil => rfl
  | cons w ws ih => simp [topologyShape, ih]

theorem length_of_shapeOf {layers : List (Layer F)} {ws : List Nat}
    (h : shapeOf layers = topologyShape ws) : layers.length = ws.length := by
  have := congrArg List.length h
  simpa [shapeOf, length_topologyShape] using this

theorem getElem?_topologyShape (ws : List Nat) (L : Nat) :
    (topologyShape ws)[L]? = (ws[L]?).map (fun w => layerShape w ((ws[L + 1]?).getD 0)) := by
  induction ws generalizing L with
  | nil => rfl
  | cons w ws ih =>
    cases L with
    | zero =>
      cases ws <;> simp [topologyShape]
    | succ L =>
      simp only [topologyShape, List.getElem?_cons_succ]
      exact ih L

theorem shape_of_layer {layers : List (Layer F)} {ws : List Nat} {L : Nat} {l : Layer F}
    (h : shapeOf layers = topologyShape ws) (hl : layers[L]? = some l) :
    ∃ w, ws[L]? = some w ∧ l.map Neuron.shape = layerShape w ((ws[L + 1]?).getD 0) := by
  have h1 : (shapeOf layers)[L]? = some (l.map Neuron.shape) := by
    unfold shapeOf; rw [List.getElem?_map, hl]; rfl
  rw [h, getElem?_topologyShape] at h1
  cases hw : ws[L]? with
  | none => rw [hw] at h1; cases h1
  | some w =>
    rw [hw] at h1
    exact ⟨w, rfl, (Option.some.inj h1).symm⟩

theorem Fits.tail {w : Nat} {ws : List Nat} (h : Fits (w :: ws)) : Fits ws := by
  refine ⟨?_, fun t ht => h.2 t (List.mem_cons_of_mem _ ht)⟩
  have := h.1
  simp only [List.length_cons] at this
  omega

theorem Fits.head {w : Nat} {ws : List Nat} (h : Fits (w :: ws)) : w + 1 < 2 ^ 32 :=
  h.2 w (List.mem_cons_self _ _)

end Shapes

/-! ## The forward pass as a function -/

section Forward

variable {F : Type} [Zero F] [One F] [Add F] [Sub F] [Mul F] [Div F] [NatCast F]

theorem Neuron.feedForward_fired (tanh : F → F) (x : Neuron F) (prevLayer : Layer F)
    (h : ∀ p ∈ prevLayer, x.m_myIndex < p.m_outputWeights.length) :
    x.feedForward tanh prevLayer = .ok (x.fired tanh prevLayer) := by
  unfold Neuron.feedForward
  rw [forUp_fold (fun sum (p : Neuron F) => sum + p.getOutputVal * p.weightTo x.m_myIndex)
    _ prevLayer.length prevLayer (Nat.le_refl _) 0]
  · rw [List.take_length]; rfl
  · intro i p t _ hp
    have hmem : p ∈ prevLayer := List.getElem?_mem hp
    have hlt := h p hmem
    unfold Neuron.feedForward.addTerm
    rw [vget_of_getElem? hp, ok_bind, vget_of_getElem? (List.getElem?_eq_getElem hlt), ok_bind]
    simp [Neuron.weightTo, weightAt, List.getElem?_eq_getElem hlt]
    rfl

theorem Neuron.shape_fired (tanh : F → F) (prevLayer : Layer F) (x : Neuron F) :
    (x.fired tanh prevLayer).shape = x.shape := rfl

theorem Neuron.shape_setOutputVal (x : Neuron F) (v : F) : (x.setOutputVal v).shape = x.shape :=
  rfl

theorem shape_forwardLayer (tanh : F → F) (prevLayer layer : Layer F) :
    (forwardLayer tanh prevLayer layer).map Neuron.shape = layer.map Neuron.shape :=
  map_updateFirst _ _ _ _ (fun _ x => Neuron.shape_fired tanh prevLayer x)

theorem shape_setInputs (inputVals : List F) (l0 : Layer F) :
    (setInputs inputVals l0).map Neuron.shape = l0.map Neuron.shape :=
  map_updateFirst _ _ _ _ (fun _ x => Neuron.shape_setOutputVal x _)

/-- The inner loop of `Net::feedForward` on a layer of the right shape. -/
theorem fire_loop (tanh : F → F) (prevLayer layer : Layer F) (w o₁ o₂ : Nat)
    (hw : w + 1 < 2 ^ 32)
    (hp : prevLayer.map Neuron.shape = layerShape o₁ w)
    (hl : layer.map Neuron.shape = layerShape w o₂) :
    forUp 0 (sizeSub layer.length 1) (Net.feedForward.fire tanh prevLayer) layer
      = .ok (forwardLayer tanh prevLayer layer) := by
  have hlen : layer.length = w + 1 := length_of_layerShape hl
  have hsub : sizeSub layer.length 1 = layer.length - 1 := by
    rw [hlen]; exact sizeSub_succ_one (by omega)
  rw [hsub]
  unfold forwardLayer
  apply forUp_update
  · omega
  · intro i x v hi hx hv
    unfold Net.feedForward.fire
    rw [vget_of_getElem? hv, ok_bind, Neuron.feedForward_fired, ok_bind]
    · rfl
    · intro p hpm
      rw [outputs_of_mem hp hpm, (shape_of_getElem? hl hx).2.1]
      omega

theorem shapeOf_cons (l : Layer F) (ls : List (Layer F)) :
    shapeOf (l :: ls) = l.map Neuron.shape :: shapeOf ls := rfl

/-- The second loop of `Net::feedForward` computes `propagate`. -/
theorem propagate_loop (tanh : F → F) (rest : List (Layer F)) :
    ∀ (pre : List (Layer F)) (p : Layer F) (ws : List Nat),
      shapeOf (p :: rest) = topologyShape ws → Fits ws →
      loopUp (Net.feedForward.propagateInto tanh) rest.length (pre.length + 1)
        (pre ++ p :: rest) = .ok (pre ++ p :: propagate tanh p rest) := by
  induction rest with
  | nil => intro pre p ws _ _; rfl
  | cons l ls ih =>
    intro pre p ws hs hf
    match ws, hs, hf with
    | [], hs, _ => cases hs
    | [w], hs, _ => simp [shapeOf, topologyShape] at hs
    | w :: w' :: ws', hs, hf =>
      rw [shapeOf_cons, topologyShape] at hs
      have hp : p.map Neuron.shape = layerShape w w' := (List.cons.inj hs).1
      have hrest : shapeOf (l :: ls) = topologyShape (w' :: ws') := (List.cons.inj hs).2
      have hl : l.map Neuron.shape = layerShape w' (ws'.headD 0) := by
        rw [shapeOf_cons, topologyShape] at hrest
        exact (List.cons.inj hrest).1
      have hstep : Net.feedForward.propagateInto tanh (pre.length + 1) (pre ++ p :: l :: ls)
          = .ok ((pre ++ [p]) ++ forwardLayer tanh p l :: ls) := by
        unfold Net.feedForward.propagateInto
        have h1 : (pre ++ p :: l :: ls)[pre.length + 1 - 1]? = some p := by
          rw [Nat.add_sub_cancel]; exact getElem?_append_cons pre p (l :: ls)
        have hsplit : (pre ++ p :: l :: ls) = (pre ++ [p]) ++ l :: ls := by simp
        have hlen : pre.length + 1 = (pre ++ [p]).length := by simp
        have h2 : (pre ++ p :: l :: ls)[pre.length + 1]? = some l := by
          rw [hsplit, hlen]; exact getElem?_append_cons _ l ls
        rw [vget_of_getElem? h1, ok_bind, vget_of_getElem? h2, ok_bind,
          fire_loop tanh p l w' w _ hf.tail.head hp hl, ok_bind]
        rw [hsplit, hlen, set_append_cons]
        rfl
      rw [List.length_cons, loopUp_succ, hstep, ok_bind]
      have hlen : pre.length + 1 + 1 = (pre ++ [p]).length + 1 := by simp
      rw [hlen, ih (pre ++ [p]) (forwardLayer tanh p l) (w' :: ws') ?_ hf.tail]
      · simp [propagate]
      · rw [shapeOf_cons, shape_forwardLayer, ← shapeOf_cons]; exact hrest

/-- The first loop of `Net::feedForward` computes `setInputs` on the input layer. -/
theorem assignInput_loop (inputVals : List F) (l0 : Layer F) (rest : List (Layer F))
    (h : inputVals.length ≤ l0.length) :
    forUp 0 inputVals.length (Net.feedForward.assignInput inputVals) (l0 :: rest)
      = .ok (setInputs inputVals l0 :: rest) := by
  have hlift := loopUp_lift (fun l : Layer F => l :: rest)
    (Net.feedForward.assignInput inputVals)
    (fun i l => do
      let x ← vget l i
      let v ← vget inputVals i
      pure (l.set i (x.setOutputVal v)))
    (by
      intro i t
      unfold Net.feedForward.assignInput
      have : vget (t :: rest) 0 = .ok t := by simp [vget]
      rw [this, ok_bind]
      dsimp only
      cases vget t i with
      | error e => rfl
      | ok x =>
        rw [ok_bind, ok_bind]
        cases vget inputVals i <;> rfl)
    inputVals.length 0 l0
  have hup := forUp_update (fun i (x : Neuron F) => x.setOutputVal (inputVals.getD i 0))
    (fun i l => do
      let x ← vget l i
      let v ← vget inputVals i
      pure (l.set i (x.setOutputVal v)))
    inputVals.length l0 h
    (by
      intro i x w hi _ hw
      dsimp only
      rw [vget_of_getElem? hw, ok_bind,
        vget_of_getElem? (List.getElem?_eq_getElem hi), ok_bind]
      simp [List.getD, List.getElem?_eq_getElem hi]
      rfl)
  unfold forUp at hup ⊢
  rw [Nat.sub_zero] at hup ⊢
  rw [hlift, hup]
  rfl

/-- `Net::feedForward` on a network of the shape of a topology, as a function. -/
theorem Net.feedForward_layers (tanh : F → F) (net : Net F) (inputVals : List F) (ws : List Nat)
    (hs : shapeOf net.m_layers = topologyShape ws) (hf : Fits ws)
    (hin : inputVals.length ≤ (net.m_layers.headD []).length) :
    net.feedForward tanh inputVals
      = .ok { net with m_layers := forwardLayers tanh inputVals net.m_layers } := by
  unfold Net.feedForward
  cases hl : net.m_layers with
  | nil =>
    rw [hl] at hin
    have h0 : inputVals.length = 0 := by simpa using hin
    rw [h0]
    rfl
  | cons l0 rest =>
    rw [hl] at hin hs
    rw [assignInput_loop inputVals l0 rest (by simpa using hin), ok_bind]
    have := propagate_loop tanh rest [] (setInputs inputVals l0) ws
      (by rw [shapeOf_cons, shape_setInputs, ← shapeOf_cons]; exact hs) hf
    unfold forUp
    simp only [List.length_cons, Nat.add_sub_cancel]
    simp only [List.length_nil, Nat.zero_add, List.nil_append] at this
    rw [this]
    rfl

theorem foldl_push_eq_map {β γ : Type} (f : β → γ) (v : List β) (acc : List γ) :
    v.foldl (fun r x => r ++ [f x]) acc = acc ++ v.map f := by
  induction v generalizing acc with
  | nil => simp
  | cons x xs ih => simp [ih]

/-- `Net::getResults` as a function: the output values of the last layer without its
last neuron. -/
theorem Net.getResults_last (net : Net F) (last : Layer F)
    (h : net.m_layers.getLast? = some last) (hne : last ≠ []) (hlen : last.length < 2 ^ 64) :
    net.getResults = .ok (last.dropLast.map Neuron.getOutputVal) := by
  unfold Net.getResults
  rw [vback_eq_ok_iff.mpr h, ok_bind]
  have hpos : 0 < last.length := List.length_pos.mpr hne
  rw [sizeSub_of_le (by omega) hlen,
    forUp_fold (fun r (x : Neuron F) => r ++ [x.getOutputVal]) _ (last.length - 1) last
      (by omega) []]
  · rw [foldl_push_eq_map, List.dropLast_eq_take]; rfl
  · intro i x t _ hx
    unfold Net.getResults.push
    rw [vget_of_getElem? hx]; rfl

end Forward

/-! ## The forward pass in the words of the specification -/

section ForwardSpec

variable {F : Type} [Zero F] [One F] [Add F] [Sub F] [Mul F] [Div F] [NatCast F]

theorem foldl_weighted (p : Layer F) (j : Nat) (a : F) :
    p.foldl (fun sum (q : Neuron F) => sum + q.getOutputVal * q.weightTo j) a
      = (List.zipWith (fun o (q : Neuron F) => o * q.weightTo j)
          (p.map Neuron.getOutputVal) p).foldl (· + ·) a := by
  induction p generalizing a with
  | nil => rfl
  | cons q qs ih => simp only [List.foldl, List.map, List.zipWith]; exact ih _

theorem weightedSum_eq_specSum (p : Layer F) (j : Nat) :
    weightedSum p j = specSum (p.map Neuron.getOutputVal) p j :=
  foldl_weighted p j 0

theorem specSum_congr (outs : List F) (p p' : Layer F) (j : Nat)
    (h : p'.map Neuron.m_outputWeights = p.map Neuron.m_outputWeights) :
    specSum outs p' j = specSum outs p j := by
  have key : ∀ q : Layer F,
      List.zipWith (fun o (r : Neuron F) => o * r.weightTo j) outs q
        = List.zipWith (fun o cs => o * weightAt cs j) outs (q.map Neuron.m_outputWeights) := by
    intro q
    rw [List.zipWith_map_right]
    rfl
  unfold specSum
  rw [key p', key p, h]

theorem specOutputs_congr_head (tanh : F → F) (outs : List F) (l l' : Layer F)
    (ls : List (Layer F))
    (h : l'.map Neuron.m_outputWeights = l.map Neuron.m_outputWeights) :
    specOutputs tanh outs (l' :: ls) = specOutputs tanh outs (l :: ls) := by
  cases ls with
  | nil => rfl
  | cons m ms =>
    simp only [specOutputs, specLayerOutputs]
    have : (fun j => tanh (specSum outs l' j)) = (fun j => tanh (specSum outs l j)) := by
      funext j; rw [specSum_congr outs l l' j h]
    rw [this]

theorem weights_forwardLayer (tanh : F → F) (p l : Layer F) :
    (forwardLayer tanh p l).map Neuron.m_outputWeights = l.map Neuron.m_outputWeights :=
  map_updateFirst _ _ _ _ (fun _ _ => rfl)

theorem weights_setInputs (inputVals : List F) (l0 : Layer F) :
    (setInputs inputVals l0).map Neuron.m_outputWeights = l0.map Neuron.m_outputWeights :=
  map_updateFirst _ _ _ _ (fun _ _ => rfl)

theorem getElem?_last_of_getLast? {α : Type} {l : List α} {b : α} {n : Nat}
    (h : l.getLast? = some b) (hn : l.length = n + 1) : l[n]? = some b := by
  rw [List.getLast?_eq_getElem?, hn] at h
  exact h

/-- The outputs of a layer after the inner loop of `Net::feedForward`. -/
theorem outputs_forwardLayer (tanh : F → F) (p l : Layer F) (w o : Nat) (b : Neuron F)
    (hl : l.map Neuron.shape = layerShape w o) (hb : l.getLast? = some b)
    (hb1 : b.m_outputVal = 1) :
    (forwardLayer tanh p l).map Neuron.getOutputVal
      = specLayerOutputs tanh (p.map Neuron.getOutputVal) p (l.length - 1) := by
  have hlen : l.length = w + 1 := length_of_layerShape hl
  apply List.ext_getElem?
  intro i
  unfold forwardLayer specLayerOutputs
  rw [List.getElem?_map, getElem?_updateFirst, hlen, Nat.add_sub_cancel]
  rcases Nat.lt_trichotomy i w with hi | hi | hi
  · obtain ⟨x, hx⟩ : ∃ x, l[i]? = some x := ⟨_, List.getElem?_eq_getElem (by omega)⟩
    have hidx := (shape_of_getElem? hl hx).2.1
    rw [List.getElem?_append_left (by simpa using hi), List.getElem?_map,
      List.getElem?_range hi, hx]
    simp only [Option.map_some', if_pos hi]
    rw [← weightedSum_eq_specSum, ← hidx]
    rfl
  · subst hi
    rw [getElem?_last_of_getLast? hb hlen]
    have : ((List.range i).map (fun j => tanh (specSum (p.map Neuron.getOutputVal) p j))).length
        = i := by simp
    rw [List.getElem?_append_right (by omega), this, Nat.sub_self]
    simp [Neuron.getOutputVal, hb1]
  · rw [List.getElem?_eq_none (by omega), List.getElem?_eq_none (by simp; omega)]
    rfl

/-- The outputs of the input layer after the first loop of `Net::feedForward`. -/
theorem outputs_setInputs (inputVals : List F) (l0 : Layer F) (b : Neuron F)
    (hlen : l0.length = inputVals.length + 1) (hb : l0.getLast? = some b)
    (hb1 : b.m_outputVal = 1) :
    (setInputs inputVals l0).map Neuron.getOutputVal = inputVals ++ [1] := by
  apply List.ext_getElem?
  intro i
  unfold setInputs
  rw [List.getElem?_map, getElem?_updateFirst]
  rcases Nat.lt_trichotomy i inputVals.length with hi | hi | hi
  · obtain ⟨x, hx⟩ : ∃ x, l0[i]? = some x := ⟨_, List.getElem?_eq_getElem (by omega)⟩
    rw [List.getElem?_append_left hi, hx, List.getElem?_eq_getElem hi]
    simp [hi, Neuron.getOutputVal, Neuron.setOutputVal, List.getD,
      List.getElem?_eq_getElem hi]
  · subst hi
    rw [getElem?_last_of_getLast? hb hlen, List.getElem?_append_right (Nat.le_refl _),
      Nat.sub_self]
    simp [Neuron.getOutputVal, hb1]
  · rw [List.getElem?_eq_none (by omega), List.getElem?_eq_none (by simp; omega)]
    rfl

/-- The outputs of the last layer after the second loop of `Net::feedForward`. -/
theorem outputs_propagate (tanh : F → F) (rest : List (Layer F)) :
    ∀ (p : Layer F) (ws : List Nat),
      shapeOf (p :: rest) = topologyShape ws → BiasPinned rest →
      ((p :: propagate tanh p rest).getLast?).map (List.map Neuron.getOutputVal)
        = some (specOutputs tanh (p.map Neuron.getOutputVal) (p :: rest)) := by
  induction rest with
  | nil => intro p ws _ _; rfl
  | cons l ls ih =>
    intro p ws hs hb
    match ws, hs with
    | [], hs => cases hs
    | [w], hs => simp [shapeOf, topologyShape] at hs
    | w :: w' :: ws', hs =>
      rw [shapeOf_cons, topologyShape] at hs
      have hrest : shapeOf (l :: ls) = topologyShape (w' :: ws') := (List.cons.inj hs).2
      have hl : l.map Neuron.shape = layerShape w' (ws'.headD 0) := by
        rw [shapeOf_cons, topologyShape] at hrest
        exact (List.cons.inj hrest).1
      obtain ⟨b, hb0, hb1⟩ := hb l (List.mem_cons_self _ _)
      have hls : BiasPinned ls := fun m hm => hb m (List.mem_cons_of_mem _ hm)
      have h1 := ih (forwardLayer tanh p l) (w' :: ws')
        (by rw [shapeOf_cons, shape_forwardLayer, ← shapeOf_cons]; exact hrest) hls
      have h2 : (p :: propagate tanh p (l :: ls)).getLast?
          = (forwardLayer tanh p l :: propagate tanh (forwardLayer tanh p l) ls).getLast? := by
        simp [propagate, List.getLast?_cons_cons]
      rw [h2, h1, outputs_forwardLayer tanh p l w' _ b hl hb0 hb1,
        specOutputs_congr_head tanh _ l _ ls (weights_forwardLayer tanh p l)]
      rfl

theorem shapeOf_propagate (tanh : F → F) (ls : List (Layer F)) (p : Layer F) :
    shapeOf (propagate tanh p ls) = shapeOf ls := by
  induction ls generalizing p with
  | nil => rfl
  | cons l ls ih =>
    rw [propagate, shapeOf_cons, shapeOf_cons, shape_forwardLayer, ih]

theorem shapeOf_forwardLayers (tanh : F → F) (inputVals : List F) (layers : List (Layer F)) :
    shapeOf (forwardLayers tanh inputVals layers) = shapeOf layers := by
  cases layers with
  | nil => rfl
  | cons l0 rest =>
    rw [forwardLayers, shapeOf_cons, shapeOf_cons, shape_setInputs, shapeOf_propagate]

theorem BiasPinned.forwardLayer (tanh : F → F) (p l : Layer F)
    (h : ∃ x, l.getLast? = some x ∧ x.m_outputVal = 1) :
    ∃ x, (forwardLayer tanh p l).getLast? = some x ∧ x.m_outputVal = 1 := by
  obtain ⟨x, hx, hx1⟩ := h
  refine ⟨x, ?_, hx1⟩
  unfold NeuralNetwork.forwardLayer
  rw [getLast?_updateFirst _ _ _ ?_, hx]
  have : l ≠ [] := by intro hnil; rw [hnil] at hx; cases hx
  have := List.length_pos.mpr this
  omega

theorem BiasPinned.propagate (tanh : F → F) (ls : List (Layer F)) (p : Layer F)
    (h : BiasPinned ls) : BiasPinned (propagate tanh p ls) := by
  induction ls generalizing p with
  | nil => exact h
  | cons l ls ih =>
    intro m hm
    rw [NeuralNetwork.propagate] at hm
    rcases List.mem_cons.mp hm with h1 | h1
    · rw [h1]
      exact BiasPinned.forwardLayer tanh p l (h l (List.mem_cons_self _ _))
    · exact ih _ (fun m' hm' => h m' (List.mem_cons_of_mem _ hm')) m h1

/-- The first and second loop of `Net::feedForward` leave the last neuron of every layer
alone, when the input vector is shorter than the input layer. -/
theorem BiasPinned.forwardLayers (tanh : F → F) (inputVals : List F) (l0 : Layer F)
    (rest : List (Layer F)) (h : BiasPinned (l0 :: rest))
    (hin : inputVals.length + 1 ≤ l0.length) :
    BiasPinned (forwardLayers tanh inputVals (l0 :: rest)) := by
  intro m hm
  rw [NeuralNetwork.forwardLayers] at hm
  rcases List.mem_cons.mp hm with h1 | h1
  · obtain ⟨x, hx, hx1⟩ := h l0 (List.mem_cons_self _ _)
    rw [h1]
    refine ⟨x, ?_, hx1⟩
    unfold setInputs
    rw [getLast?_updateFirst _ _ _ hin, hx]
  · exact BiasPinned.propagate tanh rest _ (fun m' hm' => h m' (List.mem_cons_of_mem _ hm')) m h1

theorem forwardLayer_idem (tanh : F → F) (p l : Layer F) :
    forwardLayer tanh p (forwardLayer tanh p l) = forwardLayer tanh p l := by
  unfold forwardLayer
  rw [length_updateFirst]
  exact updateFirst_idem _ _ _ (fun _ _ => rfl)

theorem propagate_idem (tanh : F → F) (ls : List (Layer F)) (p : Layer F) :
    propagate tanh p (propagate tanh p ls) = propagate tanh p ls := by
  induction ls generalizing p with
  | nil => rfl
  | cons l ls ih =>
    rw [propagate, propagate, forwardLayer_idem, ih]

theorem setInputs_idem (inputVals : List F) (l0 : Layer F) :
    setInputs inputVals (setInputs inputVals l0) = setInputs inputVals l0 :=
  updateFirst_idem _ _ _ (fun _ _ => rfl)

theorem forwardLayers_idem (tanh : F → F) (inputVals : List F) (layers : List (Layer F)) :
    forwardLayers tanh inputVals (forwardLayers tanh inputVals layers)
      = forwardLayers tanh inputVals layers := by
  cases layers with
  | nil => rfl
  | cons l0 rest =>
    rw [forwardLayers, forwardLayers, setInputs_idem, propagate_idem]

theorem bound_of_getElem? {ws : List Nat} {L w : Nat} (hf : Fits ws) (h : ws[L]? = some w) :
    w + 1 < 2 ^ 32 :=
  hf.2 w (List.getElem?_mem h)

/-- `Net::feedForward` followed by `Net::getResults`, on a network of the shape of the
topology with pinned bias outputs, yields the value the specification describes. -/
theorem forward_results (tanh : F → F) (net : Net F) (inputVals : List F) (ws : List Nat)
    (hs : shapeOf net.m_layers = topologyShape ws) (hf : Fits ws)
    (hb : BiasPinned net.m_layers) (hin : ws[0]? = some inputVals.length) :
    (net.feedForward tanh inputVals >>= Net.getResults)
      = .ok (specResults tanh net inputVals) := by
  cases hl : net.m_layers with
  | nil =>
    rw [hl] at hs
    have := length_of_shapeOf hs
    have h0 : ws = [] := List.eq_nil_of_length_eq_zero this.symm
    rw [h0] at hin; cases hin
  | cons l0 rest =>
    have hs0 := hs
    rw [hl] at hs hb
    obtain ⟨w0, hw0, hl0⟩ := shape_of_layer (L := 0) (l := l0) hs (by simp)
    rw [hin] at hw0
    have hw : w0 = inputVals.length := (Option.some.inj hw0).symm
    subst hw
    have hlen0 : l0.length = inputVals.length + 1 := length_of_layerShape hl0
    obtain ⟨b0, hb0, hb01⟩ := hb l0 (List.mem_cons_self _ _)
    have hbrest : BiasPinned rest := fun m hm => hb m (List.mem_cons_of_mem _ hm)
    rw [Net.feedForward_layers tanh net inputVals ws hs0 hf (by rw [hl]; simp [hlen0]), ok_bind]
    have hout := outputs_propagate tanh rest (setInputs inputVals l0) ws
      (by rw [shapeOf_cons, shape_setInputs, ← shapeOf_cons]; exact hs) hbrest
    rw [hl]
    cases hlast : (setInputs inputVals l0 :: propagate tanh (setInputs inputVals l0) rest).getLast?
      with
    | none => rw [hlast] at hout; cases hout
    | some last =>
      rw [hlast] at hout
      have hlastout := Option.some.inj hout
      have hshape : shapeOf (forwardLayers tanh inputVals (l0 :: rest)) = topologyShape ws := by
        rw [shapeOf_forwardLayers]; exact hs
      have hidx : (forwardLayers tanh inputVals (l0 :: rest))[
          (forwardLayers tanh inputVals (l0 :: rest)).length - 1]? = some last := by
        rw [← List.getLast?_eq_getElem?]; exact hlast
      obtain ⟨w, hw, hlsh⟩ := shape_of_layer hshape hidx
      have hlastlen := length_of_layerShape hlsh
      have hbound := bound_of_getElem? hf hw
      rw [Net.getResults_last _ last hlast (by intro h; rw [h] at hlastlen; simp at hlastlen)
        (by omega)]
      unfold specResults
      rw [hl, List.map_dropLast, hlastout,
        outputs_setInputs inputVals l0 b0 hlen0 hb0 hb01,
        specOutputs_congr_head tanh _ l0 _ rest (weights_setInputs inputVals l0)]

end ForwardSpec

/-! ## The constructors -/

section Construction

variable {F : Type} [Zero F] [One F] [Add F] [Sub F] [Mul F] [Div F] [NatCast F]

theorem Neuron.new_shape (P : Platform F) (numOutputs myIndex calls : Nat) :
    (Neuron.new P numOutputs myIndex calls).1.shape = (myIndex, numOutputs) := by
  have h := forPure_inv (fun c (st : List (Connection F) × Nat) => st.1.length = c)
    (Neuron.new.pushConnection P) numOutputs 0 ([], calls) rfl
    (by
      intro i t _ _ ht
      simp [Neuron.new.pushConnection, ht])
  simp only [Nat.zero_add] at h
  simp [Neuron.new, Neuron.shape, h]

theorem pushNeuron_shape (P : Platform F) (numOutputs width calls : Nat) :
    (forPure (Net.new.pushNeuron P numOutputs) (width + 1) 0 ([], calls)).1.map Neuron.shape
      = layerShape width numOutputs := by
  have h := forPure_inv
    (fun n (st : Layer F × Nat) =>
      st.1.map Neuron.shape = (List.range n).map (fun i => (i, numOutputs)))
    (Net.new.pushNeuron P numOutputs) (width + 1) 0 ([], calls) rfl
    (by
      intro i t _ _ ht
      simp only [Net.new.pushNeuron, List.map_append, ht, List.range_succ, List.map_cons,
        List.map_nil, Neuron.new_shape])
  simpa [layerShape] using h

theorem BiasPinned.append {layers : List (Layer F)} {l : Layer F} {x : Neuron F}
    (h : BiasPinned layers) (hl : l.getLast? = some x) (hx : x.m_outputVal = 1) :
    BiasPinned (layers ++ [l]) := by
  intro l' hl'
  rcases List.mem_append.mp hl' with h1 | h1
  · exact h l' h1
  · rw [List.mem_singleton.mp h1]; exact ⟨x, hl, hx⟩

theorem getLast?_set_last {α : Type} (l : List α) (y : α) (h : l ≠ []) :
    (l.set (l.length - 1) y).getLast? = some y := by
  rw [List.getLast?_eq_getElem?, List.length_set, List.getElem?_set_self]
  have := List.length_pos.mpr h
  omega

/-- One iteration of the outer loop of `Net::Net` appends a layer of the shape the
topology asks for, with its last neuron pinned to `1.0`. -/
theorem pushLayer_spec (P : Platform F) (topology : List Nat) (hf : Fits topology)
    (L : Nat) (hL : L < topology.length) (st : List (Layer F) × Nat) :
    ∃ l calls', Net.new.pushLayer P topology L st = .ok (st.1 ++ [l], calls') ∧
      (topologyShape topology)[L]? = some (l.map Neuron.shape) ∧
      ∃ x, l.getLast? = some x ∧ x.m_outputVal = 1 := by
  have hlen := hf.1
  have hsub : sizeSub topology.length 1 = topology.length - 1 :=
    sizeSub_of_le (by omega) (by omega)
  obtain ⟨o, ho, ho'⟩ : ∃ o, (if L = sizeSub topology.length 1 then (pure 0 : Except Fault Nat)
      else vget topology (L + 1)) = .ok o ∧ o = (topology[L + 1]?).getD 0 := by
    by_cases h : L = sizeSub topology.length 1
    · refine ⟨0, by rw [if_pos h]; rfl, ?_⟩
      rw [List.getElem?_eq_none (by omega)]; rfl
    · have h1 : L + 1 < topology.length := by omega
      refine ⟨topology[L + 1], ?_, ?_⟩
      · rw [if_neg h]; exact vget_of_getElem? (List.getElem?_eq_getElem h1)
      · rw [List.getElem?_eq_getElem h1]; rfl
  obtain ⟨w, hw⟩ : ∃ w, topology[L]? = some w := ⟨_, List.getElem?_eq_getElem hL⟩
  obtain ⟨filled, hfilled⟩ : ∃ f, f = forPure (Net.new.pushNeuron P o) (w + 1) 0
      (([] : Layer F), st.2) := ⟨_, rfl⟩
  have hshape : filled.1.map Neuron.shape = layerShape w o := by
    rw [hfilled]; exact pushNeuron_shape P o w st.2
  have hne : filled.1 ≠ [] := by
    intro hnil
    have := length_of_layerShape hshape
    rw [hnil] at this
    simp at this
  obtain ⟨bias, hbias⟩ : ∃ bias, filled.1.getLast? = some bias := by
    cases hb : filled.1.getLast? with
    | none => exact absurd (List.getLast?_eq_none_iff.mp hb) hne
    | some b => exact ⟨b, rfl⟩
  have hlast : filled.1[filled.1.length - 1]? = some bias := by
    rw [← List.getLast?_eq_getElem?]; exact hbias
  refine ⟨filled.1.set (filled.1.length - 1) (bias.setOutputVal 1), filled.2, ?_, ?_, ?_⟩
  · unfold Net.new.pushLayer
    rw [ho, ok_bind, vget_of_getElem? hw, ok_bind]
    dsimp only
    rw [← hfilled, vback_eq_ok_iff.mpr hbias, ok_bind]
    rfl
  · rw [getElem?_topologyShape, hw, ← ho']
    simp only [Option.map_some']
    rw [← hshape]
    refine congrArg some ?_
    apply List.ext_getElem?
    intro i
    rw [List.getElem?_map, List.getElem?_map, List.getElem?_set]
    by_cases h : filled.1.length - 1 = i
    · rw [← h, hlast]
      have : filled.1.length - 1 < filled.1.length := by
        have := List.length_pos.mpr hne
        omega
      simp [this, Neuron.shape, Neuron.setOutputVal]
    · simp [h]
  · exact ⟨_, getLast?_set_last _ _ hne, rfl⟩

/-- `Net::Net` returns, for every topology that fits the counters, a network of the shape
of the topology in which the last neuron of every layer has output value `1.0`. -/
theorem Net.new_spec (P : Platform F) (topology : List Nat) (calls : Nat) (hf : Fits topology) :
    ∃ net calls', Net.new P topology calls = .ok (net, calls') ∧
      shapeOf net.m_layers = topologyShape topology ∧ BiasPinned net.m_layers := by
  have h := loopUp_inv
    (fun L (st : List (Layer F) × Nat) =>
      shapeOf st.1 = (topologyShape topology).take L ∧ BiasPinned st.1)
    (Net.new.pushLayer P topology) topology.length 0 ([], calls)
    ⟨rfl, fun l hl => absurd hl (List.not_mem_nil l)⟩
    (by
      intro L st _ hL hI
      obtain ⟨l, calls', hstep, hsh, x, hx, hx1⟩ :=
        pushLayer_spec P topology hf L (by omega) st
      refine ⟨_, hstep, ?_, hI.2.append hx hx1⟩
      show shapeOf (st.1 ++ [l]) = _
      rw [List.take_succ, hsh]
      unfold shapeOf at hI ⊢
      rw [List.map_append, hI.1]
      rfl)
  obtain ⟨r, hr, hsh, hb⟩ := h
  refine ⟨{ m_layers := r.1, m_error := P.indet, m_recentAverageError := P.indet }, r.2,
    ?_, ?_, ?_⟩
  · unfold Net.new forUp
    rw [toUnsigned_of_lt hf.1]
    dsimp only
    rw [Nat.sub_zero, hr]
    rfl
  · show shapeOf r.1 = _
    rw [hsh, Nat.zero_add, ← length_topologyShape, List.take_length]
  · exact hb

end Construction

/-! ## The backward pass -/

section Backward

variable {F : Type} [Zero F] [One F] [Add F] [Sub F] [Mul F] [Div F] [NatCast F]

theorem Neuron.sumDOW_dow (x : Neuron F) (nextLayer : Layer F) (w : Nat)
    (hnext : nextLayer.length = w + 1) (hw : w + 1 < 2 ^ 64)
    (hx : w ≤ x.m_outputWeights.length) :
    x.sumDOW nextLayer = .ok (x.dow nextLayer) := by
  unfold Neuron.sumDOW Neuron.dow
  rw [hnext, sizeSub_succ_one (by omega), Nat.add_sub_cancel]
  apply forUp_fold
  · rw [List.length_zip, hnext]; omega
  · intro i cy t _ hcy
    obtain ⟨h1, h2⟩ := List.getElem?_zip_eq_some.mp hcy
    unfold Neuron.sumDOW.addTerm
    rw [vget_of_getElem? h1, ok_bind, vget_of_getElem? h2, ok_bind]
    rfl

theorem Neuron.calcHiddenGradients_graded (x : Neuron F) (nextLayer : Layer F) (w : Nat)
    (hnext : nextLayer.length = w + 1) (hw : w + 1 < 2 ^ 64)
    (hx : w ≤ x.m_outputWeights.length) :
    x.calcHiddenGradients nextLayer = .ok (x.hiddenGraded nextLayer) := by
  unfold Neuron.calcHiddenGradients
  rw [Neuron.sumDOW_dow x nextLayer w hnext hw hx, ok_bind]
  rfl

/-- The inner loop over a hidden layer computes `hiddenGraded` for each of its neurons,
the bias neuron included. -/
theorem hiddenGradient_loop (nextLayer hiddenLayer : Layer F) (w : Nat)
    (hnext : nextLayer.length = w + 1) (hw : w + 1 < 2 ^ 64)
    (hx : ∀ x ∈ hiddenLayer, w ≤ x.m_outputWeights.length) :
    forUp 0 hiddenLayer.length (Net.backProp.hiddenGradient nextLayer) hiddenLayer
      = .ok (hiddenLayer.map (Neuron.hiddenGraded nextLayer)) := by
  rw [← updateFirst_eq_map]
  apply forUp_update
  · exact Nat.le_refl _
  · intro i x v _ hxi hv
    unfold Net.backProp.hiddenGradient
    rw [vget_of_getElem? hv, ok_bind,
      Neuron.calcHiddenGradients_graded x nextLayer w hnext hw (hx x (List.getElem?_mem hxi)),
      ok_bind]
    rfl

theorem Neuron.frame_updatedFor (S : Statics F) (x p : Neuron F) :
    (Neuron.updatedFor S x p).frame = p.frame := by
  unfold Neuron.updatedFor
  cases p.m_outputWeights[x.m_myIndex]? with
  | none => rfl
  | some c => simp [Neuron.frame, Neuron.shape]

/-- `Neuron::updateInputWeights` applies `updatedFor` to every neuron of the previous
layer. -/
theorem Neuron.updateInputWeights_map (S : Statics F) (x : Neuron F) (prevLayer : Layer F)
    (h : ∀ p ∈ prevLayer, x.m_myIndex < p.m_outputWeights.length) :
    x.updateInputWeights S prevLayer = .ok (prevLayer.map (Neuron.updatedFor S x)) := by
  unfold Neuron.updateInputWeights
  rw [← updateFirst_eq_map]
  apply forUp_update
  · exact Nat.le_refl _
  · intro i p v _ hp hv
    have hlt := h p (List.getElem?_mem hp)
    unfold Neuron.updateInputWeights.step
    rw [vget_of_getElem? hv, ok_bind, vget_of_getElem? (List.getElem?_eq_getElem hlt), ok_bind]
    simp only [Neuron.updatedFor, List.getElem?_eq_getElem hlt]
    rfl

/-- The inner loop of the weight update, on layers of matching shapes. -/
theorem updateFrom_loop (S : Statics F) (layer prevLayer : Layer F) (w o₁ o₂ : Nat)
    (hw : w + 1 < 2 ^ 64)
    (hp : prevLayer.map Neuron.shape = layerShape o₁ w)
    (hl : layer.map Neuron.shape = layerShape w o₂) :
    forUp 0 (sizeSub layer.length 1) (Net.backProp.updateFrom S layer) prevLayer
        = .ok (updatedFrom S layer prevLayer) ∧
      (updatedFrom S layer prevLayer).map Neuron.frame = prevLayer.map Neuron.frame := by
  have hlen : layer.length = w + 1 := length_of_layerShape hl
  rw [hlen, sizeSub_succ_one (by omega)]
  unfold updatedFrom
  rw [hlen, Nat.add_sub_cancel]
  apply forUp_fold_inv (fun prev : Layer F => prev.map Neuron.frame = prevLayer.map Neuron.frame)
  · omega
  · rfl
  · intro i x t hi hx ht
    have hidx := (shape_of_getElem? hl hx).2.1
    have hts : t.map Neuron.shape = layerShape o₁ w := by
      have : t.map Neuron.shape = (t.map Neuron.frame).map Prod.fst := by
        rw [List.map_map]; rfl
      rw [this, ht, List.map_map, ← hp]; rfl
    constructor
    · unfold Net.backProp.updateFrom
      rw [vget_of_getElem? hx, ok_bind]
      apply Neuron.updateInputWeights_map
      intro p hpm
      rw [outputs_of_mem hts hpm, hidx]
      exact hi
    · rw [← ht, List.map_map]
      apply List.map_congr_left
      intro p _
      exact Neuron.frame_updatedFor S x p

theorem shapeOf_of_frameOf {a b : List (Layer F)} (h : frameOf a = frameOf b) :
    shapeOf a = shapeOf b := by
  have key : ∀ c : List (Layer F), shapeOf c = (frameOf c).map (fun l => l.map Prod.fst) := by
    intro c
    unfold shapeOf frameOf
    rw [List.map_map]
    apply List.map_congr_left
    intro l _
    simp only [Function.comp, List.map_map]
    rfl
  rw [key a, key b, h]

theorem frameOf_set (layers : List (Layer F)) (k : Nat) (l l' : Layer F)
    (hk : layers[k]? = some l) (hl : l'.map Neuron.frame = l.map Neuron.frame) :
    frameOf (layers.set k l') = frameOf layers := by
  unfold frameOf
  apply List.ext_getElem?
  intro i
  rw [List.getElem?_map, List.getElem?_map, List.getElem?_set]
  by_cases hik : k = i
  · subst hik
    have hlt : k < layers.length := by
      rcases Nat.lt_or_ge k layers.length with h | h
      · exact h
      · rw [List.getElem?_eq_none h] at hk; cases hk
    simp [hlt, hk, hl]
  · simp [hik]

theorem getElem?_of_lt {α : Type} (v : List α) {i : Nat} (h : i < v.length) :
    ∃ x, v[i]? = some x :=
  ⟨_, List.getElem?_eq_getElem h⟩

/-- One iteration of the third loop of `Net::backProp`, on layers of the shape of a
topology: it succeeds and changes no frame. -/
theorem hiddenLayerGradients_step (layers : List (Layer F)) (ws : List Nat) (k : Nat)
    (hs : shapeOf layers = topologyShape ws) (hf : Fits ws) (hk : k + 1 < layers.length) :
    ∃ layers', Net.backProp.hiddenLayerGradients k layers = .ok layers' ∧
      frameOf layers' = frameOf layers := by
  obtain ⟨h, hh⟩ := getElem?_of_lt layers (show k < layers.length by omega)
  obtain ⟨next, hnext⟩ := getElem?_of_lt layers hk
  obtain ⟨w, hw, hhs⟩ := shape_of_layer hs hh
  obtain ⟨w', hw', hns⟩ := shape_of_layer hs hnext
  rw [hw'] at hhs
  have hb := bound_of_getElem? hf hw'
  refine ⟨layers.set k (h.map (Neuron.hiddenGraded next)), ?_, ?_⟩
  · unfold Net.backProp.hiddenLayerGradients
    rw [vget_of_getElem? hh, ok_bind, vget_of_getElem? hnext, ok_bind,
      hiddenGradient_loop next h w' (length_of_layerShape hns) (by omega)
        (fun x hx => by rw [outputs_of_mem hhs hx]; exact Nat.le_refl _),
      ok_bind]
    rfl
  · apply frameOf_set layers k h _ hh
    rw [List.map_map]
    rfl

/-- One iteration of the fourth loop of `Net::backProp`, on layers of the shape of a
topology: it succeeds and changes no frame. -/
theorem updateLayer_step (S : Statics F) (layers : List (Layer F)) (ws : List Nat) (k : Nat)
    (hs : shapeOf layers = topologyShape ws) (hf : Fits ws) (hk : k + 1 < layers.length) :
    ∃ layers', Net.backProp.updateLayer S (k + 1) layers = .ok layers' ∧
      frameOf layers' = frameOf layers := by
  obtain ⟨prev, hprev⟩ := getElem?_of_lt layers (show k < layers.length by omega)
  obtain ⟨layer, hlayer⟩ := getElem?_of_lt layers hk
  obtain ⟨w, hw, hps⟩ := shape_of_layer hs hprev
  obtain ⟨w', hw', hls⟩ := shape_of_layer hs hlayer
  rw [hw'] at hps
  have hb := bound_of_getElem? hf hw'
  obtain ⟨h1, h2⟩ := updateFrom_loop S layer prev w' w _ (by omega) hps hls
  refine ⟨layers.set k (updatedFrom S layer prev), ?_, ?_⟩
  · unfold Net.backProp.updateLayer
    rw [vget_of_getElem? hlayer, ok_bind, Nat.add_sub_cancel, vget_of_getElem? hprev, ok_bind,
      h1, ok_bind]
    rfl
  · exact frameOf_set layers k prev _ hprev h2

/-- The third loop of `Net::backProp`, started at any layer below the last. -/
theorem hiddenLayerGradients_loop (layers : List (Layer F)) (ws : List Nat) (start : Nat)
    (hs : shapeOf layers = topologyShape ws) (hf : Fits ws) (hstart : start + 1 < layers.length) :
    ∃ layers', forDown Net.backProp.hiddenLayerGradients start layers = .ok layers' ∧
      frameOf layers' = frameOf layers := by
  have h := forDown_inv (fun _ (t : List (Layer F)) => frameOf t = frameOf layers)
    Net.backProp.hiddenLayerGradients start layers rfl
    (by
      intro i t hi ht
      have hts : shapeOf t = topologyShape ws := by rw [shapeOf_of_frameOf ht]; exact hs
      have hlen : t.length = layers.length := by
        rw [length_of_shapeOf hts, length_of_shapeOf hs]
      obtain ⟨t', h1, h2⟩ := hiddenLayerGradients_step t ws (i + 1) hts hf (by omega)
      exact ⟨t', h1, h2.trans ht⟩)
  exact h

/-- The fourth loop of `Net::backProp`, started at any layer. -/
theorem updateLayer_loop (S : Statics F) (layers : List (Layer F)) (ws : List Nat) (start : Nat)
    (hs : shapeOf layers = topologyShape ws) (hf : Fits ws) (hstart : start < layers.length) :
    ∃ layers', forDown (Net.backProp.updateLayer S) start layers = .ok layers' ∧
      frameOf layers' = frameOf layers := by
  have h := forDown_inv (fun _ (t : List (Layer F)) => frameOf t = frameOf layers)
    (Net.backProp.updateLayer S) start layers rfl
    (by
      intro i t hi ht
      have hts : shapeOf t = topologyShape ws := by rw [shapeOf_of_frameOf ht]; exact hs
      have hlen : t.length = layers.length := by
        rw [length_of_shapeOf hts, length_of_shapeOf hs]
      obtain ⟨t', h1, h2⟩ := updateLayer_step S t ws i hts hf (by omega)
      exact ⟨t', h1, h2.trans ht⟩)
  exact h

/-- The first loop of `Net::backProp` computes `squaredError`. -/
theorem addSquare_loop (targetVals : List F) (outputLayer : Layer F) (o : Nat)
    (hlen : outputLayer.length = o + 1) (ht : o ≤ targetVals.length) :
    forUp 0 o (Net.backProp.addSquare targetVals outputLayer) 0
      = .ok (squaredError targetVals outputLayer) := by
  unfold squaredError
  rw [hlen, Nat.add_sub_cancel]
  apply forUp_fold
  · rw [List.length_zip, hlen]; omega
  · intro i ty t _ hty
    obtain ⟨h1, h2⟩ := List.getElem?_zip_eq_some.mp hty
    unfold Net.backProp.addSquare
    rw [vget_of_getElem? h1, ok_bind, vget_of_getElem? h2, ok_bind]
    rfl

/-- The second loop of `Net::backProp` computes `outputGraded`. -/
theorem outputGradient_loop (targetVals : List F) (outputLayer : Layer F) (o : Nat)
    (hlen : outputLayer.length = o + 1) (ht : o ≤ targetVals.length) :
    forUp 0 o (Net.backProp.outputGradient targetVals) outputLayer
      = .ok (outputGraded targetVals outputLayer) := by
  unfold outputGraded
  rw [hlen, Nat.add_sub_cancel]
  apply forUp_update
  · omega
  · intro i x v hi _ hv
    have hlt : i < targetVals.length := by omega
    unfold Net.backProp.outputGradient
    rw [vget_of_getElem? hv, ok_bind, vget_of_getElem? (List.getElem?_eq_getElem hlt), ok_bind]
    simp [List.getD, List.getElem?_eq_getElem hlt]
    rfl

theorem frame_outputGraded (targetVals : List F) (outputLayer : Layer F) :
    (outputGraded targetVals outputLayer).map Neuron.frame = outputLayer.map Neuron.frame :=
  map_updateFirst _ _ _ _ (fun _ _ => rfl)

/-- `Net::backProp` on a network of the shape of a topology of at least two layers with a
positive output width, given at least as many target values as the output width: it
returns a network, in which no frame has changed; the two error members are as computed
before the loops over the layers. -/
theorem Net.backProp_frame (sqrt : F → F) (S : Statics F) (net : Net F) (targetVals : List F)
    (ws : List Nat) (o : Nat)
    (hs : shapeOf net.m_layers = topologyShape ws) (hf : Fits ws) (h2 : 2 ≤ ws.length)
    (ho : ws.getLast? = some o) (hpos : 0 < o) (ht : o ≤ targetVals.length) :
    ∃ net' outputLayer, net.backProp sqrt S targetVals = .ok net' ∧
      net.m_layers.getLast? = some outputLayer ∧
      frameOf net'.m_layers = frameOf net.m_layers ∧
      net'.m_error = sqrt (squaredError targetVals outputLayer / ((o : Nat) : F)) ∧
      net'.m_recentAverageError
        = (net.m_recentAverageError * S.m_recentAverageSmoothingFactor + net'.m_error)
            / (S.m_recentAverageSmoothingFactor + 1) := by
  have hlen : net.m_layers.length = ws.length := length_of_shapeOf hs
  have hlast : ws[ws.length - 1]? = some o := by
    rw [← List.getLast?_eq_getElem?]; exact ho
  obtain ⟨outputLayer, hout⟩ := getElem?_of_lt net.m_layers
    (show net.m_layers.length - 1 < net.m_layers.length by omega)
  have hback : net.m_layers.getLast? = some outputLayer := by
    rw [List.getLast?_eq_getElem?]; exact hout
  obtain ⟨w, hw, hos⟩ := shape_of_layer hs hout
  rw [hlen, hlast] at hw
  have hwo : w = o := (Option.some.inj hw).symm
  subst hwo
  have holen : outputLayer.length = w + 1 := length_of_layerShape hos
  have hb := bound_of_getElem? hf hlast
  unfold Net.backProp
  rw [vback_eq_ok_iff.mpr hback, ok_bind]
  dsimp only
  rw [holen, sizeSub_succ_one (by omega), addSquare_loop targetVals outputLayer w holen ht,
    ok_bind]
  have hdiv : divBySize (squaredError targetVals outputLayer) w
      = .ok (squaredError targetVals outputLayer / ((w : Nat) : F)) := by
    unfold divBySize
    rw [if_neg (by omega)]
  rw [hdiv, ok_bind, outputGradient_loop targetVals outputLayer w holen ht, ok_bind]
  have hfr1 : frameOf (net.m_layers.set (net.m_layers.length - 1)
      (outputGraded targetVals outputLayer)) = frameOf net.m_layers :=
    frameOf_set _ _ outputLayer _ hout (frame_outputGraded targetVals outputLayer)
  have hs1 := (shapeOf_of_frameOf hfr1).trans hs
  have hlen1 := length_of_shapeOf hs1
  have hbl := hf.1
  obtain ⟨layers₂, hl2, hfr2⟩ := hiddenLayerGradients_loop _ ws (ws.length - 2) hs1 hf
    (by omega)
  have hs2 := (shapeOf_of_frameOf hfr2).trans hs1
  have hlen2 := length_of_shapeOf hs2
  obtain ⟨layers₃, hl3, hfr3⟩ := updateLayer_loop S layers₂ ws (ws.length - 1) hs2 hf
    (by omega)
  have hstart2 : toUnsigned (sizeSub (net.m_layers.set (net.m_layers.length - 1)
      (outputGraded targetVals outputLayer)).length 2) = ws.length - 2 := by
    rw [hlen1, sizeSub_of_le h2 (by omega), toUnsigned_of_lt (by omega)]
  have hstart3 : toUnsigned (sizeSub layers₂.length 1) = ws.length - 1 := by
    rw [hlen2, sizeSub_of_le (by omega) (by omega), toUnsigned_of_lt (by omega)]
  rw [hstart2, hl2, ok_bind, hstart3, hl3, ok_bind]
  exact ⟨_, outputLayer, rfl, hback, hfr3.trans (hfr2.trans hfr1), rfl, rfl⟩

theorem forDown_fault {σ : Type} (body : Nat → σ → Except Fault σ) (n : Nat) (s : σ)
    (e : Fault) (h : body (n + 1) s = .error e) : forDown body (n + 1) s = .error e := by
  rw [forDown, h]

/-- `Net::backProp` faults on a network of one layer and on a network whose output layer
holds the bias neuron alone. -/
theorem Net.backProp_fault (sqrt : F → F) (S : Statics F) (net : Net F) (targetVals : List F)
    (ws : List Nat) (o : Nat)
    (hs : shapeOf net.m_layers = topologyShape ws) (hf : Fits ws)
    (ho : ws.getLast? = some o) (ht : o ≤ targetVals.length)
    (hbad : ¬ (2 ≤ ws.length ∧ 0 < o)) :
    ∃ e, net.backProp sqrt S targetVals = .error e := by
  have hlen : net.m_layers.length = ws.length := length_of_shapeOf hs
  have hne : ws ≠ [] := by intro h; rw [h] at ho; cases ho
  have hpos : 0 < ws.length := List.length_pos.mpr hne
  have hlast : ws[ws.length - 1]? = some o := by
    rw [← List.getLast?_eq_getElem?]; exact ho
  obtain ⟨outputLayer, hout⟩ := getElem?_of_lt net.m_layers
    (show net.m_layers.length - 1 < net.m_layers.length by omega)
  have hback : net.m_layers.getLast? = some outputLayer := by
    rw [List.getLast?_eq_getElem?]; exact hout
  obtain ⟨w, hw, hos⟩ := shape_of_layer hs hout
  rw [hlen, hlast] at hw
  have hwo : w = o := (Option.some.inj hw).symm
  subst hwo
  have holen : outputLayer.length = w + 1 := length_of_layerShape hos
  have hb := bound_of_getElem? hf hlast
  unfold Net.backProp
  rw [vback_eq_ok_iff.mpr hback, ok_bind]
  dsimp only
  rw [holen, sizeSub_succ_one (by omega), addSquare_loop targetVals outputLayer w holen ht,
    ok_bind]
  by_cases hw0 : w = 0
  · refine ⟨Fault.divByZero, ?_⟩
    have hdiv : divBySize (squaredError targetVals outputLayer) w = .error .divByZero := by
      unfold divBySize
      rw [if_pos hw0]
    rw [hdiv]
    rfl
  · have hone : ws.length = 1 := by omega
    have hdiv : divBySize (squaredError targetVals outputLayer) w
        = .ok (squaredError targetVals outputLayer / ((w : Nat) : F)) := by
      unfold divBySize
      rw [if_neg hw0]
    rw [hdiv, ok_bind, outputGradient_loop targetVals outputLayer w holen ht, ok_bind]
    have hlen1 : (net.m_layers.set (net.m_layers.length - 1)
        (outputGraded targetVals outputLayer)).length = 1 := by
      rw [List.length_set, hlen, hone]
    have hstart : toUnsigned (sizeSub (net.m_layers.set (net.m_layers.length - 1)
        (outputGraded targetVals outputLayer)).length 2) = 4294967294 + 1 := by
      rw [hlen1]; decide
    refine ⟨Fault.outOfRange, ?_⟩
    rw [hstart, forDown_fault _ _ _ Fault.outOfRange]
    · rfl
    · unfold Net.backProp.hiddenLayerGradients
      rw [vget_of_le (by rw [hlen1]; omega)]
      rfl

theorem BiasPinned.of_frameOf {a b : List (Layer F)} (h : frameOf a = frameOf b)
    (hb : BiasPinned b) : BiasPinned a := by
  intro l hl
  obtain ⟨i, hi⟩ := List.getElem?_of_mem hl
  have h1 : (frameOf a)[i]? = some (l.map Neuron.frame) := by
    unfold frameOf; rw [List.getElem?_map, hi]; rfl
  rw [h] at h1
  unfold frameOf at h1
  rw [List.getElem?_map] at h1
  cases hm : b[i]? with
  | none => rw [hm] at h1; cases h1
  | some m =>
    rw [hm] at h1
    have h2 : m.map Neuron.frame = l.map Neuron.frame := Option.some.inj h1
    obtain ⟨x, hx, hx1⟩ := hb m (List.getElem?_mem hm)
    have h3 : (l.map Neuron.frame).getLast? = some x.frame := by
      rw [← h2, List.getLast?_map, hx]; rfl
    rw [List.getLast?_map] at h3
    cases hy : l.getLast? with
    | none => rw [hy] at h3; cases h3
    | some y =>
      rw [hy] at h3
      have h4 : y.frame = x.frame := Option.some.inj h3
      exact ⟨y, rfl, (congrArg Prod.snd h4).trans hx1⟩

end Backward

/-! ## Sequences of calls -/

section Sequences

variable {F : Type} [Zero F] [One F] [Add F] [Sub F] [Mul F] [Div F] [NatCast F]

theorem head_length_of_shape {net : Net F} {ws : List Nat} {n : Nat}
    (hs : shapeOf net.m_layers = topologyShape ws) (hin : ws[0]? = some n) :
    (net.m_layers.headD []).length = n + 1 := by
  cases hl : net.m_layers with
  | nil =>
    rw [hl] at hs
    have h0 : ws = [] := List.eq_nil_of_length_eq_zero (length_of_shapeOf hs).symm
    rw [h0] at hin; cases hin
  | cons l0 rest =>
    rw [hl] at hs
    obtain ⟨w0, hw0, hl0⟩ := shape_of_layer (L := 0) (l := l0) hs (by simp)
    rw [hin] at hw0
    have hw : n = w0 := Option.some.inj hw0
    rw [hw]
    exact length_of_layerShape hl0

/-- `Net::feedForward` with `topology[0]` inputs returns a network of the same shape with
the bias outputs still pinned. -/
theorem Net.feedForward_total (tanh : F → F) (net : Net F) (inputVals : List F)
    (ws : List Nat) (hs : shapeOf net.m_layers = topologyShape ws) (hf : Fits ws)
    (hin : ws[0]? = some inputVals.length) :
    ∃ net₁, net.feedForward tanh inputVals = .ok net₁ ∧
      shapeOf net₁.m_layers = topologyShape ws ∧
      (BiasPinned net.m_layers → BiasPinned net₁.m_layers) := by
  have hhead := head_length_of_shape hs hin
  refine ⟨_, Net.feedForward_layers tanh net inputVals ws hs hf (by omega), ?_, ?_⟩
  · show shapeOf (forwardLayers tanh inputVals net.m_layers) = _
    rw [shapeOf_forwardLayers]; exact hs
  · intro hb
    show BiasPinned (forwardLayers tanh inputVals net.m_layers)
    cases hl : net.m_layers with
    | nil => intro l hl'; cases hl'
    | cons l0 rest =>
      rw [hl] at hb hhead
      exact BiasPinned.forwardLayers tanh inputVals l0 rest hb
        (by simp only [List.headD_cons] at hhead; omega)

/-- `Net::getResults` on a network of the shape of a topology returns as many values as
the last entry of the topology. -/
theorem Net.getResults_length (net : Net F) (ws : List Nat) (o : Nat)
    (hs : shapeOf net.m_layers = topologyShape ws) (hf : Fits ws)
    (ho : ws.getLast? = some o) :
    ∃ r, net.getResults = .ok r ∧ r.length = o := by
  have hlen : net.m_layers.length = ws.length := length_of_shapeOf hs
  have hne : ws ≠ [] := by intro h; rw [h] at ho; cases ho
  have hpos : 0 < ws.length := List.length_pos.mpr hne
  have hlast : ws[ws.length - 1]? = some o := by
    rw [← List.getLast?_eq_getElem?]; exact ho
  obtain ⟨last, hout⟩ := getElem?_of_lt net.m_layers
    (show net.m_layers.length - 1 < net.m_layers.length by omega)
  have hback : net.m_layers.getLast? = some last := by
    rw [List.getLast?_eq_getElem?]; exact hout
  obtain ⟨w, hw, hos⟩ := shape_of_layer hs hout
  rw [hlen, hlast] at hw
  have hwo : w = o := (Option.some.inj hw).symm
  subst hwo
  have holen : last.length = w + 1 := length_of_layerShape hos
  have hb := bound_of_getElem? hf hlast
  refine ⟨_, Net.getResults_last net last hback
    (by intro h; rw [h] at holen; simp at holen) (by omega), ?_⟩
  simp [holen]

/-- `Net::backProp` with `topology.back()` targets, where it returns, returns a network
of the same shape with the bias outputs still pinned. -/
theorem Net.backProp_partial (sqrt : F → F) (S : Statics F) (net net₁ : Net F)
    (targetVals : List F) (ws : List Nat)
    (hs : shapeOf net.m_layers = topologyShape ws) (hf : Fits ws)
    (ht : ws.getLast? = some targetVals.length)
    (hok : net.backProp sqrt S targetVals = .ok net₁) :
    shapeOf net₁.m_layers = topologyShape ws ∧
      (BiasPinned net.m_layers → BiasPinned net₁.m_layers) := by
  by_cases hgood : 2 ≤ ws.length ∧ 0 < targetVals.length
  · obtain ⟨net', _, hok', _, hfr, _⟩ := Net.backProp_frame sqrt S net targetVals ws _ hs hf
      hgood.1 ht hgood.2 (Nat.le_refl _)
    rw [hok] at hok'
    have : net₁ = net' := Except.ok.inj hok'
    subst this
    exact ⟨(shapeOf_of_frameOf hfr).trans hs, fun hb => BiasPinned.of_frameOf hfr hb⟩
  · obtain ⟨e, he⟩ := Net.backProp_fault sqrt S net targetVals ws _ hs hf ht (Nat.le_refl _)
      hgood
    rw [hok] at he
    cases he

/-- A sequence of shape-correct calls, where it returns, returns a network of the same
shape with the bias outputs still pinned. -/
theorem Net.run_partial (tanh sqrt : F → F) (S : Statics F) (ws : List Nat) (hf : Fits ws)
    (cs : List (Call F)) :
    ∀ (net net' : Net F), (∀ c ∈ cs, Call.ShapeCorrect ws c) →
      shapeOf net.m_layers = topologyShape ws →
      Net.run tanh sqrt S net cs = .ok net' →
      shapeOf net'.m_layers = topologyShape ws ∧
        (BiasPinned net.m_layers → BiasPinned net'.m_layers) := by
  induction cs with
  | nil =>
    intro net net' _ hs hrun
    have : net = net' := Except.ok.inj hrun
    subst this
    exact ⟨hs, id⟩
  | cons c cs ih =>
    intro net net' hc hs hrun
    have hcs : ∀ c' ∈ cs, Call.ShapeCorrect ws c' := fun c' h => hc c' (List.mem_cons_of_mem _ h)
    have hc0 := hc c (List.mem_cons_self _ _)
    cases c with
    | feedForward x =>
      obtain ⟨net₁, h1, hs1, hb1⟩ := Net.feedForward_total tanh net x ws hs hf hc0
      rw [Net.run, h1, ok_bind] at hrun
      obtain ⟨h2, h3⟩ := ih net₁ net' hcs hs1 hrun
      exact ⟨h2, fun hb => h3 (hb1 hb)⟩
    | backProp t =>
      rw [Net.run] at hrun
      cases h1 : net.backProp sqrt S t with
      | error e => rw [h1] at hrun; cases hrun
      | ok net₁ =>
        rw [h1, ok_bind] at hrun
        obtain ⟨hs1, hb1⟩ := Net.backProp_partial sqrt S net net₁ t ws hs hf hc0 h1
        obtain ⟨h2, h3⟩ := ih net₁ net' hcs hs1 hrun
        exact ⟨h2, fun hb => h3 (hb1 hb)⟩

/-- A sequence of shape-correct calls returns, when the topology has at least two entries
and a positive last entry, or when all calls are calls of `Net::feedForward`. -/
theorem Net.run_total (tanh sqrt : F → F) (S : Statics F) (ws : List Nat) (hf : Fits ws)
    (cs : List (Call F)) :
    ∀ (net : Net F), (∀ c ∈ cs, Call.ShapeCorrect ws c) →
      shapeOf net.m_layers = topologyShape ws →
      ((2 ≤ ws.length ∧ ∃ o, ws.getLast? = some o ∧ 0 < o) ∨
        (∀ c ∈ cs, c.isFeedForward = true)) →
      ∃ net', Net.run tanh sqrt S net cs = .ok net' := by
  induction cs with
  | nil => intro net _ _ _; exact ⟨net, rfl⟩
  | cons c cs ih =>
    intro net hc hs hgood
    have hcs : ∀ c' ∈ cs, Call.ShapeCorrect ws c' := fun c' h => hc c' (List.mem_cons_of_mem _ h)
    have hc0 := hc c (List.mem_cons_self _ _)
    have hgood' : (2 ≤ ws.length ∧ ∃ o, ws.getLast? = some o ∧ 0 < o) ∨
        (∀ c ∈ cs, c.isFeedForward = true) := by
      rcases hgood with h | h
      · exact Or.inl h
      · exact Or.inr (fun c' h' => h c' (List.mem_cons_of_mem _ h'))
    cases c with
    | feedForward x =>
      obtain ⟨net₁, h1, hs1, _⟩ := Net.feedForward_total tanh net x ws hs hf hc0
      obtain ⟨net', h2⟩ := ih net₁ hcs hs1 hgood'
      exact ⟨net', by rw [Net.run, h1, ok_bind, h2]⟩
    | backProp t =>
      rcases hgood with h | h
      · obtain ⟨h2, o, ho, hpos⟩ := h
        have hto : t.length = o := by
          have : ws.getLast? = some t.length := hc0
          rw [ho] at this
          exact (Option.some.inj this).symm
        obtain ⟨net₁, _, h1, _, hfr, _⟩ := Net.backProp_frame sqrt S net t ws o hs hf h2 ho
          hpos (by omega)
        obtain ⟨net', h3⟩ := ih net₁ hcs ((shapeOf_of_frameOf hfr).trans hs) hgood'
        exact ⟨net', by rw [Net.run, h1, ok_bind, h3]⟩
      · have := h _ (List.mem_cons_self _ _)
        cases this

end Sequences

/-! ## The end-to-end scenario over the real numbers -/

section Scenario

theorem shapeOf_withWeights {F : Type} (w : F) (net : Net F) :
    shapeOf (net.withWeights w).m_layers = shapeOf net.m_layers := by
  unfold Net.withWeights shapeOf
  simp only [List.map_map]
  apply List.map_congr_left
  intro l _
  simp only [Function.comp, List.map_map]
  apply List.map_congr_left
  intro x _
  simp [Neuron.shape]

theorem BiasPinned.withWeights {F : Type} [One F] (w : F) (net : Net F)
    (h : BiasPinned net.m_layers) : BiasPinned (net.withWeights w).m_layers := by
  intro l hl
  unfold Net.withWeights at hl
  obtain ⟨m, hm, rfl⟩ := List.mem_map.mp hl
  obtain ⟨x, hx, hx1⟩ := h m hm
  refine ⟨{ x with m_outputWeights := x.m_outputWeights.map (fun c => { c with weight := w }) },
    ?_, hx1⟩
  rw [List.getLast?_map, hx]
  rfl

theorem weight_withWeights {F : Type} (w : F) (net : Net F) :
    ∀ l ∈ (net.withWeights w).m_layers, ∀ x ∈ l, ∀ c ∈ x.m_outputWeights, c.weight = w := by
  intro l hl x hx c hc
  unfold Net.withWeights at hl
  obtain ⟨m, _, rfl⟩ := List.mem_map.mp hl
  obtain ⟨y, _, rfl⟩ := List.mem_map.mp hx
  obtain ⟨d, _, rfl⟩ := List.mem_map.mp hc
  rfl

theorem weightTo_unit (p : Neuron ℝ) (j : Nat) (hj : j < p.m_outputWeights.length)
    (h : ∀ c ∈ p.m_outputWeights, c.weight = 1) : p.weightTo j = 1 := by
  unfold Neuron.weightTo weightAt
  rw [List.getElem?_eq_getElem hj]
  exact h _ (List.getElem_mem _)

theorem zipWith_unit (j : Nat) (outs : List ℝ) :
    ∀ prev : Layer ℝ, prev.length = outs.length → (∀ p ∈ prev, p.weightTo j = 1) →
      List.zipWith (fun o (p : Neuron ℝ) => o * p.weightTo j) outs prev = outs := by
  induction outs with
  | nil => intro prev _ _; rfl
  | cons o os ih =>
    intro prev hlen hw
    cases prev with
    | nil => simp at hlen
    | cons p ps =>
      simp only [List.zipWith_cons_cons]
      rw [hw p (List.mem_cons_self _ _), mul_one,
        ih ps (by simpa using hlen) (fun q hq => hw q (List.mem_cons_of_mem _ hq))]

/-- With all weights `1`, every non-bias neuron of a layer gets `tanh` of the sum of the
outputs of the previous layer. -/
theorem specLayerOutputs_unit (tanh : ℝ → ℝ) (outs : List ℝ) (prev : Layer ℝ)
    (width o₁ : Nat) (hp : prev.map Neuron.shape = layerShape o₁ width)
    (hlen : outs.length = o₁ + 1)
    (h1 : ∀ p ∈ prev, ∀ c ∈ p.m_outputWeights, c.weight = 1) :
    specLayerOutputs tanh outs prev width
      = List.replicate width (tanh (outs.foldl (· + ·) 0)) ++ [1] := by
  unfold specLayerOutputs
  have hmap : (List.range width).map (fun j => tanh (specSum outs prev j))
      = (List.range width).map (fun _ => tanh (outs.foldl (· + ·) 0)) := by
    apply List.map_congr_left
    intro j hj
    have hjw : j < width := List.mem_range.mp hj
    unfold specSum
    rw [zipWith_unit j outs prev (by rw [length_of_layerShape hp, hlen])
      (fun p hpm => weightTo_unit p j (by rw [outputs_of_mem hp hpm]; exact hjw) (h1 p hpm))]
  rw [hmap, List.map_const', List.length_range]

theorem tanh_formula (x : ℝ) : Real.tanh x = 1 - 2 / (Real.exp (2 * x) + 1) := by
  rw [Real.tanh_eq_sinh_div_cosh, Real.sinh_eq, Real.cosh_eq, Real.exp_neg]
  have h2 : Real.exp (2 * x) = Real.exp x * Real.exp x := by
    rw [two_mul, Real.exp_add]
  have hpos : 0 < Real.exp x := Real.exp_pos x
  rw [h2]
  field_simp
  ring

theorem tanh_ge_of_le_exp (x L : ℝ) (hL : 0 < L) (h : L ≤ Real.exp (2 * x)) :
    1 - 2 / (L + 1) ≤ Real.tanh x := by
  rw [tanh_formula]
  have h1 : 2 / (Real.exp (2 * x) + 1) ≤ 2 / (L + 1) := by
    apply div_le_div_of_nonneg_left <;> linarith
  linarith

theorem tanh_le_of_exp_le (x U : ℝ) (h : Real.exp (2 * x) ≤ U) :
    Real.tanh x ≤ 1 - 2 / (U + 1) := by
  rw [tanh_formula]
  have hpos : 0 < Real.exp (2 * x) := Real.exp_pos _
  have h1 : 2 / (U + 1) ≤ 2 / (Real.exp (2 * x) + 1) := by
    apply div_le_div_of_nonneg_left <;> linarith
  linarith

theorem exp_one_lower : (2.718 : ℝ) < Real.exp 1 :=
  lt_trans (by norm_num) Real.exp_one_gt_d9

theorem exp_one_upper : Real.exp 1 < (2.7183 : ℝ) :=
  lt_trans Real.exp_one_lt_d9 (by norm_num)

theorem tanh_one_bounds : (0.7615 : ℝ) ≤ Real.tanh 1 ∧ Real.tanh 1 ≤ 0.7616 := by
  have h2 : Real.exp (2 * 1) = Real.exp 1 ^ 2 := by
    rw [two_mul, Real.exp_add, sq]
  have hlo := exp_one_lower
  have hhi := exp_one_upper
  constructor
  · have := tanh_ge_of_le_exp 1 (2.718 ^ 2) (by norm_num)
      (by rw [h2]; exact pow_le_pow_left₀ (by norm_num) hlo.le 2)
    refine le_trans ?_ this
    norm_num
  · have := tanh_le_of_exp_le 1 (2.7183 ^ 2)
      (by rw [h2]; exact pow_le_pow_left₀ (Real.exp_pos 1).le hhi.le 2)
    refine le_trans this ?_
    norm_num

/-- The value of the scenario lies between `0.9871` and `0.9873`. -/
theorem scenario_bounds :
    (0.9871 : ℝ) ≤ Real.tanh (Real.tanh 1 + Real.tanh 1 + 1) ∧
      Real.tanh (Real.tanh 1 + Real.tanh 1 + 1) ≤ 0.9873 := by
  obtain ⟨t1, t2⟩ := tanh_one_bounds
  have hlo := exp_one_lower
  have hhi := exp_one_upper
  have h5 : Real.exp 5 = Real.exp 1 ^ 5 := by
    rw [← Real.exp_nat_mul]
    norm_num
  constructor
  · have hx : (5 : ℝ) + 0.046 ≤ 2 * (Real.tanh 1 + Real.tanh 1 + 1) := by linarith
    have h1 : Real.exp (5 + 0.046) ≤ Real.exp (2 * (Real.tanh 1 + Real.tanh 1 + 1)) :=
      Real.exp_le_exp.mpr hx
    have h2 : (2.718 : ℝ) ^ 5 * 1.046 ≤ Real.exp (5 + 0.046) := by
      rw [Real.exp_add, h5]
      have ha : (2.718 : ℝ) ^ 5 ≤ Real.exp 1 ^ 5 := pow_le_pow_left₀ (by norm_num) hlo.le 5
      have hb : (1.046 : ℝ) ≤ Real.exp 0.046 := by
        have := Real.add_one_le_exp (0.046 : ℝ)
        linarith
      exact mul_le_mul ha hb (by norm_num) (by positivity)
    have := tanh_ge_of_le_exp _ ((2.718 : ℝ) ^ 5 * 1.046) (by norm_num) (le_trans h2 h1)
    refine le_trans ?_ this
    norm_num
  · have hx : 2 * (Real.tanh 1 + Real.tanh 1 + 1) ≤ (5 : ℝ) + 0.0464 := by linarith
    have h1 : Real.exp (2 * (Real.tanh 1 + Real.tanh 1 + 1)) ≤ Real.exp (5 + 0.0464) :=
      Real.exp_le_exp.mpr hx
    have h2 : Real.exp (5 + 0.0464) ≤ (2.7183 : ℝ) ^ 5 * (1 / (1 - 0.0464)) := by
      rw [Real.exp_add, h5]
      have ha : Real.exp 1 ^ 5 ≤ (2.7183 : ℝ) ^ 5 :=
        pow_le_pow_left₀ (Real.exp_pos 1).le hhi.le 5
      have hb : Real.exp 0.0464 ≤ 1 / (1 - 0.0464) :=
        Real.exp_bound_div_one_sub_of_interval (by norm_num) (by norm_num)
      exact mul_le_mul ha hb (Real.exp_pos _).le (by norm_num)
    have := tanh_le_of_exp_le _ _ (le_trans h1 h2)
    refine le_trans this ?_
    norm_num

/-- The scenario of the specification: on a network of topology `[2, 2, 1]` with pinned
bias outputs and all weights `1.0`, the inputs `[0.0, 0.0]` give the single result
`tanh (tanh 1 + tanh 1 + 1)`. -/
theorem scenario_value (net : Net ℝ) (hshape : shapeOf net.m_layers = topologyShape [2, 2, 1])
    (hbias : BiasPinned net.m_layers)
    (hw : ∀ l ∈ net.m_layers, ∀ x ∈ l, ∀ c ∈ x.m_outputWeights, c.weight = 1) :
    (net.feedForward Real.tanh [0, 0] >>= Net.getResults)
      = .ok [Real.tanh (Real.tanh 1 + Real.tanh 1 + 1)] := by
  rw [forward_results Real.tanh net [0, 0] [2, 2, 1] hshape (by decide) hbias rfl]
  match hl : net.m_layers, hshape, hw with
  | [l0, l1, l2], hs, hw =>
    simp only [shapeOf, topologyShape, List.map_cons, List.map_nil, List.headD_cons,
      List.headD_nil, List.cons.injEq, and_true] at hs
    obtain ⟨h0, h1, h2⟩ := hs
    unfold specResults
    rw [hl]
    simp only [specOutputs]
    rw [length_of_layerShape h1, length_of_layerShape h2,
      specLayerOutputs_unit Real.tanh ([0, 0] ++ [1]) l0 2 2 h0 (by simp)
        (hw l0 (List.mem_cons_self _ _)),
      specLayerOutputs_unit Real.tanh
        (List.replicate 2 (Real.tanh (List.foldl (· + ·) 0 ([0, 0] ++ [1]))) ++ [1]) l1 1 2 h1
        (by simp) (hw l1 (List.mem_cons_of_mem _ (List.mem_cons_self _ _)))]
    simp
  | [], hs, _ => simp [shapeOf, topologyShape] at hs
  | [_], hs, _ => simp [shapeOf, topologyShape] at hs
  | [_, _], hs, _ => simp [shapeOf, topologyShape] at hs
  | _ :: _ :: _ :: _ :: _, hs, _ => simp [shapeOf, topologyShape] at hs

end Scenario

/-! ## The initial weights -/

section InitialWeights

variable {F : Type} [Zero F] [One F] [Add F] [Sub F] [Mul F] [Div F] [NatCast F]

/-- `Neuron::Neuron` draws the weight of connection `c` from call number `calls + c` of
`rand()`, and makes one call for each connection. -/
theorem Neuron.new_weights (P : Platform F) (numOutputs myIndex calls : Nat) :
    (Neuron.new P numOutputs myIndex calls).1.m_outputWeights
        = (List.range numOutputs).map (fun c =>
            ({ weight := ((P.rand (calls + c) : Nat) : F) / ((P.RAND_MAX : Nat) : F),
               deltaWeight := 0 } : Connection F)) ∧
      (Neuron.new P numOutputs myIndex calls).2 = calls + numOutputs := by
  have h := forPure_inv
    (fun c (st : List (Connection F) × Nat) =>
      st.1 = (List.range c).map (fun c =>
          ({ weight := ((P.rand (calls + c) : Nat) : F) / ((P.RAND_MAX : Nat) : F),
             deltaWeight := 0 } : Connection F)) ∧
        st.2 = calls + c)
    (Neuron.new.pushConnection P) numOutputs 0 ([], calls) ⟨rfl, rfl⟩
    (by
      intro i t _ _ ht
      obtain ⟨h1, h2⟩ := ht
      constructor
      · simp only [Neuron.new.pushConnection, Neuron.randomWeight, h1, h2, List.range_succ,
          List.map_append, List.map_cons, List.map_nil]
      · simp only [Neuron.new.pushConnection, Neuron.randomWeight, h2]
        omega)
  simp only [Nat.zero_add] at h
  exact h

end InitialWeights

/-! ## Frames of the two passes -/

section Frames

variable {F : Type} [Zero F] [One F] [Add F] [Sub F] [Mul F] [Div F] [NatCast F]

theorem kept_forwardLayer (tanh : F → F) (p l : Layer F) :
    (forwardLayer tanh p l).map Neuron.kept = l.map Neuron.kept :=
  map_updateFirst _ _ _ _ (fun _ _ => rfl)

theorem kept_setInputs (inputVals : List F) (l0 : Layer F) :
    (setInputs inputVals l0).map Neuron.kept = l0.map Neuron.kept :=
  map_updateFirst _ _ _ _ (fun _ _ => rfl)

theorem keptOf_propagate (tanh : F → F) (ls : List (Layer F)) (p : Layer F) :
    keptOf (propagate tanh p ls) = keptOf ls := by
  induction ls generalizing p with
  | nil => rfl
  | cons l ls ih =>
    unfold keptOf at ih ⊢
    rw [propagate, List.map_cons, List.map_cons, kept_forwardLayer, ih]

/-- `Net::feedForward` changes output values only. -/
theorem keptOf_forwardLayers (tanh : F → F) (inputVals : List F) (layers : List (Layer F)) :
    keptOf (forwardLayers tanh inputVals layers) = keptOf layers := by
  cases layers with
  | nil => rfl
  | cons l0 rest =>
    have h := keptOf_propagate tanh rest (setInputs inputVals l0)
    unfold keptOf at h ⊢
    rw [forwardLayers, List.map_cons, List.map_cons, kept_setInputs, h]

theorem outputs_of_frameOf {a b : List (Layer F)} (h : frameOf a = frameOf b) :
    a.map (List.map Neuron.getOutputVal) = b.map (List.map Neuron.getOutputVal) := by
  have key : ∀ c : List (Layer F),
      c.map (List.map Neuron.getOutputVal) = (frameOf c).map (fun l => l.map Prod.snd) := by
    intro c
    unfold frameOf
    rw [List.map_map]
    apply List.map_congr_left
    intro l _
    simp only [Function.comp, List.map_map]
    rfl
  rw [key a, key b, h]

/-- `Net::getResults` returns the same on two networks with the same frames. -/
theorem Net.getResults_of_frameOf (a b : Net F) (ws : List Nat)
    (hs : shapeOf b.m_layers = topologyShape ws) (hf : Fits ws)
    (hfr : frameOf a.m_layers = frameOf b.m_layers) :
    a.getResults = b.getResults := by
  have hout := outputs_of_frameOf hfr
  have hsa : shapeOf a.m_layers = topologyShape ws := (shapeOf_of_frameOf hfr).trans hs
  cases hw : ws with
  | nil =>
    rw [hw] at hs hsa
    have ha := List.eq_nil_of_length_eq_zero (length_of_shapeOf hsa)
    have hb := List.eq_nil_of_length_eq_zero (length_of_shapeOf hs)
    unfold Net.getResults
    rw [ha, hb]
  | cons w0 wr =>
    have hlastmap : (a.m_layers.getLast?).map (List.map Neuron.getOutputVal)
        = (b.m_layers.getLast?).map (List.map Neuron.getOutputVal) := by
      rw [← List.getLast?_map, ← List.getLast?_map, hout]
    have hpos : 0 < ws.length := by rw [hw]; simp
    have hla := length_of_shapeOf hsa
    have hlb := length_of_shapeOf hs
    obtain ⟨la, hla'⟩ := getElem?_of_lt a.m_layers
      (show a.m_layers.length - 1 < a.m_layers.length by omega)
    obtain ⟨lb, hlb'⟩ := getElem?_of_lt b.m_layers
      (show b.m_layers.length - 1 < b.m_layers.length by omega)
    have hga : a.m_layers.getLast? = some la := by rw [List.getLast?_eq_getElem?]; exact hla'
    have hgb : b.m_layers.getLast? = some lb := by rw [List.getLast?_eq_getElem?]; exact hlb'
    rw [hga, hgb] at hlastmap
    have hmap : la.map Neuron.getOutputVal = lb.map Neuron.getOutputVal :=
      Option.some.inj hlastmap
    obtain ⟨wa, hwa, hsha⟩ := shape_of_layer hsa hla'
    obtain ⟨wb, hwb, hshb⟩ := shape_of_layer hs hlb'
    have hlena := length_of_layerShape hsha
    have hlenb := length_of_layerShape hshb
    have hba := bound_of_getElem? hf hwa
    have hbb := bound_of_getElem? hf hwb
    rw [Net.getResults_last a la hga (by intro h; rw [h] at hlena; simp at hlena) (by omega),
      Net.getResults_last b lb hgb (by intro h; rw [h] at hlenb; simp at hlenb) (by omega),
      List.map_dropLast, List.map_dropLast, hmap]

end Frames

/-! ## The error members over the real numbers -/

section ErrorMembers

theorem foldl_add_eq_sum {β : Type} (f : β → ℝ) (l : List β) (a : ℝ) :
    l.foldl (fun e x => e + f x) a = a + (l.map f).sum := by
  induction l generalizing a with
  | nil => simp
  | cons x xs ih => simp [ih, add_assoc]

/-- The sum of squares of the first loop of `Net::backProp`, as a sum over the non-bias
neurons of the output layer. -/
theorem squaredError_eq_sum (targetVals : List ℝ) (outputLayer : Layer ℝ)
    (h : targetVals.length + 1 = outputLayer.length) :
    squaredError targetVals outputLayer
      = (List.zipWith (fun (t : ℝ) (x : Neuron ℝ) => (t - x.getOutputVal) ^ 2)
          targetVals outputLayer.dropLast).sum := by
  unfold squaredError
  rw [foldl_add_eq_sum (fun ty : ℝ × Neuron ℝ =>
      (ty.1 - ty.2.getOutputVal) * (ty.1 - ty.2.getOutputVal)),
    zero_add, List.zip_eq_zipWith, List.take_zipWith, List.map_zipWith,
    List.take_of_length_le (by omega), List.dropLast_eq_take]
  congr 2
  funext t x
  ring

theorem statics_initial_real :
    (Statics.initial : Statics ℝ).eta = 0.15 ∧ (Statics.initial : Statics ℝ).alpha = 0.5 ∧
      (Statics.initial : Statics ℝ).m_recentAverageSmoothingFactor = 100 := by
  refine ⟨?_, ?_, ?_⟩ <;> simp [Statics.initial] <;> norm_num

end ErrorMembers

/-! ## The error of the backward pass over the real numbers -/

section ErrorValue

theorem sum_squares_self (l : Layer ℝ) :
    (List.zipWith (fun (t : ℝ) (x : Neuron ℝ) => (t - x.getOutputVal) ^ 2)
      (l.map Neuron.getOutputVal) l).sum = 0 := by
  induction l with
  | nil => rfl
  | cons x xs ih => simp [ih]

/-- `Net::backProp` over the real numbers, with the initial static members: it returns,
`m_error` is the root of the mean of the squared differences over the non-bias output
neurons, and `m_recentAverageError` is smoothed with the factor `100`. -/
theorem Net.backProp_error (net : Net ℝ) (topology : List Nat) (targetVals : List ℝ)
    (hshape : shapeOf net.m_layers = topologyShape topology) (hfit : Fits topology)
    (hlen : 2 ≤ topology.length) (ht : topology.getLast? = some targetVals.length)
    (hpos : 0 < targetVals.length) :
    ∃ net' outputLayer, net.backProp Real.sqrt Statics.initial targetVals = .ok net' ∧
      net.m_layers.getLast? = some outputLayer ∧
      targetVals.length + 1 = outputLayer.length ∧
      net'.m_error = Real.sqrt ((1 / (targetVals.length : ℝ)) *
        (List.zipWith (fun (t : ℝ) (x : Neuron ℝ) => (t - x.getOutputVal) ^ 2)
          targetVals outputLayer.dropLast).sum) ∧
      net'.m_recentAverageError = (net.m_recentAverageError * 100 + net'.m_error) / 101 := by
  obtain ⟨net', outputLayer, hok, hlast, _, herr, hrae⟩ :=
    Net.backProp_frame Real.sqrt Statics.initial net targetVals topology targetVals.length
      hshape hfit hlen ht hpos (Nat.le_refl _)
  have hidx : net.m_layers[net.m_layers.length - 1]? = some outputLayer := by
    rw [← List.getLast?_eq_getElem?]; exact hlast
  obtain ⟨w, hw, hos⟩ := shape_of_layer hshape hidx
  have hlast' : topology[topology.length - 1]? = some targetVals.length := by
    rw [← List.getLast?_eq_getElem?]; exact ht
  rw [length_of_shapeOf hshape, hlast'] at hw
  have hwo : targetVals.length = w := Option.some.inj hw
  have holen : targetVals.length + 1 = outputLayer.length := by
    rw [length_of_layerShape hos, hwo]
  refine ⟨net', outputLayer, hok, hlast, holen, ?_, ?_⟩
  · rw [herr, squaredError_eq_sum targetVals outputLayer holen, one_div, inv_mul_eq_div]
  · rw [hrae]
    simp only [Statics.initial]
    norm_num

end ErrorValue

/-! ## Sweeps over the layers -/

section Sweeps

variable {α : Type}

theorem sweep_cons (d : α) (f : α → α → α) (a : α) (A R : List α) :
    sweep d f (a :: A) R = f ((sweep d f A R).headD d) a :: sweep d f A R := rfl

theorem sweep_concat (d : α) (f : α → α → α) (A : List α) (l : α) (R : List α) :
    sweep d f (A ++ [l]) R = sweep d f A (f (R.headD d) l :: R) := by
  unfold sweep
  rw [List.foldr_append]
  rfl

/-- The elements of a sweep: the list `done` is kept, and each element of `before` is
`f` of its right neighbour in the result and of itself. -/
theorem sweep_spec (d : α) (f : α → α → α) (A R : List α) (hR : R ≠ []) :
    (sweep d f A R).length = A.length + R.length ∧
    (∀ j, (sweep d f A R)[A.length + j]? = R[j]?) ∧
    (∀ i a, A[i]? = some a →
      ∃ nxt, (sweep d f A R)[i + 1]? = some nxt ∧ (sweep d f A R)[i]? = some (f nxt a)) := by
  induction A with
  | nil =>
    refine ⟨by simp [sweep], fun j => by simp [sweep], ?_⟩
    intro i a h
    simp at h
  | cons b A ih =>
    obtain ⟨h1, h2, h3⟩ := ih
    rw [sweep_cons]
    refine ⟨by simp [h1]; omega, ?_, ?_⟩
    · intro j
      have : (b :: A).length + j = (A.length + j) + 1 := by simp; omega
      rw [this, List.getElem?_cons_succ]
      exact h2 j
    · intro i a hi
      cases i with
      | zero =>
        have hb : b = a := by simpa using hi
        subst hb
        have hpos : 0 < (sweep d f A R).length := by
          rw [h1]
          have := List.length_pos.mpr hR
          omega
        obtain ⟨nxt, hn⟩ : ∃ nxt, (sweep d f A R)[0]? = some nxt :=
          ⟨_, List.getElem?_eq_getElem hpos⟩
        refine ⟨nxt, by simpa using hn, ?_⟩
        have hhead : (sweep d f A R).headD d = nxt := by
          cases hs : sweep d f A R with
          | nil => rw [hs] at hn; simp at hn
          | cons x xs => rw [hs] at hn; simp at hn; simp [hn]
        rw [hhead]
        simp
      | succ i =>
        obtain ⟨nxt, hn1, hn2⟩ := h3 i a (by simpa using hi)
        exact ⟨nxt, by simpa using hn1, by simpa using hn2⟩

/-- A downward loop whose pass number `k` replaces the element at position
`pre.length + k - 1` by `f` of its right neighbour and of itself computes a sweep. -/
theorem forDown_sweep (d : α) (f : α → α → α) (body : Nat → List α → Except Fault (List α))
    (pre : List α) (Inv : List α → Prop)
    (hbody : ∀ (A : List α) (l : α) (R : List α), R ≠ [] → Inv (pre ++ A ++ l :: R) →
      body (A.length + 1) (pre ++ A ++ l :: R) = .ok (pre ++ A ++ f (R.headD d) l :: R) ∧
        Inv (pre ++ A ++ f (R.headD d) l :: R)) :
    ∀ (n : Nat) (A R : List α), A.length = n → R ≠ [] → Inv (pre ++ A ++ R) →
      forDown body n (pre ++ A ++ R) = .ok (pre ++ sweep d f A R) ∧
        Inv (pre ++ sweep d f A R) := by
  intro n
  induction n with
  | zero =>
    intro A R hA _ hI
    have : A = [] := List.eq_nil_of_length_eq_zero hA
    subst this
    exact ⟨by simp [forDown, sweep], by simpa [sweep] using hI⟩
  | succ n ih =>
    intro A R hA hR hI
    rcases List.eq_nil_or_concat A with h | ⟨A', l, h⟩
    · rw [h] at hA; simp at hA
    · rw [List.concat_eq_append] at h
      subst h
      have hA' : A'.length = n := by simpa using hA
      have hstate : pre ++ (A' ++ [l]) ++ R = pre ++ A' ++ l :: R := by simp
      rw [hstate] at hI ⊢
      obtain ⟨h1, h2⟩ := hbody A' l R hR hI
      rw [hA'] at h1
      obtain ⟨h3, h4⟩ := ih A' (f (R.headD d) l :: R) hA' (by simp) h2
      rw [sweep_concat]
      refine ⟨?_, h4⟩
      rw [forDown, h1]
      exact h3

end Sweeps

/-! ## The backward pass as a function -/

section BackwardClosed

variable {F : Type} [Zero F] [One F] [Add F] [Sub F] [Mul F] [Div F] [NatCast F]

theorem shapeOf_replace (X Y : List (Layer F)) (l l' : Layer F)
    (h : l'.map Neuron.shape = l.map Neuron.shape) :
    shapeOf (X ++ l' :: Y) = shapeOf (X ++ l :: Y) := by
  simp [shapeOf, h]

theorem shape_hiddenGradedLayer (nextLayer hiddenLayer : Layer F) :
    (hiddenGradedLayer nextLayer hiddenLayer).map Neuron.shape
      = hiddenLayer.map Neuron.shape := by
  unfold hiddenGradedLayer
  rw [List.map_map]
  rfl

theorem shape_of_frame {l l' : Layer F} (h : l'.map Neuron.frame = l.map Neuron.frame) :
    l'.map Neuron.shape = l.map Neuron.shape := by
  have key : ∀ m : Layer F, m.map Neuron.shape = (m.map Neuron.frame).map Prod.fst := by
    intro m; rw [List.map_map]; rfl
  rw [key l', key l, h]

/-- One pass of the third loop of `Net::backProp`, on the layer after `1 + A.length`
layers. -/
theorem hiddenLayerGradients_pass (ws : List Nat) (hf : Fits ws) (l0 : Layer F)
    (A : List (Layer F)) (l : Layer F) (R : List (Layer F)) (hR : R ≠ [])
    (hs : shapeOf ([l0] ++ A ++ l :: R) = topologyShape ws) :
    Net.backProp.hiddenLayerGradients (A.length + 1) ([l0] ++ A ++ l :: R)
        = .ok ([l0] ++ A ++ hiddenGradedLayer (R.headD []) l :: R) ∧
      shapeOf ([l0] ++ A ++ hiddenGradedLayer (R.headD []) l :: R) = topologyShape ws := by
  cases R with
  | nil => exact absurd rfl hR
  | cons r R' =>
    have hlen : ([l0] ++ A).length = A.length + 1 := by simp
    have hl : ([l0] ++ A ++ l :: r :: R')[A.length + 1]? = some l := by
      rw [← hlen]; exact getElem?_append_cons _ l _
    have hsplit : [l0] ++ A ++ l :: r :: R' = ([l0] ++ A ++ [l]) ++ r :: R' := by simp
    have hlen2 : ([l0] ++ A ++ [l]).length = A.length + 1 + 1 := by simp
    have hr : ([l0] ++ A ++ l :: r :: R')[A.length + 1 + 1]? = some r := by
      rw [hsplit, ← hlen2]; exact getElem?_append_cons _ r _
    obtain ⟨w, hw, hls⟩ := shape_of_layer hs hl
    obtain ⟨w', hw', hrs⟩ := shape_of_layer hs hr
    rw [hw'] at hls
    have hb := bound_of_getElem? hf hw'
    constructor
    · unfold Net.backProp.hiddenLayerGradients
      rw [vget_of_getElem? hl, ok_bind, vget_of_getElem? hr, ok_bind,
        hiddenGradient_loop r l w' (length_of_layerShape hrs) (by omega)
          (fun x hx => by rw [outputs_of_mem hls hx]; exact Nat.le_refl _),
        ok_bind, ← hlen, set_append_cons]
      rfl
    · rw [shapeOf_replace _ _ l _ (shape_hiddenGradedLayer _ l)]
      exact hs

/-- One pass of the fourth loop of `Net::backProp`, for the layer after `A.length + 1`
layers. -/
theorem updateLayer_pass (S : Statics F) (ws : List Nat) (hf : Fits ws)
    (A : List (Layer F)) (l : Layer F) (R : List (Layer F)) (hR : R ≠ [])
    (hs : shapeOf ([] ++ A ++ l :: R) = topologyShape ws) :
    Net.backProp.updateLayer S (A.length + 1) ([] ++ A ++ l :: R)
        = .ok ([] ++ A ++ updatedFrom S (R.headD []) l :: R) ∧
      shapeOf ([] ++ A ++ updatedFrom S (R.headD []) l :: R) = topologyShape ws := by
  cases R with
  | nil => exact absurd rfl hR
  | cons r R' =>
    have hlen : ([] ++ A).length = A.length := by simp
    have hl : ([] ++ A ++ l :: r :: R')[A.length]? = some l := by
      have := getElem?_append_cons ([] ++ A) l (r :: R')
      rw [hlen] at this
      exact this
    have hsplit : [] ++ A ++ l :: r :: R' = ([] ++ A ++ [l]) ++ r :: R' := by simp
    have hlen2 : ([] ++ A ++ [l]).length = A.length + 1 := by simp
    have hr : ([] ++ A ++ l :: r :: R')[A.length + 1]? = some r := by
      rw [hsplit, ← hlen2]; exact getElem?_append_cons _ r _
    obtain ⟨w, hw, hls⟩ := shape_of_layer hs hl
    obtain ⟨w', hw', hrs⟩ := shape_of_layer hs hr
    rw [hw'] at hls
    have hb := bound_of_getElem? hf hw'
    obtain ⟨h1, h2⟩ := updateFrom_loop S r l w' w _ (by omega) hls hrs
    constructor
    · unfold Net.backProp.updateLayer
      rw [vget_of_getElem? hr, ok_bind, Nat.add_sub_cancel, vget_of_getElem? hl, ok_bind,
        h1, ok_bind]
      have := set_append_cons ([] ++ A) l (updatedFrom S r l) (r :: R')
      rw [hlen] at this
      rw [this]
      rfl
    · show shapeOf ([] ++ A ++ updatedFrom S r l :: r :: R') = _
      rw [shapeOf_replace _ _ l _ (shape_of_frame h2)]
      exact hs

theorem dropLast_append_getLastD (rest : List (Layer F)) (h : rest ≠ []) :
    rest.dropLast ++ [rest.getLastD []] = rest := by
  rw [List.getLastD_eq_getLast?, List.getLast?_eq_getLast _ h]
  exact List.dropLast_append_getLast h

/-- `Net::backProp` as a function: on a network of the shape of a topology of at least
two layers with a positive output width, given at least as many targets as the output
width, it returns the network whose layers are `updatedLayers` of `gradedLayers`. -/
theorem Net.backProp_layers (sqrt : F → F) (S : Statics F) (net : Net F) (targetVals : List F)
    (ws : List Nat) (o : Nat)
    (hs : shapeOf net.m_layers = topologyShape ws) (hf : Fits ws) (h2 : 2 ≤ ws.length)
    (ho : ws.getLast? = some o) (hpos : 0 < o) (ht : o ≤ targetVals.length) :
    ∃ net', net.backProp sqrt S targetVals = .ok net' ∧
      net'.m_layers = updatedLayers S (gradedLayers targetVals net.m_layers) ∧
      shapeOf (gradedLayers targetVals net.m_layers) = topologyShape ws ∧
      shapeOf net'.m_layers = topologyShape ws := by
  have hlen : net.m_layers.length = ws.length := length_of_shapeOf hs
  have hbl := hf.1
  cases hl : net.m_layers with
  | nil => rw [hl] at hlen; simp at hlen; omega
  | cons l0 rest =>
    rw [hl] at hlen hs
    have hrest : rest ≠ [] := by
      intro h; rw [h] at hlen; simp at hlen; omega
    have hrlen : rest.length + 1 = ws.length := by simpa using hlen
    obtain ⟨hidden, hhid⟩ : ∃ hidden, hidden = rest.dropLast := ⟨_, rfl⟩
    obtain ⟨out, hout⟩ : ∃ out, out = rest.getLastD [] := ⟨_, rfl⟩
    have hdecomp : rest = hidden ++ [out] := by
      rw [hhid, hout]; exact (dropLast_append_getLastD rest hrest).symm
    have hhlen : hidden.length + 2 = ws.length := by
      rw [hdecomp] at hrlen; simp at hrlen; omega
    have hlayers : l0 :: rest = [l0] ++ hidden ++ [out] := by rw [hdecomp]; simp
    have hback : (l0 :: rest).getLast? = some out := by
      rw [hlayers, List.getLast?_append]; rfl
    have hidx : (l0 :: rest)[(l0 :: rest).length - 1]? = some out := by
      rw [← List.getLast?_eq_getElem?]; exact hback
    have hlast : ws[ws.length - 1]? = some o := by
      rw [← List.getLast?_eq_getElem?]; exact ho
    obtain ⟨w, hw, hos⟩ := shape_of_layer hs hidx
    rw [hlen, hlast] at hw
    have hwo : w = o := (Option.some.inj hw).symm
    subst hwo
    have holen : out.length = w + 1 := length_of_layerShape hos
    have hb := bound_of_getElem? hf hlast
    -- the state after the second loop
    have hset : (l0 :: rest).set ((l0 :: rest).length - 1) (outputGraded targetVals out)
        = [l0] ++ hidden ++ [outputGraded targetVals out] := by
      have h1 : (l0 :: rest).length - 1 = ([l0] ++ hidden).length := by
        rw [hlen]; simp; omega
      rw [h1, hlayers, set_append_cons]
    have hs1 : shapeOf ([l0] ++ hidden ++ [outputGraded targetVals out]) = topologyShape ws := by
      rw [shapeOf_replace _ _ out _ (shape_of_frame (frame_outputGraded targetVals out)),
        ← hlayers]
      exact hs
    -- the third loop
    obtain ⟨h3, hs2⟩ := forDown_sweep [] hiddenGradedLayer Net.backProp.hiddenLayerGradients
      [l0] (fun t => shapeOf t = topologyShape ws)
      (fun A l R hR hI => hiddenLayerGradients_pass ws hf l0 A l R hR hI)
      hidden.length hidden [outputGraded targetVals out] rfl (by simp) hs1
    have hG : gradedLayers targetVals (l0 :: rest)
        = [l0] ++ sweep [] hiddenGradedLayer hidden [outputGraded targetVals out] := by
      rw [gradedLayers, ← hhid, ← hout]; rfl
    rw [← hG] at h3 hs2
    -- the fourth loop
    have hGlen : (gradedLayers targetVals (l0 :: rest)).length = ws.length :=
      length_of_shapeOf hs2
    have hGne : gradedLayers targetVals (l0 :: rest) ≠ [] := by
      intro h; rw [h] at hGlen; simp at hGlen; omega
    have hGdecomp := dropLast_append_getLastD (gradedLayers targetVals (l0 :: rest)) hGne
    have hGd : gradedLayers targetVals (l0 :: rest)
        = [] ++ (gradedLayers targetVals (l0 :: rest)).dropLast
            ++ [(gradedLayers targetVals (l0 :: rest)).getLastD []] := by
      rw [List.nil_append]; exact hGdecomp.symm
    have hAlen : (gradedLayers targetVals (l0 :: rest)).dropLast.length = ws.length - 1 := by
      rw [List.length_dropLast, hGlen]
    obtain ⟨h4, hs3⟩ := forDown_sweep [] (updatedFrom S) (Net.backProp.updateLayer S)
      [] (fun t => shapeOf t = topologyShape ws)
      (fun A l R hR hI => updateLayer_pass S ws hf A l R hR hI)
      (ws.length - 1) (gradedLayers targetVals (l0 :: rest)).dropLast
      [(gradedLayers targetVals (l0 :: rest)).getLastD []] hAlen (by simp)
      (by rw [← hGd]; exact hs2)
    rw [← hGd] at h4
    -- the run of the function
    apply Exists.intro
    refine ⟨?_, ?_, hs2, ?_⟩
    · unfold Net.backProp
      rw [hl, vback_eq_ok_iff.mpr hback, ok_bind]
      dsimp only
      rw [holen, sizeSub_succ_one (by omega), addSquare_loop targetVals out w holen ht, ok_bind]
      have hdiv : divBySize (squaredError targetVals out) w
          = .ok (squaredError targetVals out / ((w : Nat) : F)) := by
        unfold divBySize
        rw [if_neg (by omega)]
      rw [hdiv, ok_bind, outputGradient_loop targetVals out w holen ht, ok_bind, hset]
      have hstart2 : toUnsigned (sizeSub
          ([l0] ++ hidden ++ [outputGraded targetVals out]).length 2) = hidden.length := by
        have : ([l0] ++ hidden ++ [outputGraded targetVals out]).length = ws.length := by
          simp; omega
        rw [this, sizeSub_of_le h2 (by omega), toUnsigned_of_lt (by omega)]
        omega
      rw [hstart2, h3, ok_bind]
      have hstart3 : toUnsigned (sizeSub (gradedLayers targetVals (l0 :: rest)).length 1)
          = ws.length - 1 := by
        rw [hGlen, sizeSub_of_le (by omega) (by omega), toUnsigned_of_lt (by omega)]
      rw [hstart3, h4, ok_bind]
      rfl
    · rfl
    · exact hs3

end BackwardClosed

/-! ## The backward pass, neuron by neuron -/

section Pointwise

variable {F : Type} [Zero F] [One F] [Add F] [Sub F] [Mul F] [Div F] [NatCast F]

theorem zipWith_take_right {α β γ : Type} (f : α → β → γ) :
    ∀ (n : Nat) (a : List α) (b : List β),
      (List.zipWith f a b).take n = List.zipWith f a (b.take n) := by
  intro n
  induction n with
  | zero => intro a b; simp
  | succ n ih =>
    intro a b
    cases a with
    | nil => simp
    | cons x a =>
      cases b with
      | nil => simp
      | cons y b => simp [ih]

/-- The sum of `Neuron::sumDOW` is the sum over the non-bias neurons of the next layer. -/
theorem Neuron.dow_eq_specDOW (x : Neuron F) (nextLayer : Layer F) :
    x.dow nextLayer = specDOW x.m_outputWeights nextLayer := by
  unfold Neuron.dow specDOW
  rw [List.dropLast_eq_take, ← zipWith_take_right]
  have h : List.zipWith (fun c (y : Neuron F) => c.weight * y.m_gradient) x.m_outputWeights
      nextLayer = (List.zip x.m_outputWeights nextLayer).map
        (fun cy => cy.1.weight * cy.2.m_gradient) := by
    rw [List.zip, List.map_zipWith]
  rw [h, ← List.map_take, List.foldl_map]

theorem specDOW_congr (outgoing : List (Connection F)) (a b : Layer F)
    (h : a.map Neuron.m_gradient = b.map Neuron.m_gradient) :
    specDOW outgoing a = specDOW outgoing b := by
  unfold specDOW
  have key : ∀ l : Layer F,
      List.zipWith (fun c (y : Neuron F) => c.weight * y.m_gradient) outgoing l.dropLast
        = List.zipWith (fun c (g : F) => c.weight * g) outgoing
            (l.map Neuron.m_gradient).dropLast := by
    intro l
    rw [List.dropLast_eq_take, List.dropLast_eq_take, List.length_map, ← List.map_take,
      List.zipWith_map_right]
  rw [key a, key b, h]

theorem hiddenGradedLayer_congr (a b l : Layer F)
    (h : a.map Neuron.m_gradient = b.map Neuron.m_gradient) :
    hiddenGradedLayer a l = hiddenGradedLayer b l := by
  unfold hiddenGradedLayer
  apply List.map_congr_left
  intro x _
  unfold Neuron.hiddenGraded
  rw [Neuron.dow_eq_specDOW, Neuron.dow_eq_specDOW, specDOW_congr _ a b h]

theorem Neuron.updatedBy_zero (S : Statics F) (layer : Layer F) (p : Neuron F) :
    Neuron.updatedBy S layer 0 p = p := by
  unfold Neuron.updatedBy
  rw [updateFirst_zero]

theorem updateFirst_succ_of_le {α : Type} (g : Nat → α → α) (k : Nat) (v : List α)
    (h : v.length ≤ k) : updateFirst g (k + 1) v = updateFirst g k v := by
  apply List.ext_getElem?
  intro i
  rw [getElem?_updateFirst, getElem?_updateFirst]
  by_cases hi : i < v.length
  · have h1 : i < k := by omega
    have h2 : i < k + 1 := by omega
    simp [h1, h2]
  · rw [List.getElem?_eq_none (by omega)]; rfl

theorem Neuron.updatedFor_updatedBy (S : Statics F) (layer : Layer F) (k : Nat) (x p : Neuron F)
    (hx : layer[k]? = some x) (hidx : x.m_myIndex = k) :
    Neuron.updatedFor S x (Neuron.updatedBy S layer k p) = Neuron.updatedBy S layer (k + 1) p := by
  have hg : gradientAt layer k = x.m_gradient := by
    unfold gradientAt; rw [hx]
  have hget : (Neuron.updatedBy S layer k p).m_outputWeights[x.m_myIndex]?
      = p.m_outputWeights[k]? := by
    rw [hidx]
    show (updateFirst _ k p.m_outputWeights)[k]? = _
    rw [getElem?_updateFirst]
    cases p.m_outputWeights[k]? <;> simp
  unfold Neuron.updatedFor
  rw [hget]
  cases hc : p.m_outputWeights[k]? with
  | none =>
    have hle : p.m_outputWeights.length ≤ k := by
      rcases Nat.lt_or_ge k p.m_outputWeights.length with h | h
      · rw [List.getElem?_eq_getElem h] at hc; cases hc
      · exact h
    show Neuron.updatedBy S layer k p = Neuron.updatedBy S layer (k + 1) p
    unfold Neuron.updatedBy
    rw [updateFirst_succ_of_le _ k _ hle]
  | some c =>
    show ({ Neuron.updatedBy S layer k p with
      m_outputWeights := (Neuron.updatedBy S layer k p).m_outputWeights.set x.m_myIndex
        (Connection.update S (Neuron.updatedBy S layer k p).getOutputVal x.m_gradient c) }
        : Neuron F) = Neuron.updatedBy S layer (k + 1) p
    unfold Neuron.updatedBy
    simp only [Neuron.getOutputVal]
    rw [hidx, ← hg]
    have := updateFirst_succ
      (fun j c => Connection.update S p.m_outputVal (gradientAt layer j) c) k
      p.m_outputWeights c hc
    rw [this]

/-- The inner loop of the weight update, connection by connection: in every neuron of the
previous layer the connections to the non-bias neurons of `layer` are updated once. -/
theorem updatedFrom_eq_map (S : Statics F) (layer prevLayer : Layer F)
    (hidx : ∀ j (x : Neuron F), layer[j]? = some x → x.m_myIndex = j) :
    updatedFrom S layer prevLayer
      = prevLayer.map (Neuron.updatedBy S layer (layer.length - 1)) := by
  unfold updatedFrom
  have key : ∀ k, k ≤ layer.length →
      (layer.take k).foldl (fun prev x => prev.map (Neuron.updatedFor S x)) prevLayer
        = prevLayer.map (Neuron.updatedBy S layer k) := by
    intro k
    induction k with
    | zero =>
      intro _
      simp only [List.take_zero, List.foldl_nil]
      rw [List.map_congr_left (fun p _ => Neuron.updatedBy_zero S layer p), List.map_id']
    | succ k ih =>
      intro hk
      obtain ⟨x, hx⟩ := getElem?_of_lt layer (show k < layer.length by omega)
      rw [List.take_succ, hx]
      simp only [Option.toList, List.foldl_append, List.foldl]
      rw [ih (by omega), List.map_map]
      apply List.map_congr_left
      intro p _
      exact Neuron.updatedFor_updatedBy S layer k x p hx (hidx k x hx)
  exact key _ (Nat.sub_le _ _)

theorem updatedBy_congr (S : Statics F) (a b : Layer F) (k : Nat) (p : Neuron F)
    (h : a.map Neuron.m_gradient = b.map Neuron.m_gradient) :
    Neuron.updatedBy S a k p = Neuron.updatedBy S b k p := by
  have hg : ∀ j, gradientAt a j = gradientAt b j := by
    intro j
    have h1 := congrArg (fun l => l[j]?) h
    simp only [List.getElem?_map] at h1
    unfold gradientAt
    cases ha : a[j]? with
    | none => rw [ha] at h1; cases hb : b[j]? with
      | none => rfl
      | some y => rw [hb] at h1; cases h1
    | some x => rw [ha] at h1; cases hb : b[j]? with
      | none => rw [hb] at h1; cases h1
      | some y => rw [hb] at h1; exact Option.some.inj h1
  unfold Neuron.updatedBy
  simp only [hg]

theorem graded_updatedBy (S : Statics F) (layer : Layer F) (k : Nat) (p : Neuron F) :
    (Neuron.updatedBy S layer k p).graded = p.graded := rfl

theorem shape_updatedBy (S : Statics F) (layer : Layer F) (k : Nat) (p : Neuron F) :
    (Neuron.updatedBy S layer k p).shape = p.shape := by
  unfold Neuron.updatedBy Neuron.shape
  simp [length_updateFirst]

end Pointwise

/-! ## The backward pass, layer by layer -/

section Layerwise

variable {F : Type} [Zero F] [One F] [Add F] [Sub F] [Mul F] [Div F] [NatCast F]

theorem getElem?_dropLast_length (G : List (Layer F)) (hG : G ≠ []) :
    G[G.dropLast.length]? = some (G.getLastD []) := by
  have h := getElem?_append_cons G.dropLast (G.getLastD []) []
  rw [dropLast_append_getLastD G hG] at h
  exact h

/-- The layers after the gradient loops: the input layer is kept, the output layer is
`outputGraded`, and each hidden layer is `hiddenGradedLayer` of the graded layer after it. -/
theorem gradedLayers_spec (targetVals : List F) (layers : List (Layer F))
    (h2 : 2 ≤ layers.length) :
    (gradedLayers targetVals layers).length = layers.length ∧
    (gradedLayers targetVals layers)[0]? = layers[0]? ∧
    (∀ out, layers[layers.length - 1]? = some out →
      (gradedLayers targetVals layers)[layers.length - 1]?
        = some (outputGraded targetVals out)) ∧
    (∀ i l, 0 < i → i + 1 < layers.length → layers[i]? = some l →
      ∃ nxt, (gradedLayers targetVals layers)[i + 1]? = some nxt ∧
        (gradedLayers targetVals layers)[i]? = some (hiddenGradedLayer nxt l)) := by
  cases layers with
  | nil => simp at h2
  | cons l0 rest =>
    have hrest : rest ≠ [] := by
      intro h; rw [h] at h2; simp at h2
    have hdecomp := dropLast_append_getLastD rest hrest
    have hlen : rest.dropLast.length + 1 = rest.length := by
      have := congrArg List.length hdecomp
      simpa using this
    obtain ⟨h1, h3, h4⟩ := sweep_spec [] hiddenGradedLayer rest.dropLast
      [outputGraded targetVals (rest.getLastD [])] (by simp)
    have hG : gradedLayers targetVals (l0 :: rest)
        = l0 :: sweep [] hiddenGradedLayer rest.dropLast
            [outputGraded targetVals (rest.getLastD [])] := rfl
    rw [hG]
    refine ⟨?_, by simp, ?_, ?_⟩
    · have h1b : (sweep [] hiddenGradedLayer rest.dropLast
          [outputGraded targetVals (rest.getLastD [])]).length = rest.dropLast.length + 1 := by
        rw [h1]; rfl
      rw [List.length_cons, List.length_cons, h1b, hlen]
    · intro out hout
      have hidx : (l0 :: rest).length - 1 = rest.dropLast.length + 1 := by
        simp only [List.length_cons]; omega
      rw [hidx, List.getElem?_cons_succ] at hout ⊢
      have h30 := h3 0
      rw [Nat.add_zero] at h30
      rw [h30]
      rw [getElem?_dropLast_length rest hrest] at hout
      rw [← Option.some.inj hout]
      rfl
    · intro i l hi hi2 hl
      obtain ⟨j, rfl⟩ : ∃ j, i = j + 1 := ⟨i - 1, by omega⟩
      rw [List.getElem?_cons_succ] at hl
      have hj : j < rest.dropLast.length := by
        simp only [List.length_cons] at hi2; omega
      have hl2 : rest.dropLast[j]? = some l := by
        rw [← hdecomp, List.getElem?_append_left hj] at hl
        exact hl
      obtain ⟨nxt, hn1, hn2⟩ := h4 j l hl2
      exact ⟨nxt, by rw [List.getElem?_cons_succ]; exact hn1,
        by rw [List.getElem?_cons_succ]; exact hn2⟩

/-- The layers after the weight update: the last layer is kept, and each other layer is
`updatedFrom` of the layer after it. -/
theorem updatedLayers_spec (S : Statics F) (G : List (Layer F)) (hG : G ≠ []) :
    (updatedLayers S G).length = G.length ∧
    (updatedLayers S G)[G.length - 1]? = G[G.length - 1]? ∧
    (∀ i g, i + 1 < G.length → G[i]? = some g →
      ∃ nxt, (updatedLayers S G)[i + 1]? = some nxt ∧
        (updatedLayers S G)[i]? = some (updatedFrom S nxt g)) := by
  have hdecomp := dropLast_append_getLastD G hG
  have hlen : G.dropLast.length + 1 = G.length := by
    have := congrArg List.length hdecomp
    simpa using this
  obtain ⟨h1, h3, h4⟩ := sweep_spec [] (updatedFrom S) G.dropLast [G.getLastD []] (by simp)
  unfold updatedLayers
  refine ⟨?_, ?_, ?_⟩
  · rw [h1]; simpa using hlen
  · have hidx : G.length - 1 = G.dropLast.length := by omega
    have h30 := h3 0
    rw [Nat.add_zero] at h30
    rw [hidx, h30, getElem?_dropLast_length G hG]
    rfl
  · intro i g hi hg
    have hj : i < G.dropLast.length := by omega
    have hg2 : G.dropLast[i]? = some g := by
      rw [← hdecomp, List.getElem?_append_left hj] at hg
      exact hg
    exact h4 i g hg2

theorem gradients_of_graded {a b : Layer F}
    (h : a.map Neuron.graded = b.map Neuron.graded) :
    a.map Neuron.m_gradient = b.map Neuron.m_gradient := by
  have key : ∀ m : Layer F,
      m.map Neuron.m_gradient = (m.map Neuron.graded).map (fun t => t.2.1) := by
    intro m; rw [List.map_map]; rfl
  rw [key a, key b, h]

/-- `Net::backProp` layer by layer: the gradients of the input layer are kept, those of the
output layer are set by `calcOutputGradients`, those of a hidden layer by
`calcHiddenGradients` from the layer after it as it is after the call; the weights of the
last layer are kept, those of every other layer are updated once from the layer after it. -/
theorem Net.backProp_closed (sqrt : F → F) (S : Statics F) (net : Net F) (targetVals : List F)
    (ws : List Nat) (o : Nat)
    (hs : shapeOf net.m_layers = topologyShape ws) (hf : Fits ws) (h2 : 2 ≤ ws.length)
    (ho : ws.getLast? = some o) (hpos : 0 < o) (ht : o ≤ targetVals.length) :
    ∃ net', net.backProp sqrt S targetVals = .ok net' ∧
      shapeOf net'.m_layers = topologyShape ws ∧
      ∀ L l, net.m_layers[L]? = some l →
        ∃ g l', (gradedLayers targetVals net.m_layers)[L]? = some g ∧
          net'.m_layers[L]? = some l' ∧
          l'.map Neuron.graded = g.map Neuron.graded ∧
          (L = 0 → g = l) ∧
          (L + 1 = ws.length → g = outputGraded targetVals l ∧ l' = g) ∧
          (L + 1 < ws.length → ∃ nxt', net'.m_layers[L + 1]? = some nxt' ∧
            (0 < L → g = hiddenGradedLayer nxt' l) ∧
            l' = g.map (Neuron.updatedBy S nxt' (nxt'.length - 1))) := by
  obtain ⟨net', hrun, hlayers, hsG, hsU⟩ :=
    Net.backProp_layers sqrt S net targetVals ws o hs hf h2 ho hpos ht
  refine ⟨net', hrun, hsU, ?_⟩
  have hlenL : net.m_layers.length = ws.length := length_of_shapeOf hs
  have hlenG : (gradedLayers targetVals net.m_layers).length = ws.length :=
    length_of_shapeOf hsG
  obtain ⟨g1, g2, g3, g4⟩ := gradedLayers_spec targetVals net.m_layers (by omega)
  have hGne : gradedLayers targetVals net.m_layers ≠ [] := by
    intro h; rw [h] at hlenG; simp at hlenG; omega
  obtain ⟨u1, u2, u3⟩ := updatedLayers_spec S (gradedLayers targetVals net.m_layers) hGne
  rw [← hlayers] at u1 u2 u3
  have hU : ∀ L g, (gradedLayers targetVals net.m_layers)[L]? = some g →
      ∃ l', net'.m_layers[L]? = some l' ∧ l'.map Neuron.graded = g.map Neuron.graded ∧
        (L + 1 = ws.length → l' = g) ∧
        (L + 1 < ws.length → ∃ nxt', net'.m_layers[L + 1]? = some nxt' ∧
          l' = g.map (Neuron.updatedBy S nxt' (nxt'.length - 1))) := by
    intro L g hg
    have hL : L < (gradedLayers targetVals net.m_layers).length := by
      rcases Nat.lt_or_ge L (gradedLayers targetVals net.m_layers).length with h | h
      · exact h
      · rw [List.getElem?_eq_none h] at hg; cases hg
    by_cases hlast : L + 1 = ws.length
    · have hLe : L = (gradedLayers targetVals net.m_layers).length - 1 := by omega
      rw [← hLe, hg] at u2
      exact ⟨g, u2, rfl, fun _ => rfl, fun h => absurd h (by omega)⟩
    · obtain ⟨nxt, hn1, hn2⟩ := u3 L g (by omega) hg
      obtain ⟨w, hw, hns⟩ := shape_of_layer hsU hn1
      have hidx : ∀ j (x : Neuron F), nxt[j]? = some x → x.m_myIndex = j :=
        fun j x hx => (shape_of_getElem? hns hx).2.1
      rw [updatedFrom_eq_map S nxt g hidx] at hn2
      refine ⟨_, hn2, ?_, fun h => absurd h hlast, fun _ => ⟨nxt, hn1, rfl⟩⟩
      rw [List.map_map]
      apply List.map_congr_left
      intro p _
      rfl
  intro L l hl
  have hL : L < net.m_layers.length := by
    rcases Nat.lt_or_ge L net.m_layers.length with h | h
    · exact h
    · rw [List.getElem?_eq_none h] at hl; cases hl
  obtain ⟨g, hg⟩ := getElem?_of_lt (gradedLayers targetVals net.m_layers)
    (show L < (gradedLayers targetVals net.m_layers).length by omega)
  obtain ⟨l', hl', hgr, hlast, hmid⟩ := hU L g hg
  refine ⟨g, l', hg, hl', hgr, ?_, ?_, ?_⟩
  · intro h0
    subst h0
    rw [g2, hl] at hg
    exact (Option.some.inj hg).symm
  · intro h
    have hLe : L = net.m_layers.length - 1 := by omega
    rw [hLe] at hl hg
    rw [g3 l hl] at hg
    exact ⟨(Option.some.inj hg).symm, hlast h⟩
  · intro h
    obtain ⟨nxt', hn, hl'eq⟩ := hmid h
    refine ⟨nxt', hn, ?_, hl'eq⟩
    intro h0
    obtain ⟨nxtG, hnG, hgG⟩ := g4 L l h0 (by omega) hl
    obtain ⟨nl', hnl', hngr, _, _⟩ := hU (L + 1) nxtG hnG
    rw [hn] at hnl'
    have hnl : nxt' = nl' := Option.some.inj hnl'
    rw [← hnl] at hngr
    rw [hg] at hgG
    rw [Option.some.inj hgG]
    exact (hiddenGradedLayer_congr nxt' nxtG l (gradients_of_graded hngr)).symm

end Layerwise

/-! ## The backward pass, connection by connection -/

section Neuronwise

variable {F : Type} [Zero F] [One F] [Add F] [Sub F] [Mul F] [Div F] [NatCast F]

theorem getElem?_of_map_eq {α β : Type} (f : α → β) {a b : List α} (h : a.map f = b.map f)
    {k : Nat} {y : α} (hy : b[k]? = some y) : ∃ x, a[k]? = some x ∧ f x = f y := by
  have h1 := congrArg (fun l => l[k]?) h
  simp only [List.getElem?_map, hy, Option.map_some'] at h1
  cases ha : a[k]? with
  | none => rw [ha] at h1; cases h1
  | some x => rw [ha] at h1; exact ⟨x, rfl, Option.some.inj h1⟩

theorem lt_length_of_getElem? {α : Type} {v : List α} {k : Nat} {x : α} (h : v[k]? = some x) :
    k < v.length := by
  rcases Nat.lt_or_ge k v.length with h1 | h1
  · exact h1
  · rw [List.getElem?_eq_none h1] at h; cases h

/-- `Net::backProp` neuron by neuron and connection by connection. -/
theorem Net.backProp_neurons (sqrt : F → F) (S : Statics F) (net : Net F) (targetVals : List F)
    (ws : List Nat) (o : Nat)
    (hs : shapeOf net.m_layers = topologyShape ws) (hf : Fits ws) (h2 : 2 ≤ ws.length)
    (ho : ws.getLast? = some o) (hpos : 0 < o) (ht : o ≤ targetVals.length) :
    ∃ net', net.backProp sqrt S targetVals = .ok net' ∧
      shapeOf net'.m_layers = topologyShape ws ∧
      ∀ L l k (x : Neuron F), net.m_layers[L]? = some l → l[k]? = some x →
        ∃ l' x', net'.m_layers[L]? = some l' ∧ l'.length = l.length ∧ l'[k]? = some x' ∧
          x'.m_outputVal = x.m_outputVal ∧ x'.m_myIndex = x.m_myIndex ∧
          (L = 0 → x'.m_gradient = x.m_gradient) ∧
          (L + 1 = ws.length → x'.m_outputWeights = x.m_outputWeights ∧
            (k + 1 = l.length → x'.m_gradient = x.m_gradient) ∧
            (k + 1 < l.length → x'.m_gradient
              = (targetVals.getD k 0 - x.m_outputVal)
                  * (1 - x.m_outputVal * x.m_outputVal))) ∧
          (L + 1 < ws.length → ∃ nxt', net'.m_layers[L + 1]? = some nxt' ∧
            nxt'.length = x.m_outputWeights.length + 1 ∧
            x'.m_outputWeights.length = x.m_outputWeights.length ∧
            (0 < L → x'.m_gradient
              = specDOW x.m_outputWeights nxt' * (1 - x.m_outputVal * x.m_outputVal)) ∧
            (∀ (j : Nat) (c : Connection F), x.m_outputWeights[j]? = some c →
              ∃ y' : Neuron F, nxt'[j]? = some y' ∧
                x'.m_outputWeights[j]?
                  = some (Connection.update S x.m_outputVal y'.m_gradient c))) := by
  obtain ⟨net', hrun, hsU, hall⟩ :=
    Net.backProp_closed sqrt S net targetVals ws o hs hf h2 ho hpos ht
  refine ⟨net', hrun, hsU, ?_⟩
  intro L l k x hl hx
  obtain ⟨g, l', hg, hl', hgr, h0, hlast, hmid⟩ := hall L l hl
  have hLlt : L < net.m_layers.length := lt_length_of_getElem? hl
  have hlenL : net.m_layers.length = ws.length := length_of_shapeOf hs
  have hklt : k < l.length := lt_length_of_getElem? hx
  obtain ⟨w, hw, hls⟩ := shape_of_layer hs hl
  have hxw : x.m_outputWeights.length = (ws[L + 1]?).getD 0 := (shape_of_getElem? hls hx).2.2
  have hl'len : l'.length = g.length := by
    have := congrArg List.length hgr
    simpa using this
  -- the neuron after the gradient loops
  have hgx : g.length = l.length ∧ ∃ gx, g[k]? = some gx ∧ gx.m_outputVal = x.m_outputVal ∧
      gx.m_myIndex = x.m_myIndex ∧ gx.m_outputWeights = x.m_outputWeights ∧
      (L = 0 → gx.m_gradient = x.m_gradient) ∧
      (L + 1 = ws.length → (k + 1 = l.length → gx.m_gradient = x.m_gradient) ∧
        (k + 1 < l.length → gx.m_gradient
          = (targetVals.getD k 0 - x.m_outputVal) * (1 - x.m_outputVal * x.m_outputVal))) ∧
      (L + 1 < ws.length → 0 < L → ∀ nxt', net'.m_layers[L + 1]? = some nxt' →
        gx.m_gradient
          = specDOW x.m_outputWeights nxt' * (1 - x.m_outputVal * x.m_outputVal)) := by
    rcases Nat.lt_or_ge (L + 1) ws.length with hlt | hge
    · rcases Nat.eq_zero_or_pos L with hz | hp
      · rw [h0 hz]
        exact ⟨rfl, x, hx, rfl, rfl, rfl, fun _ => rfl, fun h => absurd h (by omega),
          fun _ h => absurd h (by omega)⟩
      · obtain ⟨nxt', hn, hgn, _⟩ := hmid hlt
        rw [hgn hp]
        refine ⟨by simp [hiddenGradedLayer], Neuron.hiddenGraded nxt' x, ?_, rfl, rfl, rfl,
          fun h => absurd h (by omega), fun h => absurd h (by omega), ?_⟩
        · unfold hiddenGradedLayer
          rw [List.getElem?_map, hx]
          rfl
        · intro _ _ n2 hn2
          rw [hn] at hn2
          rw [← Option.some.inj hn2]
          show x.dow nxt' * Neuron.transferFunctionDerivative x.m_outputVal = _
          rw [Neuron.dow_eq_specDOW]
          rfl
    · have hLe : L + 1 = ws.length := by omega
      rw [(hlast hLe).1]
      refine ⟨by simp [outputGraded, length_updateFirst], ?_⟩
      by_cases hk : k < l.length - 1
      · refine ⟨x.calcOutputGradients (targetVals.getD k 0), ?_, rfl, rfl, rfl,
          fun h => absurd h (by omega), fun _ => ⟨fun h => absurd h (by omega), fun _ => rfl⟩,
          fun h => absurd h (by omega)⟩
        unfold outputGraded
        rw [getElem?_updateFirst, hx]
        simp [hk]
      · refine ⟨x, ?_, rfl, rfl, rfl, fun _ => rfl,
          fun _ => ⟨fun _ => rfl, fun h => absurd h (by omega)⟩,
          fun h => absurd h (by omega)⟩
        unfold outputGraded
        rw [getElem?_updateFirst, hx]
        simp [hk]
  obtain ⟨hglen, gx, hgk, hgo, hgi, hgw, hg0, hgl, hgm⟩ := hgx
  obtain ⟨x', hx', hxg⟩ := getElem?_of_map_eq Neuron.graded hgr hgk
  have hxo : x'.m_outputVal = gx.m_outputVal := congrArg (fun t => t.1) hxg
  have hxgr : x'.m_gradient = gx.m_gradient := congrArg (fun t => t.2.1) hxg
  have hxi : x'.m_myIndex = gx.m_myIndex := congrArg (fun t => t.2.2) hxg
  refine ⟨l', x', hl', by rw [hl'len, hglen], hx', by rw [hxo, hgo], by rw [hxi, hgi],
    fun h => by rw [hxgr, hg0 h], ?_, ?_⟩
  · intro hLe
    have hl'g := (hlast hLe).2
    rw [hl'g, hgk] at hx'
    have hxe : gx = x' := Option.some.inj hx'
    refine ⟨by rw [← hxe, hgw], fun h => by rw [hxgr, (hgl hLe).1 h],
      fun h => by rw [hxgr, (hgl hLe).2 h]⟩
  · intro hlt
    obtain ⟨nxt', hn, _, hl'eq⟩ := hmid hlt
    obtain ⟨w', hw', hns⟩ := shape_of_layer hsU hn
    have hnlen : nxt'.length = w' + 1 := length_of_layerShape hns
    rw [hw'] at hxw
    have hxw2 : x.m_outputWeights.length = w' := hxw
    rw [hl'eq, List.getElem?_map, hgk] at hx'
    have hxe : Neuron.updatedBy S nxt' (nxt'.length - 1) gx = x' := Option.some.inj hx'
    have hxws : x'.m_outputWeights
        = updateFirst (fun j c => Connection.update S x.m_outputVal (gradientAt nxt' j) c)
            (nxt'.length - 1) x.m_outputWeights := by
      rw [← hxe]
      unfold Neuron.updatedBy
      simp only [Neuron.getOutputVal, hgo, hgw]
    refine ⟨nxt', hn, by omega, by rw [hxws, length_updateFirst],
      fun hp => by rw [hxgr, hgm hlt hp nxt' hn], ?_⟩
    intro j c hc
    have hj : j < x.m_outputWeights.length := lt_length_of_getElem? hc
    obtain ⟨y', hy'⟩ := getElem?_of_lt nxt' (show j < nxt'.length by omega)
    refine ⟨y', hy', ?_⟩
    rw [hxws, getElem?_updateFirst, hc]
    have hjk : j < nxt'.length - 1 := by omega
    have hgA : gradientAt nxt' j = y'.m_gradient := by
      unfold gradientAt; rw [hy']
    simp only [Option.map_some', if_pos hjk, hgA]

end Neuronwise

/-! ## States with stored delta weights -/

section Momentum

variable {F : Type} [Zero F] [One F] [Add F] [Sub F] [Mul F] [Div F] [NatCast F]

theorem shapeOf_withDeltaWeights (d : F) (net : Net F) :
    shapeOf (net.withDeltaWeights d).m_layers = shapeOf net.m_layers := by
  unfold Net.withDeltaWeights shapeOf
  simp only [List.map_map]
  apply List.map_congr_left
  intro l _
  simp only [Function.comp, List.map_map]
  apply List.map_congr_left
  intro x _
  simp [Neuron.shape]

theorem deltaWeight_withDeltaWeights (d : F) (net : Net F) :
    ∀ l ∈ (net.withDeltaWeights d).m_layers, ∀ x ∈ l, ∀ c ∈ x.m_outputWeights,
      c.deltaWeight = d := by
  intro l hl x hx c hc
  unfold Net.withDeltaWeights at hl
  obtain ⟨m, _, rfl⟩ := List.mem_map.mp hl
  obtain ⟨y, _, rfl⟩ := List.mem_map.mp hx
  obtain ⟨e, _, rfl⟩ := List.mem_map.mp hc
  rfl

/-- With `eta = 0` and `alpha = 0.5` the weight update adds half of the stored delta
weight. -/
theorem Connection.update_eta_zero (outputVal gradient : ℝ) (c : Connection ℝ) :
    (Connection.update (Statics.initial.withEta 0) outputVal gradient c).weight
        = c.weight + 0.5 * c.deltaWeight ∧
      (Connection.update (Statics.initial.withEta 0) outputVal gradient c).deltaWeight
        = 0.5 * c.deltaWeight := by
  obtain ⟨_, ha, _⟩ := statics_initial_real
  have ha2 : (Statics.initial.withEta (0 : ℝ)).alpha = 0.5 := ha
  have he2 : (Statics.initial.withEta (0 : ℝ)).eta = 0 := rfl
  constructor
  · show c.weight + ((Statics.initial.withEta (0 : ℝ)).eta * outputVal * gradient
      + (Statics.initial.withEta (0 : ℝ)).alpha * c.deltaWeight) = _
    rw [ha2, he2]; ring
  · show (Statics.initial.withEta (0 : ℝ)).eta * outputVal * gradient
      + (Statics.initial.withEta (0 : ℝ)).alpha * c.deltaWeight = _
    rw [ha2, he2]; ring

end Momentum

/-! ## The calls of the weight update -/

section UpdateCalls

variable {F : Type} [Zero F] [One F] [Add F] [Sub F] [Mul F] [Div F] [NatCast F]

/-- A monadic fold whose steps succeed on the states of an invariant is a fold. -/
theorem foldlM_ok {σ α : Type} (Inv : σ → Prop) (g : σ → α → σ)
    (body : σ → α → Except Fault σ) :
    ∀ (v : List α) (s : σ), Inv s →
      (∀ x ∈ v, ∀ t, Inv t → body t x = .ok (g t x) ∧ Inv (g t x)) →
      v.foldlM body s = .ok (v.foldl g s) ∧ Inv (v.foldl g s) := by
  intro v
  induction v with
  | nil => intro s h0 _; exact ⟨rfl, h0⟩
  | cons a v ih =>
    intro s h0 hbody
    obtain ⟨h1, h2⟩ := hbody a (List.mem_cons_self _ _) s h0
    obtain ⟨h3, h4⟩ := ih (g s a) h2 (fun x hx => hbody x (List.mem_cons_of_mem _ hx))
    refine ⟨?_, h4⟩
    rw [List.foldlM_cons, h1]
    exact h3

/-- The weights after the inner loop of the weight update are those after the calls of
`Neuron::updateInputWeights` for the neurons of `layer` but the last, in their order. -/
theorem updateInputWeights_fold (S : Statics F) (layer prevLayer : Layer F) (w o₁ o₂ : Nat)
    (hp : prevLayer.map Neuron.shape = layerShape o₁ w)
    (hl : layer.map Neuron.shape = layerShape w o₂) :
    layer.dropLast.foldlM (fun prev (x : Neuron F) => x.updateInputWeights S prev) prevLayer
      = .ok (updatedFrom S layer prevLayer) := by
  unfold updatedFrom
  rw [← List.dropLast_eq_take]
  refine (foldlM_ok (fun prev : Layer F => prev.map Neuron.shape = layerShape o₁ w)
    (fun prev x => prev.map (Neuron.updatedFor S x)) _ layer.dropLast prevLayer hp ?_).1
  intro x hx t ht
  obtain ⟨i, hi⟩ := List.getElem?_of_mem hx
  have hilt : i < layer.dropLast.length := lt_length_of_getElem? hi
  have hlen : layer.length = w + 1 := length_of_layerShape hl
  rw [List.length_dropLast, hlen, Nat.add_sub_cancel] at hilt
  have hi2 : layer[i]? = some x := by
    rw [List.dropLast_eq_take, List.getElem?_take] at hi
    rw [if_pos (by omega)] at hi
    exact hi
  have hidx := (shape_of_getElem? hl hi2).2.1
  constructor
  · apply Neuron.updateInputWeights_map
    intro p hpm
    rw [outputs_of_mem ht hpm, hidx]
    exact hilt
  · show (t.map (Neuron.updatedFor S x)).map Neuron.shape = layerShape o₁ w
    rw [← ht, List.map_map]
    apply List.map_congr_left
    intro p _
    exact congrArg Prod.fst (Neuron.frame_updatedFor S x p)

/-- The fourth loop of `Net::backProp` as calls of `Neuron::updateInputWeights`: each
layer but the last is, after the call, the result of the calls for the neurons of the next
layer but its last one, made on the layer as the gradient loops left it (the weights of
before the call, the gradients of after the call). -/
theorem Net.backProp_updateCalls (sqrt : F → F) (S : Statics F) (net : Net F)
    (targetVals : List F) (ws : List Nat) (o : Nat)
    (hs : shapeOf net.m_layers = topologyShape ws) (hf : Fits ws) (h2 : 2 ≤ ws.length)
    (ho : ws.getLast? = some o) (hpos : 0 < o) (ht : o ≤ targetVals.length) :
    ∃ net', net.backProp sqrt S targetVals = .ok net' ∧
      ∀ L l, L + 1 < ws.length → net.m_layers[L]? = some l →
        ∃ (g l' nextLayer' : Layer F),
          net'.m_layers[L]? = some l' ∧ net'.m_layers[L + 1]? = some nextLayer' ∧
          g.map Neuron.m_outputWeights = l.map Neuron.m_outputWeights ∧
          g.map Neuron.graded = l'.map Neuron.graded ∧
          nextLayer'.dropLast.foldlM
            (fun prev (x : Neuron F) => x.updateInputWeights S prev) g = .ok l' := by
  obtain ⟨net', hrun, hsU, hall⟩ :=
    Net.backProp_closed sqrt S net targetVals ws o hs hf h2 ho hpos ht
  obtain ⟨net'', hrun2, _, hsG, _⟩ :=
    Net.backProp_layers sqrt S net targetVals ws o hs hf h2 ho hpos ht
  refine ⟨net', hrun, ?_⟩
  intro L l hL hl
  obtain ⟨g, l', hg, hl', hgr, h0, _, hmid⟩ := hall L l hl
  obtain ⟨nxt', hn, hgn, hl'eq⟩ := hmid hL
  obtain ⟨w, hw, hgs⟩ := shape_of_layer hsG hg
  obtain ⟨w', hw', hns⟩ := shape_of_layer hsU hn
  rw [hw'] at hgs
  have hidx : ∀ j (x : Neuron F), nxt'[j]? = some x → x.m_myIndex = j :=
    fun j x hx => (shape_of_getElem? hns hx).2.1
  have hfold := updateInputWeights_fold S nxt' g w' w _ hgs hns
  rw [updatedFrom_eq_map S nxt' g hidx, ← hl'eq] at hfold
  refine ⟨g, l', nxt', hl', hn, ?_, hgr.symm, hfold⟩
  rcases Nat.eq_zero_or_pos L with hz | hp
  · rw [h0 hz]
  · rw [hgn hp]
    unfold hiddenGradedLayer
    rw [List.map_map]
    rfl

end UpdateCalls

/-! ## The reading of the topology -/

section Reading

theorem length_dropWhile_le (p : Char → Bool) (l : List Char) :
    (l.dropWhile p).length ≤ l.length :=
  (List.dropWhile_suffix p).length_le

/-- On a good stream the sentry either fails at the end of the stream and sets `eofbit`
and `failbit`, or succeeds before a character, on a stream that is not longer. -/
theorem SStream.sentry_good (ss : SStream) (h1 : ss.eofbit = false) (h2 : ss.failbit = false) :
    ss.sentry = (⟨[], true, true⟩, false) ∨
      ∃ c cs, ss.sentry = (⟨c :: cs, false, false⟩, true) ∧
        (c :: cs).length ≤ ss.rest.length := by
  unfold SStream.sentry
  rw [h1, h2]
  simp only [Bool.or_self, Bool.false_eq_true, if_false]
  cases h : ss.rest.dropWhile isSpaceChar with
  | nil => exact Or.inl rfl
  | cons c cs =>
    refine Or.inr ⟨c, cs, rfl, ?_⟩
    rw [← h]
    exact length_dropWhile_le _ _

/-- An extraction of an `unsigned` from a good stream meets a sign, ends the stream, fails,
or extracts a character. -/
theorem SStream.readUnsigned_progress (ss : SStream) (h1 : ss.eofbit = false)
    (h2 : ss.failbit = false) :
    (ss.readUnsigned).2 = Assigned.signed ∨ (ss.readUnsigned).1.eofbit = true ∨
      (ss.readUnsigned).1.failbit = true ∨
      (ss.readUnsigned).1.rest.length < ss.rest.length := by
  unfold SStream.readUnsigned
  rcases SStream.sentry_good ss h1 h2 with hs | ⟨c, cs, hs, hlen⟩
  · rw [hs]
    exact Or.inr (Or.inl rfl)
  · rw [hs]
    simp only
    by_cases hd : c.isDigit = true
    · rw [if_pos hd]
      have hlt : ((c :: cs).dropWhile Char.isDigit).length < ss.rest.length := by
        rw [List.dropWhile_cons_of_pos hd]
        have := length_dropWhile_le Char.isDigit cs
        simp only [List.length_cons] at hlen
        omega
      by_cases hn : digitsValue ((c :: cs).takeWhile Char.isDigit) < 2 ^ 32
      · rw [if_pos hn]
        exact Or.inr (Or.inr (Or.inr hlt))
      · rw [if_neg hn]
        exact Or.inr (Or.inr (Or.inl rfl))
    · rw [if_neg hd]
      by_cases hsg : (c.toNat = 43 || c.toNat = 45) = true
      · rw [if_pos hsg]
        exact Or.inl rfl
      · rw [if_neg hsg]
        exact Or.inr (Or.inr (Or.inl rfl))

/-- The bound on the passes of the loop of `getTopology` is never met: a stream that is
not good ends the loop in one pass, a good one in two passes more than it has
characters. -/
theorem getTopology_loop_finished (indet : Nat → Nat) :
    ∀ (passes : Nat) (ss : SStream) (topology : List Nat),
      ((ss.eofbit = true ∨ ss.failbit = true) ∧ 1 ≤ passes) ∨ ss.rest.length + 2 ≤ passes →
      TrainingData.getTopology.loop indet passes ss topology ≠ Reading.unfinished := by
  intro passes
  induction passes with
  | zero =>
    intro ss topology h
    rcases h with ⟨_, h⟩ | h <;> omega
  | succ passes ih =>
    intro ss topology h
    unfold TrainingData.getTopology.loop
    by_cases he : ss.eofbit = true
    · rw [if_pos he]; exact fun h => Reading.noConfusion h
    · rw [if_neg he]
      by_cases hfl : ss.failbit = true
      · rw [if_pos hfl]; exact fun h => Reading.noConfusion h
      · rw [if_neg hfl]
        have he' : ss.eofbit = false := by simpa using he
        have hf' : ss.failbit = false := by simpa using hfl
        have hlen : ss.rest.length + 2 ≤ passes + 1 := by
          rcases h with ⟨h | h, _⟩ | h
          · exact absurd h he
          · exact absurd h hfl
          · exact h
        have hprog := SStream.readUnsigned_progress ss he' hf'
        have hnext : ∀ t, (ss.readUnsigned).2 ≠ Assigned.signed →
            TrainingData.getTopology.loop indet passes (ss.readUnsigned).1 t
              ≠ Reading.unfinished := by
          intro t hns
          apply ih
          rcases hprog with h | h | h | h
          · exact absurd h hns
          · exact Or.inl ⟨Or.inl h, by omega⟩
          · exact Or.inl ⟨Or.inr h, by omega⟩
          · exact Or.inr (by omega)
        cases hr : ss.readUnsigned with
        | mk s1 a =>
          rw [hr] at hnext
          cases a with
          | kept => exact hnext _ (fun h => Assigned.noConfusion h)
          | set n => exact hnext _ (fun h => Assigned.noConfusion h)
          | signed => exact fun h => Reading.noConfusion h

/-- The model of `TrainingData::getTopology` never stops at the bound on the passes of
its loop. -/
theorem getTopology_finished (indet : Nat → Nat) (topology : List Nat) (line : List Char)
    (fileEof : Bool) :
    TrainingData.getTopology indet topology line fileEof ≠ Reading.unfinished := by
  unfold TrainingData.getTopology
  simp only
  by_cases hc : (fileEof || decide ((SStream.readWord ⟨line, false, false⟩ []).2
      ≠ (("topology:").toList))) = true
  · rw [if_pos hc]; exact fun h => Reading.noConfusion h
  · rw [if_neg hc]
    apply getTopology_loop_finished
    unfold SStream.readWord
    rcases SStream.sentry_good ⟨line, false, false⟩ rfl rfl with hs | ⟨c, cs, hs, hlen⟩
    · rw [hs]
      exact Or.inl ⟨Or.inl rfl, by omega⟩
    · rw [hs]
      refine Or.inr ?_
      have := length_dropWhile_le (fun c => !isSpaceChar c) (c :: cs)
      have hlen2 : (c :: cs).length ≤ line.length := hlen
      show ((c :: cs).dropWhile (fun c => !isSpaceChar c)).length + 2 ≤ line.length + 2
      omega

end Reading

/-! ## Claims -/

section Claims

variable {F : Type} [Zero F] [One F] [Add F] [Sub F] [Mul F] [Div F] [NatCast F]

theorem lengths_of_shapeOf {layers : List (Layer F)} {ws : List Nat}
    (h : shapeOf layers = topologyShape ws) :
    layers.map List.length = ws.map (fun w => w + 1) := by
  apply List.ext_getElem?
  intro L
  rw [List.getElem?_map, List.getElem?_map]
  cases hl : layers[L]? with
  | none =>
    have : ws[L]? = none := by
      rw [List.getElem?_eq_none_iff] at hl ⊢
      rw [← length_of_shapeOf h]; exact hl
    rw [this]; rfl
  | some l =>
    obtain ⟨w, hw, hsh⟩ := shape_of_layer h hl
    rw [hw]
    simp [length_of_layerShape hsh]

/-- C1: for a network built by `Net::Net`, and an input vector of length `topology[0]`,
`Net::feedForward` followed by `Net::getResults` returns what the specification describes:
the non-bias input outputs are the inputs, every bias output is `1.0`, each later non-bias
neuron `j` gets `tanh` of the sum over all neurons `p` of the previous layer of
`p.output * p.outgoing[j].weight`, and the result lists the last layer's non-bias outputs. -/
theorem C1_feedForward_getResults (tanh : F → F) (P : Platform F) (topology : List Nat)
    (calls : Nat) (inputVals : List F) (hfit : Fits topology)
    (hin : topology[0]? = some inputVals.length) :
    ∃ net calls', Net.new P topology calls = .ok (net, calls') ∧
      (net.feedForward tanh inputVals >>= Net.getResults)
        = .ok (specResults tanh net inputVals) := by
  obtain ⟨net, calls', hnew, hsh, hb⟩ := Net.new_spec P topology calls hfit
  exact ⟨net, calls', hnew, forward_results tanh net inputVals topology hsh hfit hb hin⟩

/-- C1, witness: topology `[2, 2, 1]` and inputs `[3, 4]`. -/
theorem C1_feedForward_getResults_witness :
    ∃ net calls', Net.new samplePlatform [2, 2, 1] 0 = .ok (net, calls') ∧
      (net.feedForward id [3, 4] >>= Net.getResults) = .ok (specResults id net [3, 4]) :=
  C1_feedForward_getResults id samplePlatform [2, 2, 1] 0 [3, 4] (by decide) rfl

/-- C2 (as amended): end-to-end scenario.  For the network of topology `[2, 2, 1]` in
which every connection weight is `1.0`, `Net::feedForward` with inputs `[0.0, 0.0]`
followed by `Net::getResults` returns exactly one value `r`, with
`r = tanh (tanh 1 + tanh 1 + 1)` in real arithmetic, and `|r - 0.9872| ≤ 1e-4`. -/
theorem C2_scenario (P : Platform ℝ) (calls : Nat) :
    ∃ net calls', Net.new P [2, 2, 1] calls = .ok (net, calls') ∧
      ((net.withWeights 1).feedForward Real.tanh [0, 0] >>= Net.getResults)
        = .ok [Real.tanh (Real.tanh 1 + Real.tanh 1 + 1)] ∧
      |Real.tanh (Real.tanh 1 + Real.tanh 1 + 1) - 0.9872| ≤ 0.0001 := by
  obtain ⟨net, calls', hnew, hsh, hb⟩ := Net.new_spec P [2, 2, 1] calls (by decide)
  refine ⟨net, calls', hnew, ?_, ?_⟩
  · exact scenario_value (net.withWeights 1) ((shapeOf_withWeights 1 net).trans hsh)
      (hb.withWeights 1 net) (weight_withWeights 1 net)
  · obtain ⟨h1, h2⟩ := scenario_bounds
    rw [abs_le]
    constructor <;> norm_num <;> linarith

/-- C2, counterexample: for the network of topology `[2, 2, 1]` with all weights `1.0` and
the inputs `[0.0, 0.0]`, the single result `r = tanh (tanh 1 + tanh 1 + 1)` is further
than `1e-4` from `0.9869`. -/
theorem C2_counterexample :
    ∃ net calls' r, Net.new (unitPlatform : Platform ℝ) [2, 2, 1] 0 = .ok (net, calls') ∧
      ((net.withWeights 1).feedForward Real.tanh [0, 0] >>= Net.getResults) = .ok [r] ∧
      r = Real.tanh (Real.tanh 1 + Real.tanh 1 + 1) ∧
      ¬ |r - 0.9869| ≤ 0.0001 := by
  obtain ⟨net, calls', hnew, hsh, hb⟩ :=
    Net.new_spec (unitPlatform : Platform ℝ) [2, 2, 1] 0 (by decide)
  refine ⟨net, calls', _, hnew,
    scenario_value (net.withWeights 1) ((shapeOf_withWeights 1 net).trans hsh)
      (hb.withWeights 1 net) (weight_withWeights 1 net), rfl, ?_⟩
  obtain ⟨h1, _⟩ := scenario_bounds
  intro h
  rw [abs_le] at h
  have := h.2
  norm_num at this
  linarith

/-- C3: for a non-empty topology with last entry `o`, `Net::getResults` returns `o` values
on the network `Net::Net` builds, and on every network a sequence of shape-correct calls of
`Net::feedForward` and `Net::backProp` returns, whose shape is that of the built network.
The sequence does return when the topology has at least two entries and `o` is positive,
or when it consists of `feedForward` calls. -/
theorem C3_results_length (tanh sqrt : F → F) (S : Statics F) (P : Platform F)
    (topology : List Nat) (o calls : Nat) (cs : List (Call F))
    (hfit : Fits topology) (ho : topology.getLast? = some o)
    (hcs : ∀ c ∈ cs, Call.ShapeCorrect topology c) :
    ∃ net calls', Net.new P topology calls = .ok (net, calls') ∧
      (∃ r, net.getResults = .ok r ∧ r.length = o) ∧
      (∀ net', Net.run tanh sqrt S net cs = .ok net' →
        shapeOf net'.m_layers = shapeOf net.m_layers ∧
          ∃ r, net'.getResults = .ok r ∧ r.length = o) ∧
      ((2 ≤ topology.length ∧ 0 < o) ∨ (∀ c ∈ cs, c.isFeedForward = true) →
        ∃ net', Net.run tanh sqrt S net cs = .ok net') := by
  obtain ⟨net, calls', hnew, hsh, _⟩ := Net.new_spec P topology calls hfit
  refine ⟨net, calls', hnew, Net.getResults_length net topology o hsh hfit ho, ?_, ?_⟩
  · intro net' hrun
    obtain ⟨h1, _⟩ := Net.run_partial tanh sqrt S topology hfit cs net net' hcs hsh hrun
    exact ⟨h1.trans hsh.symm, Net.getResults_length net' topology o h1 hfit ho⟩
  · intro hgood
    apply Net.run_total tanh sqrt S topology hfit cs net hcs hsh
    rcases hgood with h | h
    · exact Or.inl ⟨h.1, o, ho, h.2⟩
    · exact Or.inr h

/-- C3, witness: topology `[2, 2, 1]` and the calls `feedForward [3, 4]`, `backProp [5]`,
`feedForward [1, 2]`. -/
theorem C3_results_length_witness :
    ∃ net calls', Net.new samplePlatform [2, 2, 1] 0 = .ok (net, calls') ∧
      (∃ r, net.getResults = .ok r ∧ r.length = 1) ∧
      (∀ net', Net.run id id sampleStatics net
          [Call.feedForward [3, 4], Call.backProp [5], Call.feedForward [1, 2]] = .ok net' →
        shapeOf net'.m_layers = shapeOf net.m_layers ∧
          ∃ r, net'.getResults = .ok r ∧ r.length = 1) ∧
      ((2 ≤ [2, 2, 1].length ∧ 0 < 1) ∨
          (∀ c ∈ [Call.feedForward [3, 4], Call.backProp [5], Call.feedForward [1, (2 : Int)]],
            c.isFeedForward = true) →
        ∃ net', Net.run id id sampleStatics net
          [Call.feedForward [3, 4], Call.backProp [5], Call.feedForward [1, 2]] = .ok net') :=
  C3_results_length id id sampleStatics samplePlatform [2, 2, 1] 1 0
    [Call.feedForward [3, 4], Call.backProp [5], Call.feedForward [1, 2]]
    (by decide) rfl (by decide)

/-- C4: for a topology of at least two positive entries, the last neuron of every layer
has output value `1.0` after `Net::Net`, and still has it after any sequence of
`feedForward` calls with `topology[0]` inputs and `backProp` calls with `topology.back()`
targets; every such sequence returns. -/
theorem C4_bias_pinned (tanh sqrt : F → F) (S : Statics F) (P : Platform F)
    (topology : List Nat) (calls : Nat) (cs : List (Call F))
    (hfit : Fits topology) (hlen : 2 ≤ topology.length) (hpos : ∀ t ∈ topology, 0 < t)
    (hcs : ∀ c ∈ cs, Call.ShapeCorrect topology c) :
    ∃ net calls', Net.new P topology calls = .ok (net, calls') ∧
      BiasPinned net.m_layers ∧
      ∃ net', Net.run tanh sqrt S net cs = .ok net' ∧ BiasPinned net'.m_layers := by
  obtain ⟨net, calls', hnew, hsh, hb⟩ := Net.new_spec P topology calls hfit
  obtain ⟨o, ho⟩ : ∃ o, topology.getLast? = some o := by
    cases h : topology.getLast? with
    | none =>
      rw [List.getLast?_eq_none_iff] at h
      rw [h] at hlen
      simp at hlen
    | some o => exact ⟨o, rfl⟩
  have hopos : 0 < o := hpos o (List.mem_of_getLast?_eq_some ho)
  obtain ⟨net', hrun⟩ := Net.run_total tanh sqrt S topology hfit cs net hcs hsh
    (Or.inl ⟨hlen, o, ho, hopos⟩)
  obtain ⟨_, hb'⟩ := Net.run_partial tanh sqrt S topology hfit cs net net' hcs hsh hrun
  exact ⟨net, calls', hnew, hb, net', hrun, hb' hb⟩

/-- C4, witness: topology `[2, 2, 1]` and the calls `feedForward [3, 4]`, `backProp [5]`,
`feedForward [1, 2]`, `backProp [0]`. -/
theorem C4_bias_pinned_witness :
    ∃ net calls', Net.new samplePlatform [2, 2, 1] 0 = .ok (net, calls') ∧
      BiasPinned net.m_layers ∧
      ∃ net', Net.run id id sampleStatics net
        [Call.feedForward [3, 4], Call.backProp [5], Call.feedForward [1, 2],
          Call.backProp [0]] = .ok net' ∧ BiasPinned net'.m_layers :=
  C4_bias_pinned id id sampleStatics samplePlatform [2, 2, 1] 0
    [Call.feedForward [3, 4], Call.backProp [5], Call.feedForward [1, 2], Call.backProp [0]]
    (by decide) (by decide) (by decide) (by decide)

/-- C5: `Net::feedForward` is idempotent: on a network of the shape of its topology, with
an input vector of length `topology[0]`, it returns a state, and run again on that state
with the same inputs it returns the same state. -/
theorem C5_feedForward_idempotent (tanh : F → F) (net : Net F) (topology : List Nat)
    (x : List F) (hshape : shapeOf net.m_layers = topologyShape topology)
    (hfit : Fits topology) (hx : topology[0]? = some x.length) :
    ∃ net₁, net.feedForward tanh x = .ok net₁ ∧ net₁.feedForward tanh x = .ok net₁ ∧
      (net.feedForward tanh x >>= fun n => n.feedForward tanh x) = net.feedForward tanh x := by
  have hin : x.length ≤ (net.m_layers.headD []).length := by
    cases hl : net.m_layers with
    | nil =>
      rw [hl] at hshape
      have h0 : topology = [] := List.eq_nil_of_length_eq_zero (length_of_shapeOf hshape).symm
      rw [h0] at hx; cases hx
    | cons l0 rest =>
      rw [hl] at hshape
      obtain ⟨w0, hw0, hl0⟩ := shape_of_layer (L := 0) (l := l0) hshape (by simp)
      rw [hx] at hw0
      have := length_of_layerShape hl0
      have hw : x.length = w0 := Option.some.inj hw0
      simp only [List.headD_cons]
      omega
  have h1 := Net.feedForward_layers tanh net x topology hshape hfit hin
  have h2 := Net.feedForward_layers tanh
    { net with m_layers := forwardLayers tanh x net.m_layers } x topology
    (by rw [shapeOf_forwardLayers]; exact hshape) hfit
    (by
      cases hl : net.m_layers with
      | nil => rw [hl] at hin; exact hin
      | cons l0 rest =>
        rw [hl] at hin
        simpa [forwardLayers, setInputs, length_updateFirst] using hin)
  simp only [forwardLayers_idem] at h2
  exact ⟨_, h1, h2, by rw [h1, ok_bind, h2]⟩

/-- C5, witness: the sample network of topology `[2, 2, 1]` and the inputs `[3, 4]`. -/
theorem C5_feedForward_idempotent_witness :
    ∃ net₁, sampleNet.feedForward id [3, 4] = .ok net₁ ∧
      net₁.feedForward id [3, 4] = .ok net₁ ∧
      (sampleNet.feedForward id [3, 4] >>= fun n => n.feedForward id [3, 4])
        = sampleNet.feedForward id [3, 4] :=
  C5_feedForward_idempotent id sampleNet [2, 2, 1] [3, 4] rfl (by decide) rfl

/-- C6 (as amended): `Net::Net` does not validate its topology.  For every topology that
fits the `unsigned` counters, also one with fewer than two entries or with entries equal to
zero, it returns a network with one layer per entry, layer `L` having `topology[L] + 1`
neurons. -/
theorem C6_constructor_never_rejects (P : Platform F) (topology : List Nat) (calls : Nat)
    (hfit : Fits topology) :
    ∃ net calls', Net.new P topology calls = .ok (net, calls') ∧
      net.m_layers.map List.length = topology.map (fun w => w + 1) := by
  obtain ⟨net, calls', hnew, hsh, _⟩ := Net.new_spec P topology calls hfit
  exact ⟨net, calls', hnew, lengths_of_shapeOf hsh⟩

/-- C6, witness: the topology `[0]` has one entry, which is zero, and is accepted. -/
theorem C6_constructor_never_rejects_witness :
    Fits [0] ∧ ∃ net calls', Net.new samplePlatform [0] 0 = .ok (net, calls') ∧
      net.m_layers.map List.length = [0].map (fun w => w + 1) :=
  ⟨by decide, C6_constructor_never_rejects samplePlatform [0] 0 (by decide)⟩

/-- C6, counterexample: the empty topology, a topology of one entry and a topology with a
zero entry are all turned into networks; no configuration error is raised. -/
theorem C6_counterexample :
    (∃ r, Net.new samplePlatform [] 0 = .ok r) ∧
    (∃ r, Net.new samplePlatform [3] 0 = .ok r) ∧
    (∃ r, Net.new samplePlatform [0, 1] 0 = .ok r) :=
  ⟨⟨_, rfl⟩, ⟨_, rfl⟩, ⟨_, rfl⟩⟩

/-- C8 (as amended): `Net::backProp` does not check the length of the target vector.
Given at least `topology.back()` targets it does what it does for the first
`topology.back()` of them: further targets are ignored; on a network of at least two
layers with a positive output width it returns a network, the one it returns for the first
`topology.back()` targets, and no error is reported.  The check is made by the caller:
the pass of the loop of `main` ends in the failed `assert`, before `backProp` is called,
when the number of targets read differs from `topology.back()`. -/
theorem C8_backProp_unchecked (tanh sqrt : F → F) (S : Statics F) (net : Net F)
    (topology : List Nat) (o : Nat) (inputVals targetVals : List F)
    (hshape : shapeOf net.m_layers = topologyShape topology) (hfit : Fits topology)
    (ho : topology.getLast? = some o) (hin : topology[0]? = some inputVals.length) :
    (o ≤ targetVals.length →
      net.backProp sqrt S targetVals = net.backProp sqrt S (targetVals.take o)) ∧
    (2 ≤ topology.length → 0 < o → o ≤ targetVals.length →
      ∃ net', net.backProp sqrt S targetVals = .ok net' ∧
        net.backProp sqrt S (targetVals.take o) = .ok net') ∧
    (targetVals.length ≠ o →
      mainPass tanh sqrt S topology net inputVals targetVals = .ok Pass.aborted) := by
  have heq : o ≤ targetVals.length →
      net.backProp sqrt S targetVals = net.backProp sqrt S (targetVals.take o) := by
    intro hlong
    have hlen : net.m_layers.length = topology.length := length_of_shapeOf hshape
    have hne : topology ≠ [] := by intro h; rw [h] at ho; cases ho
    have hpos : 0 < topology.length := List.length_pos.mpr hne
    have hlast : topology[topology.length - 1]? = some o := by
      rw [← List.getLast?_eq_getElem?]; exact ho
    obtain ⟨outputLayer, hout⟩ := getElem?_of_lt net.m_layers
      (show net.m_layers.length - 1 < net.m_layers.length by omega)
    have hback : net.m_layers.getLast? = some outputLayer := by
      rw [List.getLast?_eq_getElem?]; exact hout
    obtain ⟨w, hw, hos⟩ := shape_of_layer hshape hout
    rw [hlen, hlast] at hw
    have hwo : w = o := (Option.some.inj hw).symm
    subst hwo
    have holen : outputLayer.length = w + 1 := length_of_layerShape hos
    have hb := bound_of_getElem? hfit hlast
    have hget : ∀ i, i < w → vget targetVals i = vget (targetVals.take w) i := by
      intro i hi
      unfold vget
      rw [List.getElem?_take_of_lt hi]
    have e1 : forUp 0 w (Net.backProp.addSquare targetVals outputLayer) 0
        = forUp 0 w (Net.backProp.addSquare (targetVals.take w) outputLayer) 0 := by
      unfold forUp
      apply loopUp_congr
      intro i t _ hi
      unfold Net.backProp.addSquare
      rw [hget i (by omega)]
    have e2 : forUp 0 w (Net.backProp.outputGradient targetVals) outputLayer
        = forUp 0 w (Net.backProp.outputGradient (targetVals.take w)) outputLayer := by
      unfold forUp
      apply loopUp_congr
      intro i t _ hi
      unfold Net.backProp.outputGradient
      rw [hget i (by omega)]
    unfold Net.backProp
    rw [vback_eq_ok_iff.mpr hback, ok_bind, ok_bind]
    dsimp only
    rw [holen, sizeSub_succ_one (by omega), e1, e2]
  refine ⟨heq, ?_, ?_⟩
  · intro h2 hpos hlong
    obtain ⟨net', _, hok, _⟩ := Net.backProp_frame sqrt S net targetVals topology o hshape
      hfit h2 ho hpos hlong
    exact ⟨net', hok, by rw [← heq hlong]; exact hok⟩
  · intro hne
    obtain ⟨net₁, h1, hs1, _⟩ := Net.feedForward_total tanh net inputVals topology hshape hfit hin
    obtain ⟨r, hr, _⟩ := Net.getResults_length net₁ topology o hs1 hfit ho
    unfold mainPass
    rw [vget_of_getElem? hin, ok_bind, if_neg (by simp)]
    rw [h1, ok_bind, hr, ok_bind, vback_eq_ok_iff.mpr ho, ok_bind, if_pos hne]
    rfl

/-- C8, witness: two targets for the sample network of topology `[2, 2, 1]`. -/
theorem C8_backProp_unchecked_witness :
    (1 ≤ [(5 : Int), 6].length →
      sampleNet.backProp id sampleStatics [5, 6]
        = sampleNet.backProp id sampleStatics ([5, 6].take 1)) ∧
    (2 ≤ [2, 2, 1].length → 0 < 1 → 1 ≤ [(5 : Int), 6].length →
      ∃ net', sampleNet.backProp id sampleStatics [5, 6] = .ok net' ∧
        sampleNet.backProp id sampleStatics ([5, 6].take 1) = .ok net') ∧
    ([(5 : Int), 6].length ≠ 1 →
      mainPass id id sampleStatics [2, 2, 1] sampleNet [3, 4] [5, 6] = .ok Pass.aborted) :=
  C8_backProp_unchecked id id sampleStatics sampleNet [2, 2, 1] 1 [3, 4] [5, 6] rfl
    (by decide) rfl rfl

/-- C8, counterexample: on the sample network of topology `[2, 2, 1]`, `Net::backProp`
with two targets instead of one returns a network, with changed weights. -/
theorem C8_counterexample :
    ∃ net₁, sampleNet.backProp id sampleStatics [5, 6] = .ok net₁ ∧
      net₁.m_layers ≠ sampleNet.m_layers :=
  ⟨_, rfl, by decide⟩

/-- C9: under the shape-correctness precondition (a topology of at least two positive
entries, `topology[0]` inputs, `topology.back()` targets) `Net::Net` returns a network of
the shape of the topology, and on every network of that shape `Net::feedForward`,
`Net::getResults` and `Net::backProp` return without a fault (no index out of range, no
division by zero), the two passes returning a network of the same shape again. -/
theorem C9_no_fault (tanh sqrt : F → F) (S : Statics F) (P : Platform F)
    (topology : List Nat) (calls : Nat) (inputVals targetVals : List F)
    (hfit : Fits topology) (hlen : 2 ≤ topology.length) (hpos : ∀ t ∈ topology, 0 < t)
    (hin : topology[0]? = some inputVals.length)
    (ht : topology.getLast? = some targetVals.length) :
    (∃ net calls', Net.new P topology calls = .ok (net, calls') ∧
      shapeOf net.m_layers = topologyShape topology) ∧
    ∀ net : Net F, shapeOf net.m_layers = topologyShape topology →
      (∃ net₁, net.feedForward tanh inputVals = .ok net₁ ∧
        shapeOf net₁.m_layers = topologyShape topology) ∧
      (∃ r, net.getResults = .ok r) ∧
      (∃ net₂, net.backProp sqrt S targetVals = .ok net₂ ∧
        shapeOf net₂.m_layers = topologyShape topology) := by
  constructor
  · obtain ⟨net, calls', hnew, hsh, _⟩ := Net.new_spec P topology calls hfit
    exact ⟨net, calls', hnew, hsh⟩
  · intro net hsh
    refine ⟨?_, ?_, ?_⟩
    · obtain ⟨net₁, h1, hs1, _⟩ := Net.feedForward_total tanh net inputVals topology hsh hfit hin
      exact ⟨net₁, h1, hs1⟩
    · obtain ⟨r, hr, _⟩ := Net.getResults_length net topology _ hsh hfit ht
      exact ⟨r, hr⟩
    · obtain ⟨net₂, _, h2, _, hfr, _⟩ := Net.backProp_frame sqrt S net targetVals topology _
        hsh hfit hlen ht (hpos _ (List.mem_of_getLast?_eq_some ht)) (Nat.le_refl _)
      exact ⟨net₂, h2, (shapeOf_of_frameOf hfr).trans hsh⟩

/-- C9, witness: topology `[2, 2, 1]`, inputs `[3, 4]`, targets `[5]`. -/
theorem C9_no_fault_witness :
    (∃ net calls', Net.new samplePlatform [2, 2, 1] 0 = .ok (net, calls') ∧
      shapeOf net.m_layers = topologyShape [2, 2, 1]) ∧
    ∀ net : Net Int, shapeOf net.m_layers = topologyShape [2, 2, 1] →
      (∃ net₁, net.feedForward id [3, 4] = .ok net₁ ∧
        shapeOf net₁.m_layers = topologyShape [2, 2, 1]) ∧
      (∃ r, net.getResults = .ok r) ∧
      (∃ net₂, net.backProp id sampleStatics [5] = .ok net₂ ∧
        shapeOf net₂.m_layers = topologyShape [2, 2, 1]) :=
  C9_no_fault id id sampleStatics samplePlatform [2, 2, 1] 0 [3, 4] [5]
    (by decide) (by decide) (by decide) rfl rfl

/-- C10: `Net::Net` produces `topology.length` layers; layer `L` has `topology[L] + 1`
neurons; the neuron at position `i` has index `i`; every neuron of a non-final layer `L`
has `topology[L + 1]` outgoing connections and every neuron of the final layer has none. -/
theorem C10_constructor_shape (P : Platform F) (topology : List Nat) (calls : Nat)
    (hfit : Fits topology) :
    ∃ net calls', Net.new P topology calls = .ok (net, calls') ∧
      net.m_layers.length = topology.length ∧
      ∀ L layer, net.m_layers[L]? = some layer →
        topology[L]? = some (layer.length - 1) ∧ 0 < layer.length ∧
        ∀ i (x : Neuron F), layer[i]? = some x →
          x.m_myIndex = i ∧
          (L + 1 < topology.length → topology[L + 1]? = some x.m_outputWeights.length) ∧
          (L + 1 = topology.length → x.m_outputWeights.length = 0) := by
  obtain ⟨net, calls', hnew, hsh, _⟩ := Net.new_spec P topology calls hfit
  refine ⟨net, calls', hnew, length_of_shapeOf hsh, ?_⟩
  intro L layer hl
  obtain ⟨w, hw, hlsh⟩ := shape_of_layer hsh hl
  have hlayer := length_of_layerShape hlsh
  refine ⟨by rw [hw, hlayer]; rfl, by omega, ?_⟩
  intro i x hx
  obtain ⟨_, hidx, hout⟩ := shape_of_getElem? hlsh hx
  refine ⟨hidx, ?_, ?_⟩
  · intro h
    rw [hout, List.getElem?_eq_getElem h]; rfl
  · intro h
    rw [hout, List.getElem?_eq_none (by omega)]; rfl

/-- C10, witness: the topology `[2, 2, 1]`. -/
theorem C10_constructor_shape_witness :
    ∃ net calls', Net.new samplePlatform [2, 2, 1] 0 = .ok (net, calls') ∧
      net.m_layers.length = [2, 2, 1].length ∧
      ∀ L layer, net.m_layers[L]? = some layer →
        [2, 2, 1][L]? = some (layer.length - 1) ∧ 0 < layer.length ∧
        ∀ i (x : Neuron Int), layer[i]? = some x →
          x.m_myIndex = i ∧
          (L + 1 < [2, 2, 1].length → [2, 2, 1][L + 1]? = some x.m_outputWeights.length) ∧
          (L + 1 = [2, 2, 1].length → x.m_outputWeights.length = 0) :=
  C10_constructor_shape samplePlatform [2, 2, 1] 0 (by decide)

/-- C11 (as amended): in every network built by `Net::Net`, each neuron of a non-final
layer has as many outgoing connections as the next layer has neurons without its bias
neuron (`outgoing.length + 1 == next_layer.length`), and each neuron of the final layer has
no outgoing connections. -/
theorem C11_connections_exclude_bias (P : Platform F) (topology : List Nat) (calls : Nat)
    (hfit : Fits topology) :
    ∃ net calls', Net.new P topology calls = .ok (net, calls') ∧
      ∀ L layer, net.m_layers[L]? = some layer → ∀ x ∈ layer,
        (∀ next, net.m_layers[L + 1]? = some next →
          x.m_outputWeights.length + 1 = next.length) ∧
        (net.m_layers[L + 1]? = none → x.m_outputWeights.length = 0) := by
  obtain ⟨net, calls', hnew, hsh, _⟩ := Net.new_spec P topology calls hfit
  refine ⟨net, calls', hnew, ?_⟩
  intro L layer hl x hx
  obtain ⟨w, _, hlsh⟩ := shape_of_layer hsh hl
  have hout := outputs_of_mem hlsh hx
  constructor
  · intro next hnext
    obtain ⟨w', hw', hnsh⟩ := shape_of_layer hsh hnext
    rw [hout, hw', length_of_layerShape hnsh]
    rfl
  · intro hnone
    have hlen := length_of_shapeOf hsh
    have : topology[L + 1]? = none := by
      rw [List.getElem?_eq_none_iff] at hnone ⊢
      omega
    rw [hout, this]
    rfl

/-- C11, witness: the topology `[2, 2, 1]`. -/
theorem C11_connections_exclude_bias_witness :
    ∃ net calls', Net.new samplePlatform [2, 2, 1] 0 = .ok (net, calls') ∧
      ∀ L layer, net.m_layers[L]? = some layer → ∀ x ∈ layer,
        (∀ next, net.m_layers[L + 1]? = some next →
          x.m_outputWeights.length + 1 = next.length) ∧
        (net.m_layers[L + 1]? = none → x.m_outputWeights.length = 0) :=
  C11_connections_exclude_bias samplePlatform [2, 2, 1] 0 (by decide)

/-- C11, counterexample: in the network built for the topology `[2, 2, 1]` the first
neuron of the input layer has 2 outgoing connections, while the next layer, bias neuron
included, has 3 neurons. -/
theorem C11_counterexample :
    ∃ net calls' l0 l1 x, Net.new samplePlatform [2, 2, 1] 0 = .ok (net, calls') ∧
      net.m_layers[0]? = some l0 ∧ net.m_layers[1]? = some l1 ∧ l0[0]? = some x ∧
      x.m_outputWeights.length = 2 ∧ l1.length = 3 :=
  ⟨_, _, _, _, _, rfl, rfl, rfl, rfl, rfl, rfl⟩

/-- C19 (as amended): the weight of connection `k` created by `Neuron::Neuron` is
`r / RAND_MAX` for the result `r` of one call of `rand()`, the call number `calls + k`;
with `0 <= r <= RAND_MAX` it lies in the closed interval `[0, 1]`, and is below `1`
exactly when `r < RAND_MAX`.  One generator output is consumed per connection. -/
theorem C19_initial_weights (P : Platform ℝ) (numOutputs myIndex calls : Nat)
    (hmax : 0 < P.RAND_MAX) (hr : ∀ k, P.rand k ≤ P.RAND_MAX) :
    (Neuron.new P numOutputs myIndex calls).1.m_outputWeights.length = numOutputs ∧
    (Neuron.new P numOutputs myIndex calls).2 = calls + numOutputs ∧
    ∀ k c, (Neuron.new P numOutputs myIndex calls).1.m_outputWeights[k]? = some c →
      c.weight = ((P.rand (calls + k) : Nat) : ℝ) / ((P.RAND_MAX : Nat) : ℝ) ∧
      0 ≤ c.weight ∧ c.weight ≤ 1 ∧
      (c.weight < 1 ↔ P.rand (calls + k) < P.RAND_MAX) := by
  obtain ⟨hw, hc⟩ := Neuron.new_weights P numOutputs myIndex calls
  refine ⟨by rw [hw]; simp, hc, ?_⟩
  intro k c hk
  rw [hw, List.getElem?_map] at hk
  have hklt : k < numOutputs := by
    rcases Nat.lt_or_ge k numOutputs with h | h
    · exact h
    · rw [List.getElem?_eq_none (by simpa using h)] at hk; cases hk
  rw [List.getElem?_range hklt] at hk
  have hc' : c = ⟨((P.rand (calls + k) : Nat) : ℝ) / ((P.RAND_MAX : Nat) : ℝ), 0⟩ :=
    (Option.some.inj hk).symm
  have hpos : (0 : ℝ) < ((P.RAND_MAX : Nat) : ℝ) := by exact_mod_cast hmax
  have hle : ((P.rand (calls + k) : Nat) : ℝ) ≤ ((P.RAND_MAX : Nat) : ℝ) := by
    exact_mod_cast hr (calls + k)
  subst hc'
  refine ⟨rfl, ?_, ?_, ?_⟩
  · exact div_nonneg (Nat.cast_nonneg _) hpos.le
  · exact (div_le_one hpos).mpr hle
  · show ((P.rand (calls + k) : Nat) : ℝ) / ((P.RAND_MAX : Nat) : ℝ) < 1 ↔ _
    rw [div_lt_one hpos]
    exact Nat.cast_lt

/-- C19, witness: three connections on the linear congruential platform. -/
theorem C19_initial_weights_witness :
    (Neuron.new (lcgPlatform : Platform ℝ) 3 0 0).1.m_outputWeights.length = 3 ∧
    (Neuron.new (lcgPlatform : Platform ℝ) 3 0 0).2 = 0 + 3 ∧
    ∀ k c, (Neuron.new (lcgPlatform : Platform ℝ) 3 0 0).1.m_outputWeights[k]? = some c →
      c.weight = (((lcgPlatform : Platform ℝ).rand (0 + k) : Nat) : ℝ)
        / (((lcgPlatform : Platform ℝ).RAND_MAX : Nat) : ℝ) ∧
      0 ≤ c.weight ∧ c.weight ≤ 1 ∧
      (c.weight < 1 ↔
        (lcgPlatform : Platform ℝ).rand (0 + k) < (lcgPlatform : Platform ℝ).RAND_MAX) :=
  C19_initial_weights lcgPlatform 3 0 0 (by decide)
    (fun k => Nat.le_of_lt_succ (Nat.mod_lt _ (by decide)))

/-- C19, counterexample: when `rand()` returns `RAND_MAX`, which lies in
`0 <= r <= RAND_MAX`, the weight created is `1`, not below `1`. -/
theorem C19_counterexample :
    (maxPlatform : Platform ℝ).rand 0 ≤ (maxPlatform : Platform ℝ).RAND_MAX ∧
    ∃ c ∈ (Neuron.new (maxPlatform : Platform ℝ) 1 0 0).1.m_outputWeights, ¬ c.weight < 1 := by
  refine ⟨Nat.le_refl _, ?_⟩
  rw [(Neuron.new_weights (maxPlatform : Platform ℝ) 1 0 0).1]
  refine ⟨_, List.mem_singleton.mpr rfl, ?_⟩
  simp [maxPlatform]

/-- C12: on a shape-correct network state with recent average `r` and a target vector `t`
of length `o = topology.last()`, `Net::backProp` (real arithmetic, smoothing factor `100`)
sets the error to `e = sqrt ((1 / o) * sum over the o non-bias output neurons n of
(t[n] - output[n])^2)` and the recent average error to `(r * 100 + e) / 101`, the outputs
being those before the call. -/
theorem C12_error_and_average (net : Net ℝ) (topology : List Nat) (targetVals : List ℝ)
    (hshape : shapeOf net.m_layers = topologyShape topology) (hfit : Fits topology)
    (hlen : 2 ≤ topology.length) (ht : topology.getLast? = some targetVals.length)
    (hpos : 0 < targetVals.length) :
    ∃ net' outputLayer, net.backProp Real.sqrt Statics.initial targetVals = .ok net' ∧
      net.m_layers.getLast? = some outputLayer ∧
      net'.m_error = Real.sqrt ((1 / (targetVals.length : ℝ)) *
        (List.zipWith (fun (t : ℝ) (x : Neuron ℝ) => (t - x.getOutputVal) ^ 2)
          targetVals outputLayer.dropLast).sum) ∧
      net'.m_recentAverageError = (net.m_recentAverageError * 100 + net'.m_error) / 101 := by
  obtain ⟨net', outputLayer, hok, hlast, _, herr, hrae⟩ :=
    Net.backProp_error net topology targetVals hshape hfit hlen ht hpos
  exact ⟨net', outputLayer, hok, hlast, herr, hrae⟩

/-- C12, witness: the network of topology `[2, 2, 1]` with unit weights and the target
vector `[3]`. -/
theorem C12_error_and_average_witness :
    ∃ net' outputLayer,
      (unitNet : Net ℝ).backProp Real.sqrt Statics.initial [3] = .ok net' ∧
      (unitNet : Net ℝ).m_layers.getLast? = some outputLayer ∧
      net'.m_error = Real.sqrt ((1 / (([3] : List ℝ).length : ℝ)) *
        (List.zipWith (fun (t : ℝ) (x : Neuron ℝ) => (t - x.getOutputVal) ^ 2)
          [3] outputLayer.dropLast).sum) ∧
      net'.m_recentAverageError
        = ((unitNet : Net ℝ).m_recentAverageError * 100 + net'.m_error) / 101 :=
  C12_error_and_average unitNet [2, 2, 1] [3] rfl (by decide) (by decide) rfl (by decide)

/-- C13: the RMS error `Net::backProp` computes (real arithmetic) is never negative, and
it is `0` when every non-bias value of the output layer equals its target, whatever the
output of the bias neuron. -/
theorem C13_error_nonneg (net : Net ℝ) (topology : List Nat) (targetVals : List ℝ)
    (hshape : shapeOf net.m_layers = topologyShape topology) (hfit : Fits topology)
    (hlen : 2 ≤ topology.length) (ht : topology.getLast? = some targetVals.length)
    (hpos : 0 < targetVals.length) :
    ∃ net' outputLayer, net.backProp Real.sqrt Statics.initial targetVals = .ok net' ∧
      net.m_layers.getLast? = some outputLayer ∧
      0 ≤ net'.m_error ∧
      (outputLayer.dropLast.map Neuron.getOutputVal = targetVals → net'.m_error = 0) := by
  obtain ⟨net', outputLayer, hok, hlast, _, herr, _⟩ :=
    Net.backProp_error net topology targetVals hshape hfit hlen ht hpos
  refine ⟨net', outputLayer, hok, hlast, ?_, ?_⟩
  · rw [herr]; exact Real.sqrt_nonneg _
  · intro heq
    rw [herr, ← heq, sum_squares_self, mul_zero, Real.sqrt_zero]

/-- C13, witness: the network of topology `[2, 2, 1]` with unit weights and the target
vector `[3]`. -/
theorem C13_error_nonneg_witness :
    ∃ net' outputLayer,
      (unitNet : Net ℝ).backProp Real.sqrt Statics.initial [3] = .ok net' ∧
      (unitNet : Net ℝ).m_layers.getLast? = some outputLayer ∧
      0 ≤ net'.m_error ∧
      (outputLayer.dropLast.map Neuron.getOutputVal = [3] → net'.m_error = 0) :=
  C13_error_nonneg unitNet [2, 2, 1] [3] rfl (by decide) (by decide) rfl (by decide)

/-- C20: on a shape-correct network state, `Net::feedForward` changes output values only
(the gradient, the index, the weights and the delta weights of every neuron, the error and
the recent average error are as before), and `Net::backProp` changes no output value, so
that `Net::getResults` returns the same before and after it. -/
theorem C20_frames (tanh sqrt : F → F) (S : Statics F) (net : Net F) (topology : List Nat)
    (inputVals targetVals : List F)
    (hshape : shapeOf net.m_layers = topologyShape topology) (hfit : Fits topology)
    (hlen : 2 ≤ topology.length) (hin : topology[0]? = some inputVals.length)
    (ht : topology.getLast? = some targetVals.length) (hpos : 0 < targetVals.length) :
    (∃ net₁, net.feedForward tanh inputVals = .ok net₁ ∧
      keptOf net₁.m_layers = keptOf net.m_layers ∧ net₁.m_error = net.m_error ∧
      net₁.m_recentAverageError = net.m_recentAverageError) ∧
    (∃ net₂, net.backProp sqrt S targetVals = .ok net₂ ∧
      net₂.m_layers.map (List.map Neuron.getOutputVal)
        = net.m_layers.map (List.map Neuron.getOutputVal) ∧
      net₂.getResults = net.getResults) := by
  constructor
  · have hhead := head_length_of_shape hshape hin
    exact ⟨_, Net.feedForward_layers tanh net inputVals topology hshape hfit (by omega),
      keptOf_forwardLayers tanh inputVals net.m_layers, rfl, rfl⟩
  · obtain ⟨net₂, _, hok, _, hfr, _⟩ := Net.backProp_frame sqrt S net targetVals topology _
      hshape hfit hlen ht hpos (Nat.le_refl _)
    exact ⟨net₂, hok, outputs_of_frameOf hfr,
      Net.getResults_of_frameOf net₂ net topology hshape hfit hfr⟩

/-- C20, witness: the sample network of topology `[2, 2, 1]`, inputs `[3, 4]`, targets
`[5]`. -/
theorem C20_frames_witness :
    (∃ net₁, sampleNet.feedForward id [3, 4] = .ok net₁ ∧
      keptOf net₁.m_layers = keptOf sampleNet.m_layers ∧ net₁.m_error = sampleNet.m_error ∧
      net₁.m_recentAverageError = sampleNet.m_recentAverageError) ∧
    (∃ net₂, sampleNet.backProp id sampleStatics [5] = .ok net₂ ∧
      net₂.m_layers.map (List.map Neuron.getOutputVal)
        = sampleNet.m_layers.map (List.map Neuron.getOutputVal) ∧
      net₂.getResults = sampleNet.getResults) :=
  C20_frames id id sampleStatics sampleNet [2, 2, 1] [3, 4] [5] rfl (by decide) (by decide)
    rfl rfl (by decide)

/-- C17: on a shape-correct network state and a target vector `t` of length
`topology.last()`, `Net::backProp` returns, and afterwards: every non-bias neuron `n` of the
output layer has the gradient `(t[n] - output_n) * (1 - output_n * output_n)`; every neuron
`h` (the bias neuron included) of every hidden layer `L` (`0 < L < last`) has the gradient
`(sum over the non-bias neurons n of layer L+1 of h.outgoing[n].weight * gradient_n)
* (1 - output_h * output_h)`, with the weights of `h` before the call and the gradients of
layer `L+1` after the call (set earlier in the same call, the layers being processed from
the last hidden layer back to the first); the gradients of the input layer are
unchanged. -/
theorem C17_gradients (sqrt : F → F) (S : Statics F) (net : Net F) (topology : List Nat)
    (targetVals : List F)
    (hshape : shapeOf net.m_layers = topologyShape topology) (hfit : Fits topology)
    (hlen : 2 ≤ topology.length) (ht : topology.getLast? = some targetVals.length)
    (hpos : 0 < targetVals.length) :
    ∃ net', net.backProp sqrt S targetVals = .ok net' ∧
      (∀ (L : Nat) (outputLayer : Layer F) (n : Nat) (x : Neuron F) (t : F), L + 1 = topology.length →
        net.m_layers[L]? = some outputLayer → n + 1 < outputLayer.length →
        outputLayer[n]? = some x → targetVals[n]? = some t →
        ∃ (outputLayer' : Layer F) (x' : Neuron F), net'.m_layers[L]? = some outputLayer' ∧
          outputLayer'[n]? = some x' ∧
          x'.m_gradient = (t - x.m_outputVal) * (1 - x.m_outputVal * x.m_outputVal)) ∧
      (∀ (L : Nat) (hiddenLayer : Layer F) (k : Nat) (h : Neuron F), 0 < L → L + 1 < topology.length →
        net.m_layers[L]? = some hiddenLayer → hiddenLayer[k]? = some h →
        ∃ (hiddenLayer' : Layer F) (h' : Neuron F) (nextLayer' : Layer F), net'.m_layers[L]? = some hiddenLayer' ∧
          hiddenLayer'[k]? = some h' ∧ net'.m_layers[L + 1]? = some nextLayer' ∧
          nextLayer'.length = h.m_outputWeights.length + 1 ∧
          h'.m_gradient
            = specDOW h.m_outputWeights nextLayer' * (1 - h.m_outputVal * h.m_outputVal)) ∧
      (∀ inputLayer, net.m_layers[0]? = some inputLayer →
        ∃ inputLayer', net'.m_layers[0]? = some inputLayer' ∧
          inputLayer'.map Neuron.m_gradient = inputLayer.map Neuron.m_gradient) := by
  obtain ⟨net', hrun, _, hall⟩ := Net.backProp_neurons sqrt S net targetVals topology
    targetVals.length hshape hfit hlen ht hpos (Nat.le_refl _)
  refine ⟨net', hrun, ?_, ?_, ?_⟩
  · intro L outputLayer n x t hL hl hn hx htn
    obtain ⟨l', x', hl', _, hx', _, _, _, hlast, _⟩ := hall L outputLayer n x hl hx
    refine ⟨l', x', hl', hx', ?_⟩
    rw [(hlast hL).2.2 hn]
    have : targetVals.getD n 0 = t := by
      rw [List.getD_eq_getElem?_getD, htn]; rfl
    rw [this]
  · intro L hiddenLayer k h hL0 hL hl hx
    obtain ⟨l', x', hl', _, hx', _, _, _, _, hmid⟩ := hall L hiddenLayer k h hl hx
    obtain ⟨nxt', hn, hnlen, _, hgrad, _⟩ := hmid hL
    exact ⟨l', x', nxt', hl', hx', hn, hnlen, hgrad hL0⟩
  · intro inputLayer hl
    obtain ⟨y, hy⟩ : ∃ y, net'.m_layers[0]? = some y := by
      have h1 : 0 < net.m_layers.length := lt_length_of_getElem? hl
      cases hnl : inputLayer with
      | nil =>
        obtain ⟨w, _, hw⟩ := shape_of_layer hshape hl
        have := length_of_layerShape hw
        rw [hnl] at this; simp at this
      | cons x xs =>
        obtain ⟨l', _, hl', _⟩ := hall 0 inputLayer 0 x hl (by rw [hnl]; simp)
        exact ⟨l', hl'⟩
    refine ⟨y, hy, ?_⟩
    apply List.ext_getElem?
    intro k
    rw [List.getElem?_map, List.getElem?_map]
    cases hx : inputLayer[k]? with
    | none =>
      have hk : inputLayer.length ≤ k := by
        rcases Nat.lt_or_ge k inputLayer.length with h | h
        · rw [List.getElem?_eq_getElem h] at hx; cases hx
        · exact h
      cases hnl : inputLayer with
      | nil =>
        obtain ⟨w, _, hw⟩ := shape_of_layer hshape hl
        have := length_of_layerShape hw
        rw [hnl] at this; simp at this
      | cons x xs =>
        obtain ⟨l', _, hl', hlen', _⟩ := hall 0 inputLayer 0 x hl (by rw [hnl]; simp)
        rw [hy] at hl'
        rw [← Option.some.inj hl'] at hlen'
        rw [List.getElem?_eq_none (by omega)]
    | some x =>
      obtain ⟨l', x', hl', _, hx', _, _, h0, _⟩ := hall 0 inputLayer k x hl hx
      rw [hy] at hl'
      rw [Option.some.inj hl', hx']
      exact congrArg some (h0 rfl)

/-- C17, witness: the integer network of topology `[2, 2, 1]` and the target vector
`[3]`. -/
theorem C17_gradients_witness :
    ∃ net', sampleNet.backProp id sampleStatics [3] = .ok net' ∧
      (∀ (L : Nat) (outputLayer : Layer Int) (n : Nat) (x : Neuron Int) (t : Int), L + 1 = [2, 2, 1].length →
        sampleNet.m_layers[L]? = some outputLayer → n + 1 < outputLayer.length →
        outputLayer[n]? = some x → ([3] : List Int)[n]? = some t →
        ∃ (outputLayer' : Layer Int) (x' : Neuron Int), net'.m_layers[L]? = some outputLayer' ∧
          outputLayer'[n]? = some x' ∧
          x'.m_gradient = (t - x.m_outputVal) * (1 - x.m_outputVal * x.m_outputVal)) ∧
      (∀ (L : Nat) (hiddenLayer : Layer Int) (k : Nat) (h : Neuron Int), 0 < L → L + 1 < [2, 2, 1].length →
        sampleNet.m_layers[L]? = some hiddenLayer → hiddenLayer[k]? = some h →
        ∃ (hiddenLayer' : Layer Int) (h' : Neuron Int) (nextLayer' : Layer Int), net'.m_layers[L]? = some hiddenLayer' ∧
          hiddenLayer'[k]? = some h' ∧ net'.m_layers[L + 1]? = some nextLayer' ∧
          nextLayer'.length = h.m_outputWeights.length + 1 ∧
          h'.m_gradient
            = specDOW h.m_outputWeights nextLayer' * (1 - h.m_outputVal * h.m_outputVal)) ∧
      (∀ inputLayer, sampleNet.m_layers[0]? = some inputLayer →
        ∃ inputLayer', net'.m_layers[0]? = some inputLayer' ∧
          inputLayer'.map Neuron.m_gradient = inputLayer.map Neuron.m_gradient) :=
  C17_gradients id sampleStatics sampleNet [2, 2, 1] [3] rfl (by decide) (by decide) rfl
    (by decide)

/-- C16: on a shape-correct network state and a target vector of length
`topology.last()`, `Net::backProp` (real arithmetic, `eta = 0.15`, `alpha = 0.5`) returns,
and every connection `c`, number `j`, of every neuron `p` (bias neurons included) of every
layer `L` leads to the non-bias neuron `j` of layer `L+1` and is updated exactly once:
`delta_weight_new = eta * p.output * g_j + alpha * delta_weight_old` and
`weight_new = weight_old + delta_weight_new`, so that the new delta weight is the change
applied to the weight. Here `g_j` is the gradient of neuron `j` after the call, set in the
same call from the weights before the call: `(t[j] - output_j) * (1 - output_j^2)` in the
output layer, `(sum over the non-bias neurons n of the layer after it of
outgoing[n].weight_old * gradient_n) * (1 - output_j^2)` in a hidden layer. The number of
connections of a neuron is unchanged and is the number of non-bias neurons of the next
layer. -/
theorem C16_weight_update (sqrt : ℝ → ℝ) (net : Net ℝ) (topology : List Nat)
    (targetVals : List ℝ)
    (hshape : shapeOf net.m_layers = topologyShape topology) (hfit : Fits topology)
    (hlen : 2 ≤ topology.length) (ht : topology.getLast? = some targetVals.length)
    (hpos : 0 < targetVals.length) :
    ∃ net', net.backProp sqrt Statics.initial targetVals = .ok net' ∧
      ∀ (L : Nat) (prevLayer : Layer ℝ) (k : Nat) (p : Neuron ℝ) (j : Nat) (c : Connection ℝ),
        net.m_layers[L]? = some prevLayer → prevLayer[k]? = some p →
        p.m_outputWeights[j]? = some c →
        ∃ (prevLayer' : Layer ℝ) (p' : Neuron ℝ) (c' : Connection ℝ)
          (layer layer' : Layer ℝ) (y y' : Neuron ℝ),
          net'.m_layers[L]? = some prevLayer' ∧ prevLayer'[k]? = some p' ∧
          p'.m_outputWeights[j]? = some c' ∧
          p'.m_outputWeights.length = p.m_outputWeights.length ∧
          net.m_layers[L + 1]? = some layer ∧ layer[j]? = some y ∧
          net'.m_layers[L + 1]? = some layer' ∧ layer'[j]? = some y' ∧
          layer'.length = p.m_outputWeights.length + 1 ∧
          c'.deltaWeight = 0.15 * p.m_outputVal * y'.m_gradient + 0.5 * c.deltaWeight ∧
          c'.weight = c.weight + c'.deltaWeight ∧
          c'.deltaWeight = c'.weight - c.weight ∧
          (L + 2 = topology.length → ∀ t, targetVals[j]? = some t →
            y'.m_gradient = (t - y.m_outputVal) * (1 - y.m_outputVal * y.m_outputVal)) ∧
          (L + 2 < topology.length → ∃ after' : Layer ℝ, net'.m_layers[L + 2]? = some after' ∧
            y'.m_gradient
              = specDOW y.m_outputWeights after' * (1 - y.m_outputVal * y.m_outputVal)) := by
  obtain ⟨net', hrun, hsU, hall⟩ := Net.backProp_neurons sqrt Statics.initial net targetVals
    topology targetVals.length hshape hfit hlen ht hpos (Nat.le_refl _)
  refine ⟨net', hrun, ?_⟩
  intro L prevLayer k p j c hl hp hc
  obtain ⟨l', p', hl', _, hp', _, _, _, hlast, hmid⟩ := hall L prevLayer k p hl hp
  have hj : j < p.m_outputWeights.length := lt_length_of_getElem? hc
  have hLlt : L < topology.length := by
    rw [← length_of_shapeOf hshape]; exact lt_length_of_getElem? hl
  -- the last layer holds no connections
  obtain ⟨w, hw, hls⟩ := shape_of_layer hshape hl
  have hpw : p.m_outputWeights.length = (topology[L + 1]?).getD 0 :=
    (shape_of_getElem? hls hp).2.2
  have hL1 : L + 1 < topology.length := by
    rcases Nat.lt_or_ge (L + 1) topology.length with h | h
    · exact h
    · rw [List.getElem?_eq_none h] at hpw
      have h0 : p.m_outputWeights.length = 0 := hpw
      omega
  obtain ⟨nxt', hn, hnlen, hwlen, _, hupd⟩ := hmid hL1
  obtain ⟨y', hy', hc'⟩ := hupd j c hc
  obtain ⟨layer, hlayer⟩ := getElem?_of_lt net.m_layers
    (show L + 1 < net.m_layers.length by rw [length_of_shapeOf hshape]; exact hL1)
  obtain ⟨w1, hw1, hls1⟩ := shape_of_layer hshape hlayer
  obtain ⟨w1', hw1', hns⟩ := shape_of_layer hsU hn
  rw [hw1] at hw1'
  have hww : w1 = w1' := Option.some.inj hw1'
  have hlayerlen : layer.length = nxt'.length := by
    rw [length_of_layerShape hls1, length_of_layerShape hns, hww]
  obtain ⟨y, hy⟩ := getElem?_of_lt layer (show j < layer.length by omega)
  obtain ⟨l1', y1', hl1', _, hy1', _, _, _, hlast1, hmid1⟩ := hall (L + 1) layer j y hlayer hy
  rw [hn] at hl1'
  rw [← Option.some.inj hl1', hy'] at hy1'
  have hyy : y' = y1' := Option.some.inj hy1'
  rw [← hyy] at hlast1 hmid1
  obtain ⟨he, ha, _⟩ := statics_initial_real
  refine ⟨l', p', _, layer, nxt', y, y', hl', hp', hc', hwlen, hlayer, hy, hn, hy', hnlen,
    ?_, ?_, ?_, ?_, ?_⟩
  · show Statics.initial.eta * p.m_outputVal * y'.m_gradient
      + Statics.initial.alpha * c.deltaWeight = _
    rw [he, ha]
  · rfl
  · show Statics.initial.eta * p.m_outputVal * y'.m_gradient
      + Statics.initial.alpha * c.deltaWeight
        = c.weight + (Statics.initial.eta * p.m_outputVal * y'.m_gradient
          + Statics.initial.alpha * c.deltaWeight) - c.weight
    ring
  · intro hL2 t htj
    have hjl : j + 1 < layer.length := by omega
    rw [(hlast1 hL2).2.2 hjl]
    have : targetVals.getD j 0 = t := by
      rw [List.getD_eq_getElem?_getD, htj]; rfl
    rw [this]
  · intro hL2
    obtain ⟨after', ha', _, _, hgrad, _⟩ := hmid1 hL2
    exact ⟨after', ha', hgrad (Nat.succ_pos L)⟩

/-- C16, witness: the network of topology `[2, 2, 1]` with unit weights and the target
vector `[3]`. -/
theorem C16_weight_update_witness :
    ∃ net', (unitNet : Net ℝ).backProp Real.sqrt Statics.initial [3] = .ok net' ∧
      ∀ (L : Nat) (prevLayer : Layer ℝ) (k : Nat) (p : Neuron ℝ) (j : Nat) (c : Connection ℝ),
        (unitNet : Net ℝ).m_layers[L]? = some prevLayer → prevLayer[k]? = some p →
        p.m_outputWeights[j]? = some c →
        ∃ (prevLayer' : Layer ℝ) (p' : Neuron ℝ) (c' : Connection ℝ)
          (layer layer' : Layer ℝ) (y y' : Neuron ℝ),
          net'.m_layers[L]? = some prevLayer' ∧ prevLayer'[k]? = some p' ∧
          p'.m_outputWeights[j]? = some c' ∧
          p'.m_outputWeights.length = p.m_outputWeights.length ∧
          (unitNet : Net ℝ).m_layers[L + 1]? = some layer ∧ layer[j]? = some y ∧
          net'.m_layers[L + 1]? = some layer' ∧ layer'[j]? = some y' ∧
          layer'.length = p.m_outputWeights.length + 1 ∧
          c'.deltaWeight = 0.15 * p.m_outputVal * y'.m_gradient + 0.5 * c.deltaWeight ∧
          c'.weight = c.weight + c'.deltaWeight ∧
          c'.deltaWeight = c'.weight - c.weight ∧
          (L + 2 = [2, 2, 1].length → ∀ t, ([3] : List ℝ)[j]? = some t →
            y'.m_gradient = (t - y.m_outputVal) * (1 - y.m_outputVal * y.m_outputVal)) ∧
          (L + 2 < [2, 2, 1].length → ∃ after' : Layer ℝ,
            net'.m_layers[L + 2]? = some after' ∧
            y'.m_gradient
              = specDOW y.m_outputWeights after' * (1 - y.m_outputVal * y.m_outputVal)) :=
  C16_weight_update Real.sqrt unitNet [2, 2, 1] [3] rfl (by decide) (by decide) rfl (by decide)

/-- C14, amended: with the learning rate `eta` set to `0` (`alpha = 0.5` unchanged), on a
shape-correct network state and a target vector of length `topology.last()`,
`Net::backProp` (real arithmetic) adds `alpha * delta_weight_old` to the weight of every
connection and stores it as the new delta weight, so that a weight is unchanged where
the stored delta weight is `0`; the recent average error is still updated to
`(old * 100 + error) / 101`. -/
theorem C14_eta_zero (net : Net ℝ) (topology : List Nat) (targetVals : List ℝ)
    (hshape : shapeOf net.m_layers = topologyShape topology) (hfit : Fits topology)
    (hlen : 2 ≤ topology.length) (ht : topology.getLast? = some targetVals.length)
    (hpos : 0 < targetVals.length) :
    ∃ net', net.backProp Real.sqrt (Statics.initial.withEta 0) targetVals = .ok net' ∧
      (∀ (L : Nat) (l : Layer ℝ) (k : Nat) (p : Neuron ℝ) (j : Nat) (c : Connection ℝ),
        net.m_layers[L]? = some l → l[k]? = some p → p.m_outputWeights[j]? = some c →
        ∃ (l' : Layer ℝ) (p' : Neuron ℝ) (c' : Connection ℝ),
          net'.m_layers[L]? = some l' ∧ l'[k]? = some p' ∧
          p'.m_outputWeights[j]? = some c' ∧
          p'.m_outputWeights.length = p.m_outputWeights.length ∧
          c'.weight = c.weight + 0.5 * c.deltaWeight ∧
          c'.deltaWeight = 0.5 * c.deltaWeight ∧
          (c.deltaWeight = 0 → c'.weight = c.weight)) ∧
      net'.m_recentAverageError = (net.m_recentAverageError * 100 + net'.m_error) / 101 := by
  obtain ⟨net', hrun, _, hall⟩ := Net.backProp_neurons Real.sqrt (Statics.initial.withEta 0)
    net targetVals topology targetVals.length hshape hfit hlen ht hpos (Nat.le_refl _)
  obtain ⟨net'', _, hrun2, _, _, _, hrae⟩ := Net.backProp_frame Real.sqrt
    (Statics.initial.withEta 0) net targetVals topology targetVals.length hshape hfit hlen ht
    hpos (Nat.le_refl _)
  rw [hrun] at hrun2
  have hnn : net' = net'' := Except.ok.inj hrun2
  rw [← hnn] at hrae
  refine ⟨net', hrun, ?_, ?_⟩
  · intro L l k p j c hl hp hc
    obtain ⟨l', p', hl', _, hp', _, _, _, _, hmid⟩ := hall L l k p hl hp
    have hj : j < p.m_outputWeights.length := lt_length_of_getElem? hc
    obtain ⟨w, hw, hls⟩ := shape_of_layer hshape hl
    have hpw : p.m_outputWeights.length = (topology[L + 1]?).getD 0 :=
      (shape_of_getElem? hls hp).2.2
    have hL1 : L + 1 < topology.length := by
      rcases Nat.lt_or_ge (L + 1) topology.length with h | h
      · exact h
      · rw [List.getElem?_eq_none h] at hpw
        have h0 : p.m_outputWeights.length = 0 := hpw
        omega
    obtain ⟨nxt', _, _, hwlen, _, hupd⟩ := hmid hL1
    obtain ⟨y', _, hc'⟩ := hupd j c hc
    obtain ⟨h1, h2⟩ := Connection.update_eta_zero p.m_outputVal y'.m_gradient c
    refine ⟨l', p', _, hl', hp', hc', hwlen, h1, h2, ?_⟩
    intro h0
    rw [h1, h0]
    ring
  · rw [hrae]
    have hsm : (Statics.initial.withEta (0 : ℝ)).m_recentAverageSmoothingFactor = 100 :=
      statics_initial_real.2.2
    rw [hsm]
    norm_num

/-- C14, amended, witness: the network of topology `[2, 2, 1]` with unit weights and the
target vector `[3]`. -/
theorem C14_eta_zero_witness :
    ∃ net', (unitNet : Net ℝ).backProp Real.sqrt (Statics.initial.withEta 0) [3] = .ok net' ∧
      (∀ (L : Nat) (l : Layer ℝ) (k : Nat) (p : Neuron ℝ) (j : Nat) (c : Connection ℝ),
        (unitNet : Net ℝ).m_layers[L]? = some l → l[k]? = some p →
        p.m_outputWeights[j]? = some c →
        ∃ (l' : Layer ℝ) (p' : Neuron ℝ) (c' : Connection ℝ),
          net'.m_layers[L]? = some l' ∧ l'[k]? = some p' ∧
          p'.m_outputWeights[j]? = some c' ∧
          p'.m_outputWeights.length = p.m_outputWeights.length ∧
          c'.weight = c.weight + 0.5 * c.deltaWeight ∧
          c'.deltaWeight = 0.5 * c.deltaWeight ∧
          (c.deltaWeight = 0 → c'.weight = c.weight)) ∧
      net'.m_recentAverageError
        = ((unitNet : Net ℝ).m_recentAverageError * 100 + net'.m_error) / 101 :=
  C14_eta_zero unitNet [2, 2, 1] [3] rfl (by decide) (by decide) rfl (by decide)

/-- C14, counterexample: on the network of topology `[2, 2, 1]` with every stored delta
weight `1.0`, a shape-correct state, `Net::backProp` with `eta = 0` and `alpha = 0.5` for
the target vector `[3]` changes the weight of connection `0` of neuron `0` of the input
layer: it adds `0.5` to it. -/
theorem C14_counterexample :
    shapeOf ((unitNet : Net ℝ).withDeltaWeights 1).m_layers = topologyShape [2, 2, 1] ∧
    ∃ (net' : Net ℝ) (l l' : Layer ℝ) (p p' : Neuron ℝ) (c c' : Connection ℝ),
      ((unitNet : Net ℝ).withDeltaWeights 1).backProp Real.sqrt (Statics.initial.withEta 0) [3]
        = .ok net' ∧
      ((unitNet : Net ℝ).withDeltaWeights 1).m_layers[0]? = some l ∧ l[0]? = some p ∧
      p.m_outputWeights[0]? = some c ∧
      net'.m_layers[0]? = some l' ∧ l'[0]? = some p' ∧ p'.m_outputWeights[0]? = some c' ∧
      c'.weight = c.weight + 0.5 ∧ c'.weight ≠ c.weight := by
  have hshape : shapeOf ((unitNet : Net ℝ).withDeltaWeights 1).m_layers
      = topologyShape [2, 2, 1] := rfl
  refine ⟨hshape, ?_⟩
  obtain ⟨net', hrun, _, hall⟩ := Net.backProp_neurons Real.sqrt (Statics.initial.withEta 0)
    ((unitNet : Net ℝ).withDeltaWeights 1) [3] [2, 2, 1] 1 hshape (by decide) (by decide) rfl
    (by decide) (Nat.le_refl _)
  obtain ⟨l, hl⟩ := getElem?_of_lt ((unitNet : Net ℝ).withDeltaWeights 1).m_layers
    (show 0 < ((unitNet : Net ℝ).withDeltaWeights 1).m_layers.length by
      rw [length_of_shapeOf hshape]; decide)
  obtain ⟨w, hw, hls⟩ := shape_of_layer hshape hl
  have hw2 : w = 2 := by
    have : some 2 = some w := hw
    exact (Option.some.inj this).symm
  subst hw2
  obtain ⟨p, hp⟩ := getElem?_of_lt l
    (show 0 < l.length by rw [length_of_layerShape hls]; decide)
  have hpw : p.m_outputWeights.length = 2 := (shape_of_getElem? hls hp).2.2
  obtain ⟨c, hc⟩ := getElem?_of_lt p.m_outputWeights
    (show 0 < p.m_outputWeights.length by rw [hpw]; decide)
  have hd : c.deltaWeight = 1 :=
    deltaWeight_withDeltaWeights 1 unitNet l (List.getElem?_mem hl) p (List.getElem?_mem hp) c
      (List.getElem?_mem hc)
  obtain ⟨l', p', hl', _, hp', _, _, _, _, hmid⟩ := hall 0 l 0 p hl hp
  obtain ⟨nxt', _, _, _, _, hupd⟩ := hmid (by decide)
  obtain ⟨y', _, hc'⟩ := hupd 0 c hc
  obtain ⟨h1, _⟩ := Connection.update_eta_zero p.m_outputVal y'.m_gradient c
  rw [hd] at h1
  refine ⟨net', l, l', p, p', c, _, hrun, hl, hp, hc, hl', hp', hc', ?_, ?_⟩
  · rw [h1]; ring
  · rw [h1]
    intro h
    have : (0.5 : ℝ) * 1 = 0 := by linarith
    norm_num at this

/-- C18, amended: on a shape-correct network state and a target vector of length
`topology.last()`, `Net::backProp` returns and leaves the gradient of the bias (last) neuron
of the input layer and of the output layer unchanged, but sets the gradient of the bias
neuron of every hidden layer like that of any other hidden neuron, to
`(sum over the non-bias neurons n of the next layer of outgoing[n].weight * gradient_n)
* (1 - output * output)`; the weight update is never run for a bias neuron: each layer
but the last is, after the call, the result of the calls of `Neuron::updateInputWeights`
for the neurons of the next layer without its last one, made on the layer with its weights
of before the call, and no connection leads to a bias neuron. -/
theorem C18_bias_neurons (sqrt : F → F) (S : Statics F) (net : Net F) (topology : List Nat)
    (targetVals : List F)
    (hshape : shapeOf net.m_layers = topologyShape topology) (hfit : Fits topology)
    (hlen : 2 ≤ topology.length) (ht : topology.getLast? = some targetVals.length)
    (hpos : 0 < targetVals.length) :
    ∃ net', net.backProp sqrt S targetVals = .ok net' ∧
      ∀ (L : Nat) (l : Layer F) (b : Neuron F), net.m_layers[L]? = some l →
        l.getLast? = some b →
        ∃ (l' : Layer F) (b' : Neuron F), net'.m_layers[L]? = some l' ∧
          l'.getLast? = some b' ∧
          (L = 0 ∨ L + 1 = topology.length → b'.m_gradient = b.m_gradient) ∧
          (0 < L → L + 1 < topology.length → ∃ nextLayer' : Layer F,
            net'.m_layers[L + 1]? = some nextLayer' ∧
            b'.m_gradient
              = specDOW b.m_outputWeights nextLayer' * (1 - b.m_outputVal * b.m_outputVal)) ∧
          (L + 1 < topology.length → ∃ (g nextLayer' : Layer F),
            net'.m_layers[L + 1]? = some nextLayer' ∧
            g.map Neuron.m_outputWeights = l.map Neuron.m_outputWeights ∧
            g.map Neuron.graded = l'.map Neuron.graded ∧
            nextLayer'.dropLast.foldlM
              (fun prev (x : Neuron F) => x.updateInputWeights S prev) g = .ok l' ∧
            ∀ p ∈ l, p.m_outputWeights.length = nextLayer'.dropLast.length) := by
  obtain ⟨net', hrun, _, hall⟩ := Net.backProp_neurons sqrt S net targetVals topology
    targetVals.length hshape hfit hlen ht hpos (Nat.le_refl _)
  obtain ⟨net'', hrun2, hcalls⟩ := Net.backProp_updateCalls sqrt S net targetVals topology
    targetVals.length hshape hfit hlen ht hpos (Nat.le_refl _)
  rw [hrun] at hrun2
  have hnn : net' = net'' := Except.ok.inj hrun2
  rw [← hnn] at hcalls
  refine ⟨net', hrun, ?_⟩
  intro L l b hl hb
  rw [List.getLast?_eq_getElem?] at hb
  have hblt : l.length - 1 < l.length := lt_length_of_getElem? hb
  obtain ⟨l', b', hl', hl'len, hb', _, _, h0, hlast, hmid⟩ := hall L l (l.length - 1) b hl hb
  refine ⟨l', b', hl', by rw [List.getLast?_eq_getElem?, hl'len]; exact hb', ?_, ?_, ?_⟩
  · intro h
    rcases h with h | h
    · exact h0 h
    · exact (hlast h).2.1 (by omega)
  · intro hp hL
    obtain ⟨nxt', hn, _, _, hgrad, _⟩ := hmid hL
    exact ⟨nxt', hn, hgrad hp⟩
  · intro hL
    obtain ⟨g, l'', nxt', hl'', hn, hgw, hgg, hfold⟩ := hcalls L l hL hl
    rw [hl'] at hl''
    have hll : l' = l'' := Option.some.inj hl''
    rw [← hll] at hgg hfold
    refine ⟨g, nxt', hn, hgw, hgg, hfold, ?_⟩
    intro p hp
    obtain ⟨k, hk⟩ := List.getElem?_of_mem hp
    obtain ⟨l₂, _, hl₂, _, _, _, _, _, _, hmid₂⟩ := hall L l k p hl hk
    obtain ⟨nxt₂, hn₂, hnlen, _⟩ := hmid₂ hL
    rw [hn] at hn₂
    rw [← Option.some.inj hn₂] at hnlen
    rw [List.length_dropLast, hnlen, Nat.add_sub_cancel]

/-- C18, amended, witness: the integer network of topology `[2, 2, 1]` and the target
vector `[3]`. -/
theorem C18_bias_neurons_witness :
    ∃ net', sampleNet.backProp id sampleStatics [3] = .ok net' ∧
      ∀ (L : Nat) (l : Layer Int) (b : Neuron Int), sampleNet.m_layers[L]? = some l →
        l.getLast? = some b →
        ∃ (l' : Layer Int) (b' : Neuron Int), net'.m_layers[L]? = some l' ∧
          l'.getLast? = some b' ∧
          (L = 0 ∨ L + 1 = [2, 2, 1].length → b'.m_gradient = b.m_gradient) ∧
          (0 < L → L + 1 < [2, 2, 1].length → ∃ nextLayer' : Layer Int,
            net'.m_layers[L + 1]? = some nextLayer' ∧
            b'.m_gradient
              = specDOW b.m_outputWeights nextLayer' * (1 - b.m_outputVal * b.m_outputVal)) ∧
          (L + 1 < [2, 2, 1].length → ∃ (g nextLayer' : Layer Int),
            net'.m_layers[L + 1]? = some nextLayer' ∧
            g.map Neuron.m_outputWeights = l.map Neuron.m_outputWeights ∧
            g.map Neuron.graded = l'.map Neuron.graded ∧
            nextLayer'.dropLast.foldlM
              (fun prev (x : Neuron Int) => x.updateInputWeights sampleStatics prev) g
                = .ok l' ∧
            ∀ p ∈ l, p.m_outputWeights.length = nextLayer'.dropLast.length) :=
  C18_bias_neurons id sampleStatics sampleNet [2, 2, 1] [3] rfl (by decide) (by decide) rfl
    (by decide)

/-- C18, counterexample: in the network built for the topology `[2, 2, 1]` on a platform
whose uninitialised members hold `7`, the bias neuron of the hidden layer has the gradient
`7` before `Net::backProp` and the gradient `0` after it. -/
theorem C18_counterexample :
    ∃ (net net' : Net Int) (calls' : Nat) (l l' : Layer Int) (b b' : Neuron Int),
      Net.new strayPlatform [2, 2, 1] 0 = .ok (net, calls') ∧
      shapeOf net.m_layers = topologyShape [2, 2, 1] ∧
      net.backProp id sampleStatics [3] = .ok net' ∧
      net.m_layers[1]? = some l ∧ l.getLast? = some b ∧
      net'.m_layers[1]? = some l' ∧ l'.getLast? = some b' ∧
      b.m_gradient = 7 ∧ b'.m_gradient = 0 :=
  ⟨_, _, _, _, _, _, _, rfl, rfl, rfl, rfl, rfl, rfl, rfl, rfl, rfl⟩

/-- C15: `TrainingData::getTopology` yields `[2, 2, 1]` for the line `topology: 2 2 1`, but
for the line that has the label, a space and no numbers it returns a topology of one
element, the unassigned `unsigned n` (the extraction fails at the end of the stream after
the test of `eof()` has let the loop body run), and `main` hands that topology to
`Net::Net`, which builds a network: with `0` in the unassigned `n`, a network of one layer
that holds the bias neuron only. -/
theorem C15_getTopology :
    (∀ indet, TrainingData.getTopology indet [] topologyLine false
      = Reading.returned [2, 2, 1]) ∧
    (∀ indet, TrainingData.getTopology indet [] emptyTopologyLine false
      = Reading.returned [indet 0 % 2 ^ 32]) ∧
    (∃ net : Net Int, mainSetup samplePlatform (fun _ => 0) emptyTopologyLine false
        = .ok (some ([0], net)) ∧ net.m_layers.map List.length = [1]) :=
  ⟨fun _ => rfl, fun _ => rfl, ⟨_, rfl, rfl⟩⟩

end Claims

end NeuralNetwork
